import Mathlib

/-! WS2812 NeoPixel driver for the Raspberry Pi (`ws2812-RPi.c`)

A shallow embedding of the driver's data path: the brightness setter, the pixel buffer, the
waveform encoder of `show()`, the bit packer `setPWMBit`, the DMA control block length computed by
`initHardware()` and the page-map address translation.

Conventions of the embedding.

* The target is the 32-bit ARM of the Raspberry Pi: `unsigned int` and pointers are 32 bits wide,
  `unsigned char` is 8 bits. Machine integers are natural numbers, reduced `% 2 ^ 32` where the C
  operation can leave the range.
* Arrays are lists. An access outside an array, or a conversion whose C behaviour is undefined,
  ends the run with a `Fault` instead of a state.
* The header `ws2812-RPi.h` is not part of the sources. Its constants (`NUM_PIXELS`,
  `NUM_DATA_WORDS`, `NUM_PAGES`, `PAGE_SHIFT`, `PAGE_SIZE`) are parameters, collected in `Config`.
* `float` is IEEE-754 binary32 with round-to-nearest-even and no excess precision, as on the
  target's VFP unit. A value is kept as a sign and a dyadic fraction `num / 2 ^ den`.
-/

namespace WS2812

deriving instance DecidableEq for Except

/-! ## Constants of the missing header -/

/-- The compile-time constants of the header `ws2812-RPi.h`, which is not among the sources: they
are parameters of the embedding. `NUM_PIXELS` is the length of `LEDBuffer`, `NUM_DATA_WORDS` the
length of `PWMWaveform` and of the DMA sample area, `NUM_PAGES` the number of entries of
`page_map`. -/
structure Config where
  NUM_PIXELS : Nat
  NUM_DATA_WORDS : Nat
  NUM_PAGES : Nat
  PAGE_SHIFT : Nat
  PAGE_SIZE : Nat
  deriving DecidableEq, Repr

/-- What the source relies on about the constants: a page is `2 ^ PAGE_SHIFT` bytes
(`offset >> PAGE_SHIFT` and `offset % PAGE_SIZE` split one offset), the locked region
`NUM_PAGES * PAGE_SIZE` is addressable with 32 bits, and `NUM_DATA_WORDS * 32`, which `show()`
evaluates as an `int`, does not overflow. -/
structure Config.Valid (cfg : Config) : Prop where
  page_size : cfg.PAGE_SIZE = 2 ^ cfg.PAGE_SHIFT
  region : cfg.NUM_PAGES * cfg.PAGE_SIZE ≤ 2 ^ 32
  bits : cfg.NUM_DATA_WORDS * 32 < 2 ^ 31

/-! ## Faults -/

/-- The ways a run leaves defined C behaviour. -/
inductive Fault where
  /-- `LEDBuffer[i]` with `i` outside the array. -/
  | ledBufferIndex (i : Nat)
  /-- `PWMWaveform[w]` with `w` outside the array. -/
  | waveformIndex (w : Nat)
  /-- `ctl->sample[i]` with `i` outside the array. -/
  | sampleIndex (i : Nat)
  /-- Conversion of a `float` to `unsigned char` whose integral part is not in `0..255`. -/
  | charConversion
  /-- Conversion of a `double` to `unsigned int` whose integral part is not below `2 ^ 32`. -/
  | uintConversion
  /-- `page_map[i]` with `i` outside the array. -/
  | pageMapIndex (i : Nat)
  /-- The path through `fatal()`, which calls `terminate()` and exits. -/
  | fatal
  /-- An access through a pointer that is still null. -/
  | nullPointer
  /-- An access to `page_map` after `free(page_map)`. -/
  | useAfterFree
  /-- A second `free(page_map)`. -/
  | doubleFree
  deriving DecidableEq, Repr

/-! ## The `float` type -/

/-- Number of binary digits of `n`, with `fuel` bounding the recursion. -/
def bitLenAux : Nat → Nat → Nat
  | 0, _ => 0
  | fuel + 1, n => if n = 0 then 0 else bitLenAux fuel (n / 2) + 1

/-- Number of binary digits of `n` (`0` for `0`). -/
def bitLen (n : Nat) : Nat := bitLenAux n n

/-- A C `float`: not-a-number, an infinity, or the finite value `(-1) ^ neg * num / 2 ^ den`. -/
inductive CFloat where
  | nan : CFloat
  | inf (neg : Bool) : CFloat
  | fin (neg : Bool) (num den : Nat) : CFloat
  deriving DecidableEq, Repr

namespace CFloat

/-- The rational value of a finite float. -/
def toRat : CFloat → Option ℚ
  | nan => none
  | inf _ => none
  | fin neg num den => some ((if neg then -1 else 1) * (num : ℚ) / 2 ^ den)

/-- Rounding of the exact value `num / 2 ^ den` to binary32, to nearest with ties to even: the
result keeps 24 significant bits, or fewer when the unit in the last place would fall below
`2 ^ (-149)`; `drop` is the number of low bits of `num` that do not fit. A result of `2 ^ 128` or
more overflows to infinity. -/
def round (neg : Bool) (num den : Nat) : CFloat :=
  let drop := max (bitLen num - 24) (den - 149)
  let q := num / 2 ^ drop
  let r := num % 2 ^ drop
  let up := decide (2 ^ drop < 2 * r) || (decide (2 * r = 2 ^ drop) && decide (q % 2 = 1))
  let m := if up then q + 1 else q
  if 2 ^ 128 * 2 ^ den ≤ m * 2 ^ drop then inf neg else fin neg (m * 2 ^ drop) den

/-- Conversion of a non-negative `int` below `2 ^ 24` to `float`, which is exact: the constants
`0` and `1`, and an `unsigned char` after promotion. -/
def ofSmallInt (c : Nat) : CFloat := fin false c 0

/-- The `float` product. -/
def mul : CFloat → CFloat → CFloat
  | nan, _ => nan
  | _, nan => nan
  | inf n1, inf n2 => inf (xor n1 n2)
  | inf n1, fin n2 num _ => if num = 0 then nan else inf (xor n1 n2)
  | fin n1 num _, inf n2 => if num = 0 then nan else inf (xor n1 n2)
  | fin n1 a d1, fin n2 b d2 => round (xor n1 n2) (a * b) (d1 + d2)

/-- Signed numerator of a finite value. -/
def signed (neg : Bool) (num : Nat) : Int := if neg then -(num : Int) else (num : Int)

/-- The comparison `a < b` of two floats; false when either is not a number. -/
def lt : CFloat → CFloat → Bool
  | nan, _ => false
  | _, nan => false
  | inf n1, inf n2 => n1 && !n2
  | inf n1, fin _ _ _ => n1
  | fin _ _ _, inf n2 => !n2
  | fin n1 a d1, fin n2 b d2 => decide (signed n1 a * 2 ^ d2 < signed n2 b * 2 ^ d1)

/-- Conversion of a `float` to `unsigned char`: the fraction is discarded, and the behaviour is
undefined unless the integral part is in `0..255`. -/
def toUChar : CFloat → Except Fault Nat
  | nan => .error .charConversion
  | inf _ => .error .charConversion
  | fin neg num den =>
    let t := num / 2 ^ den
    if t = 0 then .ok 0
    else if neg then .error .charConversion
    else if t < 256 then .ok t
    else .error .charConversion

end CFloat

/-! ## Pixels and driver state -/

/-- Modelled from the spec: the struct `Color_t` of the missing header, a colour of three 8-bit
channels r, g, b (`unsigned char` in the source, which prints and shifts them as such). -/
structure Color_t where
  r : Nat
  g : Nat
  b : Nat
  deriving DecidableEq, Repr

/-- Modelled from the spec: the globals of the driver, which the missing header declares, as far
as the modelled functions read and write them. `numLEDs` is the LED count, `brightness` the scalar
applied at encode time (a `float`, like the parameter of `setBrightness`), `LEDBuffer` the pixel
buffer of `NUM_PIXELS` colours, `PWMWaveform` the waveform buffer of `NUM_DATA_WORDS` words,
`cbLength` the length field of the one control block `ctl->cb[0]`, and `sample` the word array
`ctl->sample` behind it in the locked region, from which the DMA engine reads. -/
structure State where
  numLEDs : Nat
  brightness : CFloat
  LEDBuffer : List Color_t
  PWMWaveform : List Nat
  cbLength : Nat
  sample : List Nat
  deriving DecidableEq, Repr

/-- Turn r, g and b into a `Color_t`. -/
def RGB2Color (r g b : Nat) : Color_t := { r := r, g := g, b := b }

/-- Alias of `RGB2Color`. -/
def Color (r g b : Nat) : Color_t := RGB2Color r g b

/-- The function `setBrightness(b)`: rejects `b < 0` and `b > 1`, otherwise stores `b`. Returns the
C return value and the state left behind. -/
def setBrightness (b : CFloat) (s : State) : Bool × State :=
  if CFloat.lt b (CFloat.ofSmallInt 0) then (false, s)
  else if CFloat.lt (CFloat.ofSmallInt 1) b then (false, s)
  else (true, { s with brightness := b })

/-- The function `clearPWMBuffer()`: `memset` of `NUM_DATA_WORDS * 4` bytes of `PWMWaveform`. -/
def clearPWMBuffer (cfg : Config) (s : State) : State :=
  { s with PWMWaveform := List.replicate cfg.NUM_DATA_WORDS 0 }

/-! ## The bit packer -/

/-- The function `setPWMBit(bitPos, bit)`: sets (`bit = 1`) or clears (`bit = 0`) bit
`31 - bitIdx` of word `bitPos / 32`; any other value of `bit` falls through the `switch`.
The mask `1 << (31 - bitIdx)` is `2 ^ (31 - bitIdx)` as a 32-bit pattern, and its complement
`~(1 << (31 - bitIdx))` is that pattern xor `0xFFFFFFFF`. -/
def setPWMBit (PWMWaveform : List Nat) (bitPos : Nat) (bit : Nat) : Except Fault (List Nat) :=
  let wordOffset := bitPos / 32
  let bitIdx := bitPos - wordOffset * 32
  match bit with
  | 1 =>
    match PWMWaveform[wordOffset]? with
    | none => .error (.waveformIndex wordOffset)
    | some w => .ok (PWMWaveform.set wordOffset ((w ||| (1 <<< (31 - bitIdx))) % 2 ^ 32))
  | 0 =>
    match PWMWaveform[wordOffset]? with
    | none => .error (.waveformIndex wordOffset)
    | some w =>
      .ok (PWMWaveform.set wordOffset ((w &&& (0xFFFFFFFF ^^^ (1 <<< (31 - bitIdx)))) % 2 ^ 32))
  | _ => .ok PWMWaveform

/-- Output bit at absolute position `p` of a waveform, in the packing convention of the spec:
bit `31 - (p mod 32)` of word `p / 32`. -/
def wireBitAt (wave : List Nat) (p : Nat) : Bool :=
  (wave.getD (p / 32) 0).testBit (31 - p % 32)

/-! ## The transmit operation `show()` -/

/-- One `LEDBuffer[i].c *= brightness`: the channel is converted to `float`, multiplied, and the
product converted back to `unsigned char`. -/
def scaleChannel (c : Nat) (brightness : CFloat) : Except Fault Nat :=
  CFloat.toUChar (CFloat.mul (CFloat.ofSmallInt c) brightness)

/-- The value `colorBits` that `show()` assembles from a pixel:
`(r << 8) | (g << 16) | b`. -/
def colorBitsOf (c : Color_t) : Nat := (c.r <<< 8) ||| (c.g <<< 16) ||| c.b

/-- Three consecutive `setPWMBit(wireBit++, _)` calls; `wireBit` is an `unsigned int`. -/
def setThree (wave : List Nat) (wireBit : Nat) (b0 b1 b2 : Nat) :
    Except Fault (List Nat × Nat) :=
  match setPWMBit wave wireBit b0 with
  | .error f => .error f
  | .ok w1 =>
    let wireBit1 := (wireBit + 1) % 2 ^ 32
    match setPWMBit w1 wireBit1 b1 with
    | .error f => .error f
    | .ok w2 =>
      let wireBit2 := (wireBit1 + 1) % 2 ^ 32
      match setPWMBit w2 wireBit2 b2 with
      | .error f => .error f
      | .ok w3 => .ok (w3, (wireBit2 + 1) % 2 ^ 32)

/-- The inner loop of `show()`, `for(j=23; j>=0; j--)`, entered with `j + 1` bits still to go:
bit `j` of `colorBits` becomes high-high-low when set and high-low-low when clear. -/
def encodeColor (colorBits : Nat) : Nat → List Nat → Nat → Except Fault (List Nat × Nat)
  | 0, wave, wireBit => .ok (wave, wireBit)
  | j + 1, wave, wireBit =>
    let colorBit : Nat := if colorBits &&& (1 <<< j) ≠ 0 then 1 else 0
    let step :=
      match colorBit with
      | 1 => setThree wave wireBit 1 1 0
      | _ => setThree wave wireBit 1 0 0
    match step with
    | .error f => .error f
    | .ok (wave1, wireBit1) => encodeColor colorBits j wave1 wireBit1

/-- The outer loop of `show()`, `for(i=0; i<numLEDs; i++)`, with `n` pixels still to go from
index `i`: the stored pixel is scaled in place, then encoded. -/
def encodePixels (brightness : CFloat) :
    Nat → Nat → List Color_t → List Nat → Nat → Except Fault (List Color_t × List Nat × Nat)
  | 0, _, leds, wave, wireBit => .ok (leds, wave, wireBit)
  | n + 1, i, leds, wave, wireBit =>
    match leds[i]? with
    | none => .error (.ledBufferIndex i)
    | some c =>
      match scaleChannel c.r brightness with
      | .error f => .error f
      | .ok r =>
        match scaleChannel c.g brightness with
        | .error f => .error f
        | .ok g =>
          match scaleChannel c.b brightness with
          | .error f => .error f
          | .ok b =>
            let px : Color_t := { r := r, g := g, b := b }
            match encodeColor (colorBitsOf px) 24 wave wireBit with
            | .error f => .error f
            | .ok (wave1, wireBit1) =>
              encodePixels brightness n (i + 1) (leds.set i px) wave1 wireBit1

/-- The copy loop of `show()`, `for(i = 0; i < cbp->length / 4; i++) ctl->sample[i] =
PWMWaveform[i]`, with `n` words still to go from index `i`. -/
def copyWords (wave : List Nat) : Nat → Nat → List Nat → Except Fault (List Nat)
  | 0, _, sample => .ok sample
  | n + 1, i, sample =>
    match wave[i]? with
    | none => .error (.waveformIndex i)
    | some w =>
      if i < sample.length then copyWords wave n (i + 1) (sample.set i w)
      else .error (.sampleIndex i)

/-- The function `show()` up to the call of `startTransfer()`: scale and encode the first
`numLEDs` pixels, then copy `cbp->length / 4` words of the waveform into the DMA sample area.
The register writes of `startTransfer()` and the final delay touch none of these buffers. -/
def showLeds (s : State) : Except Fault State :=
  match encodePixels s.brightness s.numLEDs 0 s.LEDBuffer s.PWMWaveform 0 with
  | .error f => .error f
  | .ok (leds, wave, _) =>
    match copyWords wave (s.cbLength / 4) 0 s.sample with
    | .error f => .error f
    | .ok sample => .ok { s with LEDBuffer := leds, PWMWaveform := wave, sample := sample }

/-! ## The control block length of `initHardware()` -/

/-- The value of the `double` expression `((numLEDs * 2.25) + 1) * 4`. For a 32-bit `numLEDs`
each of the three operations is exact in binary64, so the value is the rational one. -/
def lengthExpr (numLEDs : Nat) : ℚ := (((numLEDs : ℚ) * 2.25) + 1) * 4

/-- The assignment `cbp->length = ((numLEDs * 2.25) + 1) * 4`: the `double` is converted to the
32-bit unsigned `length` by discarding the fraction, which is undefined from `2 ^ 32` on. -/
def unclampedLength (numLEDs : Nat) : Except Fault Nat :=
  if lengthExpr numLEDs < 2 ^ 32 then .ok ⌊lengthExpr numLEDs⌋₊ else .error .uintConversion

/-- The control block length as `initHardware()` leaves it: the assignment followed by
`if(cbp->length > NUM_DATA_WORDS * 4) cbp->length = NUM_DATA_WORDS * 4`. -/
def initLength (cfg : Config) (numLEDs : Nat) : Except Fault Nat :=
  match unclampedLength numLEDs with
  | .error f => .error f
  | .ok length => if length > cfg.NUM_DATA_WORDS * 4 then .ok (cfg.NUM_DATA_WORDS * 4) else .ok length

/-! ## The page map -/

/-- Modelled from the spec: the struct `page_map_t` of the missing header, one entry of the page
map: the virtual address of a page of the locked region and its physical (bus) address. -/
structure page_map_t where
  virtaddr : Nat
  physaddr : Nat
  deriving DecidableEq, Repr

/-- The function `mem_virt_to_phys(virt)`; `offset` is an `unsigned int`, the pointer difference
reduced to 32 bits. -/
def mem_virt_to_phys (cfg : Config) (virtbase : Nat) (page_map : List page_map_t) (virt : Nat) :
    Except Fault Nat :=
  let offset := (virt % 2 ^ 32 + 2 ^ 32 - virtbase % 2 ^ 32) % 2 ^ 32
  match page_map[offset >>> cfg.PAGE_SHIFT]? with
  | none => .error (.pageMapIndex (offset >>> cfg.PAGE_SHIFT))
  | some e => .ok ((e.physaddr + offset % cfg.PAGE_SIZE) % 2 ^ 32)

/-- The search loop of `mem_phys_to_virt`, `for (i = 0; i < NUM_PAGES; i++)`, with `n` entries
still to go from index `i`; running off the end is the `fatal()` path. -/
def findPage (cfg : Config) (virtbase : Nat) (page_map : List page_map_t)
    (pg_addr pg_offset : Nat) : Nat → Nat → Except Fault Nat
  | 0, _ => .error .fatal
  | n + 1, i =>
    match page_map[i]? with
    | none => .error (.pageMapIndex i)
    | some e =>
      if e.physaddr = pg_addr then .ok ((virtbase + i * cfg.PAGE_SIZE + pg_offset) % 2 ^ 32)
      else findPage cfg virtbase page_map pg_addr pg_offset n (i + 1)

/-- The function `mem_phys_to_virt(phys)`. -/
def mem_phys_to_virt (cfg : Config) (virtbase : Nat) (page_map : List page_map_t) (phys : Nat) :
    Except Fault Nat :=
  let pg_offset := phys &&& (cfg.PAGE_SIZE - 1)
  let pg_addr := phys - pg_offset
  findPage cfg virtbase page_map pg_addr pg_offset cfg.NUM_PAGES 0

/-! ## Well-formedness -/

/-- Every stored channel is an 8-bit value, as the type `unsigned char` guarantees. -/
def ChannelsOk (leds : List Color_t) : Prop :=
  ∀ (j : Nat) (c : Color_t), leds[j]? = some c → c.r < 256 ∧ c.g < 256 ∧ c.b < 256

/-- Every word of the waveform is a 32-bit value, as the type `unsigned int` guarantees. -/
def WordsOk (wave : List Nat) : Prop := ∀ j : Nat, wave.getD j 0 < 2 ^ 32

/-- The state invariant between calls: the three arrays have their declared lengths, their
elements fit their C types, and the control block length is within the sample area, as the clamp
of `initHardware()` leaves it. -/
structure State.WF (cfg : Config) (s : State) : Prop where
  leds_length : s.LEDBuffer.length = cfg.NUM_PIXELS
  wave_length : s.PWMWaveform.length = cfg.NUM_DATA_WORDS
  sample_length : s.sample.length = cfg.NUM_DATA_WORDS
  channels : ChannelsOk s.LEDBuffer
  words : WordsOk s.PWMWaveform
  cb_length : s.cbLength ≤ cfg.NUM_DATA_WORDS * 4

/-- The 24-bit wire value of a pixel in the words of the spec: green in bits 16 to 23, red in
bits 8 to 15, blue in bits 0 to 7. -/
def wireValue (c : Color_t) : Nat := c.g * 2 ^ 16 + c.r * 2 ^ 8 + c.b

/-- The truncation toward zero of the binary32 product of a channel `c` and a brightness of value
`q`, written in terms of the exact product `c * q`: with `F = ⌊c * q⌋` it is `F + 1` when the
exact product lies within half a unit in the last place, `2 ^ (bitLen F - 25)`, of the integer
`F + 1` (the product then rounds to that integer), and `F` otherwise. -/
def roundedTrunc (c : Nat) (q : ℚ) : Nat :=
  if ((⌊(c : ℚ) * q⌋₊ : ℚ) + 1 - (c : ℚ) * q) * 2 ^ 25 ≤ 2 ^ bitLen ⌊(c : ℚ) * q⌋₊
  then ⌊(c : ℚ) * q⌋₊ + 1 else ⌊(c : ℚ) * q⌋₊

/-- The control block length in bytes in the words of the spec: `ceil(N * 72 / 32) + 1` words
of four bytes, the ceiling taken as `(72 * N + 31) / 32`. -/
def specLength (numLEDs : Nat) : Nat := 4 * ((72 * numLEDs + 31) / 32 + 1)

/-- The page base of a physical address in the words of the spec: the address with its low
`PAGE_SHIFT` bits cleared. -/
def pageBase (cfg : Config) (p : Nat) : Nat := (p >>> cfg.PAGE_SHIFT) <<< cfg.PAGE_SHIFT

/-! ## A small configuration for concrete runs -/

/-- One pixel, a waveform of three words (96 bits for the 72 of one pixel), one page of 4 KiB. -/
def demoConfig : Config :=
  { NUM_PIXELS := 1, NUM_DATA_WORDS := 3, NUM_PAGES := 1, PAGE_SHIFT := 12, PAGE_SIZE := 4096 }

/-- The brightness `1.0f`. -/
def brightnessOne : CFloat := CFloat.fin false 1 0

/-- One black pixel at brightness `1.0`, over a waveform left from an earlier frame. -/
def demoBlack : State :=
  { numLEDs := 1, brightness := brightnessOne, LEDBuffer := [Color 0 0 0],
    PWMWaveform := [0xFFFFFFFF, 0x12345678, 0xFFFFFFFF], cbLength := 12, sample := [0, 0, 0] }

/-- One white pixel at brightness `1.0`, over a cleared waveform. -/
def demoWhite : State :=
  { numLEDs := 1, brightness := brightnessOne, LEDBuffer := [Color 255 255 255],
    PWMWaveform := [0, 0, 0], cbLength := 12, sample := [0, 0, 0] }

/-- The brightness `0.7f`: the binary32 value nearest to `0.7`, `11744051 / 2 ^ 24`. -/
def brightnessDim : CFloat := CFloat.fin false 11744051 24

/-- One pixel `(10, 20, 30)` at brightness `0.7f`, over a cleared waveform. -/
def demoDim : State :=
  { numLEDs := 1, brightness := brightnessDim, LEDBuffer := [Color 10 20 30],
    PWMWaveform := [0, 0, 0], cbLength := 12, sample := [0, 0, 0] }

/-- As `demoConfig`, with a waveform of four words. -/
def roomyConfig : Config :=
  { NUM_PIXELS := 1, NUM_DATA_WORDS := 4, NUM_PAGES := 1, PAGE_SHIFT := 12, PAGE_SIZE := 4096 }

/-- As `demoBlack`, over a cleared waveform. -/
def demoBlackCleared : State := { demoBlack with PWMWaveform := [0, 0, 0] }

/-- Two pixels configured over a waveform of three words, which holds the 72 bits of one pixel
but not the 144 bits of two. -/
def overConfig : Config :=
  { NUM_PIXELS := 2, NUM_DATA_WORDS := 3, NUM_PAGES := 1, PAGE_SHIFT := 12, PAGE_SIZE := 4096 }

/-- The state after `initHardware()` under `overConfig` with `numLEDs = 2`: the control block
length is the clamped `12`. -/
def overState : State :=
  { numLEDs := 2, brightness := brightnessOne, LEDBuffer := [Color 0 0 0, Color 0 0 0],
    PWMWaveform := [0, 0, 0], cbLength := 12, sample := [0, 0, 0] }

/-- A page map of two pages whose frames lie in reverse order. -/
def demoPages : List page_map_t :=
  [{ virtaddr := 0x10000, physaddr := 0x40005000 }, { virtaddr := 0x11000, physaddr := 0x40003000 }]

/-- The constants for `demoPages`. -/
def pagesConfig : Config :=
  { NUM_PIXELS := 1, NUM_DATA_WORDS := 3, NUM_PAGES := 2, PAGE_SHIFT := 12, PAGE_SIZE := 4096 }

/-! ## The pixel API -/

/-- The function `setPixelColor(pixel, r, g, b)`, called with 8-bit channel values. The index is
an `unsigned int`, so the test `pixel < 0` never holds; the test against `NUM_PIXELS` is commented
out in the source, which leaves the store `LEDBuffer[pixel] = ...` unguarded: outside the array
it is the fault `ledBufferIndex`, not a return value. -/
def setPixelColor (pixel r g b : Nat) (s : State) : Except Fault (Bool × State) :=
  if pixel < 0 then .ok (false, s)
  else if pixel < s.LEDBuffer.length then
    .ok (true, { s with LEDBuffer := s.LEDBuffer.set pixel (RGB2Color r g b) })
  else .error (.ledBufferIndex pixel)

/-- The function `setPixelColorT(pixel, c)`: as `setPixelColor`, with the colour given as a
`Color_t`. -/
def setPixelColorT (pixel : Nat) (c : Color_t) (s : State) : Except Fault (Bool × State) :=
  if pixel < 0 then .ok (false, s)
  else if pixel < s.LEDBuffer.length then
    .ok (true, { s with LEDBuffer := s.LEDBuffer.set pixel c })
  else .error (.ledBufferIndex pixel)

/-- The function `getPixelColor(pixel)`: the test against `NUM_PIXELS` is commented out here
too, and the read `LEDBuffer[pixel]` is unguarded: outside the array it is the fault
`ledBufferIndex`. -/
def getPixelColor (pixel : Nat) (s : State) : Except Fault Color_t :=
  if pixel < 0 then .ok (RGB2Color 0 0 0)
  else
    match s.LEDBuffer[pixel]? with
    | some c => .ok c
    | none => .error (.ledBufferIndex pixel)

/-- The function `numPixels()`. -/
def numPixels (s : State) : Nat := s.numLEDs

/-- The first loop of `terminate()`, `for (i=0; i < numPixels(); i++) setPixelColor(i, 0, 0, 0)`,
with `n` pixels still to go from index `i`; the return value of `setPixelColor` is dropped. -/
def zeroPixels : Nat → Nat → State → Except Fault State
  | 0, _, s => .ok s
  | n + 1, i, s =>
    match setPixelColor i 0 0 0 s with
    | .error f => .error f
    | .ok (_, s1) => zeroPixels n (i + 1) s1

/-! ## Bit reversal -/

/-- The loop of `reverseWord`, `for(i=0; i<32; i++)`, with `n` turns still to go from `i`:
`output |= word & (1 << i) ? 1 : 0`, then `output <<= 1` unless `i` is 31. -/
def reverseLoop (word : Nat) : Nat → Nat → Nat → Nat
  | 0, _, output => output
  | n + 1, i, output =>
    let output1 := output ||| (if word &&& (1 <<< i) ≠ 0 then 1 else 0)
    let output2 := if i < 31 then (output1 <<< 1) % 2 ^ 32 else output1
    reverseLoop word n (i + 1) output2

/-- The function `reverseWord(word)`. -/
def reverseWord (word : Nat) : Nat := reverseLoop word 32 0 0

/-! ## The page-table query of `initHardware()` -/

/-- The value tested by `if ((pfn >> 55)&0xfbf != 0x10c)`. In C `!=` binds tighter than `&`, so
the expression is `(pfn >> 55) & (0xfbf != 0x10c)`, and `0xfbf != 0x10c` is `1`. -/
def presentTest (pfn : Nat) : Nat := (pfn >>> 55) &&& (if (0xfbf : Nat) ≠ 0x10c then 1 else 0)

/-- One turn of the page loop of `initHardware()` after the 64-bit entry `pfn` has been read:
the `fatal()` call when the test is non-zero, otherwise the value stored in
`page_map[i].physaddr`, `(unsigned int)pfn << PAGE_SHIFT | 0x40000000`. -/
def recordPage (cfg : Config) (pfn : Nat) : Except Fault Nat :=
  if presentTest pfn ≠ 0 then .error .fatal
  else .ok ((((pfn % 2 ^ 32) <<< cfg.PAGE_SHIFT) % 2 ^ 32) ||| 0x40000000)

/-- The present bit of a pagemap entry in the words of the spec: bit 63. -/
def entryPresent (pfn : Nat) : Bool := pfn.testBit 63

/-! ## Registers, `startTransfer()` and `terminate()` -/

/-- The constants and layout of the missing header that `startTransfer()` and `terminate()` use:
they are parameters of the embedding. `DMA_CS_CONFIGWORD` is a register value, the next four are
bit numbers, and `cb_offset` is the offset of the member `cb` in `struct control_data_s`. -/
structure HwConfig where
  DMA_CS_CONFIGWORD : Nat
  DMA_CS_ACTIVE : Nat
  DMA_CS_RESET : Nat
  PWM_CTL_PWEN1 : Nat
  PWM_CTL_CLRF1 : Nat
  cb_offset : Nat
  deriving DecidableEq, Repr

/-- What the source relies on about these constants: the bit numbers are those of a 32-bit
register and the configuration word is a 32-bit value. -/
structure HwConfig.Valid (hw : HwConfig) : Prop where
  configword : hw.DMA_CS_CONFIGWORD < 2 ^ 32
  active : hw.DMA_CS_ACTIVE < 32
  reset : hw.DMA_CS_RESET < 32
  pwen1 : hw.PWM_CTL_PWEN1 < 32
  clrf1 : hw.PWM_CTL_CLRF1 < 32

/-- Modelled from the spec: the macro `SETBIT(word, bit)` of the missing header, which sets one
bit of a 32-bit register word. -/
def SETBIT (word bit : Nat) : Nat := (word ||| (1 <<< bit)) % 2 ^ 32

/-- Modelled from the spec: the macro `CLRBIT(word, bit)` of the missing header, which clears one
bit of a 32-bit register word; clearing a bit that is clear changes nothing. -/
def CLRBIT (word bit : Nat) : Nat := (word &&& (0xFFFFFFFF ^^^ (1 <<< bit))) % 2 ^ 32

/-- The registers that `startTransfer()` and `terminate()` write, by name. -/
inductive Reg where
  | DMA_CS
  | DMA_CONBLK_AD
  | PWM_CTL
  deriving DecidableEq, Repr

/-- The state of the pointer `page_map`: null, pointing to the allocated array, or still
pointing to it after `free(page_map)`. -/
inductive Ownership where
  | unallocated
  | owned
  | released
  deriving DecidableEq, Repr

/-- Modelled from the spec: the process state that shutdown acts on. `st` holds the buffers,
`virtbase` and `page_map` the locked region and its page map, `page_map_own` the ownership of
`page_map`, `dma_reg` and `pwm_reg` whether the register blocks are mapped (the pointers are not
null), `DMA_CS`, `DMA_CONBLK_AD` and `PWM_CTL` the register values as last written by the program
(what the hardware does to them on its own is outside the model), and `writes` the register writes
so far, oldest first. -/
structure Process where
  st : State
  virtbase : Nat
  page_map : List page_map_t
  page_map_own : Ownership
  dma_reg : Bool
  pwm_reg : Bool
  DMA_CS : Nat
  DMA_CONBLK_AD : Nat
  PWM_CTL : Nat
  writes : List (Reg × Nat)
  deriving DecidableEq, Repr

/-- One register write: the value is stored and the write is appended to the trace. -/
def writeReg (p : Process) (r : Reg) (v : Nat) : Process :=
  match r with
  | .DMA_CS => { p with DMA_CS := v, writes := p.writes ++ [(r, v)] }
  | .DMA_CONBLK_AD => { p with DMA_CONBLK_AD := v, writes := p.writes ++ [(r, v)] }
  | .PWM_CTL => { p with PWM_CTL := v, writes := p.writes ++ [(r, v)] }

/-- The function `startTransfer()`: `dma_reg[DMA_CONBLK_AD] = mem_virt_to_phys(ctl->cb)`,
`dma_reg[DMA_CS] = DMA_CS_CONFIGWORD | (1 << DMA_CS_ACTIVE)`, a delay, and
`SETBIT(pwm_reg[PWM_CTL], PWM_CTL_PWEN1)`. The translation reads `page_map`. -/
def startTransfer (cfg : Config) (hw : HwConfig) (p : Process) : Except Fault Process :=
  match p.page_map_own with
  | .unallocated => .error .nullPointer
  | .released => .error .useAfterFree
  | .owned =>
    match mem_virt_to_phys cfg p.virtbase p.page_map (p.virtbase + hw.cb_offset) with
    | .error f => .error f
    | .ok phys =>
      if p.dma_reg = false then .error .nullPointer
      else
        let p1 := writeReg p .DMA_CONBLK_AD phys
        let p2 := writeReg p1 .DMA_CS ((hw.DMA_CS_CONFIGWORD ||| (1 <<< hw.DMA_CS_ACTIVE)) % 2 ^ 32)
        if p.pwm_reg = false then .error .nullPointer
        else .ok (writeReg p2 .PWM_CTL (SETBIT p2.PWM_CTL hw.PWM_CTL_PWEN1))

/-- The function `show()` in full: the buffers as in `showLeds`, then `startTransfer()`. The
final delay changes nothing. -/
def showAll (cfg : Config) (hw : HwConfig) (p : Process) : Except Fault Process :=
  match showLeds p.st with
  | .error f => .error f
  | .ok st1 => startTransfer cfg hw { p with st := st1 }

/-- The step `if(dma_reg) { CLRBIT(dma_reg[DMA_CS], DMA_CS_ACTIVE); ... SETBIT(dma_reg[DMA_CS],
DMA_CS_RESET); }` of `terminate()`. -/
def shutdownDMA (hw : HwConfig) (p : Process) : Process :=
  if p.dma_reg then
    let p1 := writeReg p .DMA_CS (CLRBIT p.DMA_CS hw.DMA_CS_ACTIVE)
    writeReg p1 .DMA_CS (SETBIT p1.DMA_CS hw.DMA_CS_RESET)
  else p

/-- The step `if(pwm_reg) { CLRBIT(pwm_reg[PWM_CTL], PWM_CTL_PWEN1); ... pwm_reg[PWM_CTL] =
(1 << PWM_CTL_CLRF1); }` of `terminate()`. -/
def shutdownPWM (hw : HwConfig) (p : Process) : Process :=
  if p.pwm_reg then
    let p1 := writeReg p .PWM_CTL (CLRBIT p.PWM_CTL hw.PWM_CTL_PWEN1)
    writeReg p1 .PWM_CTL ((1 <<< hw.PWM_CTL_CLRF1) % 2 ^ 32)
  else p

/-- The step `if(page_map != 0) free(page_map)` of `terminate()`: the pointer keeps its value
after the `free`. -/
def freePageMap (p : Process) : Except Fault Process :=
  match p.page_map_own with
  | .unallocated => .ok p
  | .owned => .ok { p with page_map_own := .released }
  | .released => .error .doubleFree

/-- The function `terminate()` up to its `exit(1)`: zero the pixels, `show()`, shut down DMA and
PWM, free the page map. The result is the state in which the process exits. -/
def terminate (cfg : Config) (hw : HwConfig) (p : Process) : Except Fault Process :=
  match zeroPixels (numPixels p.st) 0 p.st with
  | .error f => .error f
  | .ok st1 =>
    match showAll cfg hw { p with st := st1 } with
    | .error f => .error f
    | .ok p2 => freePageMap (shutdownPWM hw (shutdownDMA hw p2))

/-- The register constants of the BCM2835 as a concrete `HwConfig`, with the control block at
the start of the locked region. -/
def demoHw : HwConfig :=
  { DMA_CS_CONFIGWORD := 0x10880000, DMA_CS_ACTIVE := 0, DMA_CS_RESET := 31, PWM_CTL_PWEN1 := 0,
    PWM_CTL_CLRF1 := 6, cb_offset := 0 }

/-- A running process with one white pixel: registers mapped, page map allocated, a transfer
started earlier. -/
def demoProcess : Process :=
  { st := demoWhite, virtbase := 0x10000,
    page_map := [{ virtaddr := 0x10000, physaddr := 0x40005000 }], page_map_own := .owned,
    dma_reg := true, pwm_reg := true, DMA_CS := 0x10880001, DMA_CONBLK_AD := 0x40005000,
    PWM_CTL := 0xA1, writes := [] }

/-! ## Binary digits and rounding -/

theorem bitLenAux_spec (fuel : Nat) : ∀ n, n ≤ fuel →
    n < 2 ^ bitLenAux fuel n ∧ (n ≠ 0 → 2 ^ (bitLenAux fuel n - 1) ≤ n) := by
  induction fuel with
  | zero =>
    intro n hn
    have h0 : n = 0 := by omega
    subst h0
    simp [bitLenAux]
  | succ fuel ih =>
    intro n hn
    by_cases h0 : n = 0
    · subst h0
      simp [bitLenAux]
    · have hle : n / 2 ≤ fuel := by omega
      obtain ⟨h1, h2⟩ := ih (n / 2) hle
      simp only [bitLenAux, h0, if_false]
      constructor
      · rw [pow_succ]
        omega
      · intro _
        simp only [Nat.add_sub_cancel]
        by_cases h2' : n / 2 = 0
        · have hz : bitLenAux fuel (n / 2) = 0 := by
            rw [h2']
            cases fuel <;> simp [bitLenAux]
          rw [hz]
          simp
          omega
        · have h3 := h2 h2'
          have hpos : 0 < bitLenAux fuel (n / 2) := by
            rcases Nat.eq_zero_or_pos (bitLenAux fuel (n / 2)) with hc | hc
            · rw [hc] at h1
              simp at h1
              exact absurd h1 h2'
            · exact hc
          obtain ⟨k, hk⟩ : ∃ k, bitLenAux fuel (n / 2) = k + 1 := ⟨_, (Nat.succ_pred_eq_of_pos hpos).symm⟩
          rw [hk] at h3 ⊢
          simp only [Nat.add_sub_cancel] at h3
          rw [pow_succ]
          omega

theorem bitLen_le {n k : Nat} (h : n < 2 ^ k) : bitLen n ≤ k := by
  by_cases h0 : n = 0
  · subst h0
    have : bitLen 0 = 0 := by simp [bitLen, bitLenAux]
    omega
  · have h1 := (bitLenAux_spec n n (le_refl n)).2 h0
    have h2 : 2 ^ (bitLen n - 1) < 2 ^ k := lt_of_le_of_lt h1 h
    have h3 : bitLen n - 1 < k := (Nat.pow_lt_pow_iff_right (by norm_num)).mp h2
    omega

/-- Rounding `num` to a multiple of `2 ^ drop` never passes a multiple that is at least `num`. -/
theorem round_up_le {num drop M : Nat} (hM : 2 ^ drop ∣ M) (hN : num ≤ M)
    (hr : 0 < num % 2 ^ drop) : (num / 2 ^ drop + 1) * 2 ^ drop ≤ M := by
  obtain ⟨t, rfl⟩ := hM
  have hpos : 0 < 2 ^ drop := Nat.two_pow_pos drop
  have hdm := Nat.div_add_mod num (2 ^ drop)
  have hlt : num / 2 ^ drop < t := by
    by_contra hc
    have hge : t ≤ num / 2 ^ drop := by omega
    have := Nat.mul_le_mul_left (2 ^ drop) hge
    omega
  calc (num / 2 ^ drop + 1) * 2 ^ drop ≤ t * 2 ^ drop := Nat.mul_le_mul_right _ hlt
    _ = 2 ^ drop * t := Nat.mul_comm _ _

/-- A product that is bounded by a value representable at the precision of the rounding stays
bounded by it, stays finite, and a zero stays zero. -/
theorem round_le (neg : Bool) {num den M : Nat}
    (hM : 2 ^ (max (bitLen num - 24) (den - 149)) ∣ M) (hN : num ≤ M)
    (hov : M < 2 ^ 128 * 2 ^ den) :
    ∃ m, CFloat.round neg num den = CFloat.fin neg m den ∧ m ≤ M ∧ (num = 0 → m = 0) := by
  unfold CFloat.round
  generalize max (bitLen num - 24) (den - 149) = drop at hM
  have hpos : 0 < 2 ^ drop := Nat.two_pow_pos drop
  have hq : num / 2 ^ drop * 2 ^ drop ≤ M := le_trans (Nat.div_mul_le_self _ _) hN
  simp only []
  by_cases hup : (decide (2 ^ drop < 2 * (num % 2 ^ drop)) ||
      (decide (2 * (num % 2 ^ drop) = 2 ^ drop) && decide (num / 2 ^ drop % 2 = 1))) = true
  · have hr : 0 < num % 2 ^ drop := by
      simp only [Bool.or_eq_true, Bool.and_eq_true, decide_eq_true_eq] at hup
      omega
    have hle := round_up_le hM hN hr
    rw [if_pos hup, if_neg (by omega)]
    refine ⟨_, rfl, hle, ?_⟩
    intro h0
    rw [h0] at hr
    simp at hr
  · rw [if_neg hup, if_neg (by omega)]
    refine ⟨_, rfl, hq, ?_⟩
    intro h0
    rw [h0]
    simp

/-- A value that needs no more bits than the format offers is not changed by the rounding. -/
theorem round_exact (neg : Bool) {num den : Nat}
    (hd : 2 ^ (max (bitLen num - 24) (den - 149)) ∣ num) (hov : num < 2 ^ 128 * 2 ^ den) :
    CFloat.round neg num den = CFloat.fin neg num den := by
  unfold CFloat.round
  generalize max (bitLen num - 24) (den - 149) = drop at hd
  have hpos : 0 < 2 ^ drop := Nat.two_pow_pos drop
  have hr : num % 2 ^ drop = 0 := Nat.mod_eq_zero_of_dvd hd
  have hq : num / 2 ^ drop * 2 ^ drop = num := Nat.div_mul_cancel hd
  simp only [hr]
  have hup : (decide (2 ^ drop < 2 * 0) ||
      (decide (2 * 0 = 2 ^ drop) && decide (num / 2 ^ drop % 2 = 1))) = false := by
    simp only [Bool.or_eq_false_iff, Bool.and_eq_false_iff, decide_eq_false_iff_not]
    omega
  rw [hup]
  simp only [Bool.false_eq_true, if_false, hq]
  rw [if_neg (by omega)]

/-- The number of dropped bits of a product `c * num` with `num ≤ 2 ^ den` and an 8-bit `c` is at
most `den`. -/
theorem drop_le_den {c num den : Nat} (hnum : num ≤ 2 ^ den) (hc : c < 256) :
    max (bitLen (c * num) - 24) (den - 149) ≤ den := by
  have hpd : 0 < 2 ^ den := Nat.two_pow_pos den
  have hbl : bitLen (c * num) ≤ den + 8 := by
    apply bitLen_le
    calc c * num ≤ c * 2 ^ den := Nat.mul_le_mul_left c hnum
      _ < 256 * 2 ^ den := Nat.mul_lt_mul_of_pos_right hc hpd
      _ = 2 ^ (den + 8) := by rw [pow_add]; ring
  omega

/-- A finite float in the unit interval, in terms of its numerator. -/
theorem inUnit_fin {neg : Bool} {num den : Nat} {q : ℚ}
    (hq : (CFloat.fin neg num den).toRat = some q) (h0 : 0 ≤ q) (h1 : q ≤ 1) :
    num ≤ 2 ^ den ∧ (neg = false ∨ num = 0) := by
  simp only [CFloat.toRat, Option.some.injEq] at hq
  subst hq
  have hp : (0 : ℚ) < 2 ^ den := by positivity
  cases neg
  · simp only [Bool.false_eq_true, if_false, one_mul] at h1
    rw [div_le_one hp] at h1
    refine ⟨by exact_mod_cast h1, Or.inl rfl⟩
  · simp only [if_true, neg_mul, one_mul] at h0
    rw [le_div_iff₀ hp] at h0
    simp only [zero_mul, Left.nonneg_neg_iff] at h0
    have hz : num = 0 := by
      have : (num : ℚ) = 0 := le_antisymm h0 (Nat.cast_nonneg num)
      exact_mod_cast this
    subst hz
    exact ⟨Nat.zero_le _, Or.inr rfl⟩

theorem scale_fin_le {neg : Bool} {num den c : Nat} (hnum : num ≤ 2 ^ den)
    (hneg : neg = false ∨ num = 0) (hc : c < 256) :
    ∃ t, scaleChannel c (CFloat.fin neg num den) = .ok t ∧ t ≤ c := by
  have hpd : 0 < 2 ^ den := Nat.two_pow_pos den
  have hdvd : 2 ^ (max (bitLen (c * num) - 24) (den - 149)) ∣ c * 2 ^ den :=
    Dvd.dvd.mul_left (pow_dvd_pow 2 (drop_le_den hnum hc)) c
  have hov : c * 2 ^ den < 2 ^ 128 * 2 ^ den :=
    Nat.mul_lt_mul_of_pos_right (lt_trans hc (by norm_num)) hpd
  obtain ⟨m, hm, hmle, hm0⟩ := round_le neg hdvd (Nat.mul_le_mul_left c hnum) hov
  have ht : m / 2 ^ den ≤ c := by
    calc m / 2 ^ den ≤ c * 2 ^ den / 2 ^ den := Nat.div_le_div_right hmle
      _ = c := Nat.mul_div_cancel c hpd
  simp only [scaleChannel, CFloat.mul, CFloat.ofSmallInt, Bool.false_xor, Nat.zero_add, hm,
    CFloat.toUChar]
  by_cases ht0 : m / 2 ^ den = 0
  · exact ⟨0, by rw [if_pos ht0], Nat.zero_le c⟩
  · have hfalse : neg = false := by
      rcases hneg with h | h
      · exact h
      · exfalso
        apply ht0
        rw [hm0 (by rw [h]; simp)]
        simp
    subst hfalse
    refine ⟨m / 2 ^ den, ?_, ht⟩
    rw [if_neg ht0, if_neg (by simp), if_pos (by omega)]

/-- Scaling an 8-bit channel by a brightness in `[0, 1]` is defined and does not raise it. -/
theorem scaleChannel_le {c : Nat} {b : CFloat} {q : ℚ} (hq : b.toRat = some q) (h0 : 0 ≤ q)
    (h1 : q ≤ 1) (hc : c < 256) : ∃ t, scaleChannel c b = .ok t ∧ t ≤ c := by
  cases b with
  | nan => simp [CFloat.toRat] at hq
  | inf neg => simp [CFloat.toRat] at hq
  | fin neg num den =>
    obtain ⟨h2, h3⟩ := inUnit_fin hq h0 h1
    exact scale_fin_le h2 h3 hc

/-- Scaling an 8-bit channel by the brightness `1` returns the channel. -/
theorem scaleChannel_one {c : Nat} {b : CFloat} (hq : b.toRat = some 1) (hc : c < 256) :
    scaleChannel c b = .ok c := by
  cases b with
  | nan => simp [CFloat.toRat] at hq
  | inf neg => simp [CFloat.toRat] at hq
  | fin neg num den =>
    obtain ⟨h2, h3⟩ := inUnit_fin hq (by norm_num) (le_refl _)
    have hpd : 0 < 2 ^ den := Nat.two_pow_pos den
    have hnum : num = 2 ^ den := by
      simp only [CFloat.toRat, Option.some.injEq] at hq
      have hp : (0 : ℚ) < 2 ^ den := by positivity
      rcases h3 with h | h
      · subst h
        simp only [Bool.false_eq_true, if_false, one_mul] at hq
        rw [div_eq_one_iff_eq (ne_of_gt hp)] at hq
        exact_mod_cast hq
      · subst h
        simp at hq
    have hneg : neg = false := by
      rcases h3 with h | h
      · exact h
      · omega
    subst hneg
    subst hnum
    have hdvd : 2 ^ (max (bitLen (c * 2 ^ den) - 24) (den - 149)) ∣ c * 2 ^ den :=
      Dvd.dvd.mul_left (pow_dvd_pow 2 (drop_le_den (le_refl _) hc)) c
    have hov : c * 2 ^ den < 2 ^ 128 * 2 ^ den :=
      Nat.mul_lt_mul_of_pos_right (lt_trans hc (by norm_num)) hpd
    have hexact := round_exact false hdvd hov
    simp only [scaleChannel, CFloat.mul, CFloat.ofSmallInt, Bool.false_xor, Nat.zero_add, hexact,
      CFloat.toUChar]
    rw [Nat.mul_div_cancel c hpd]
    by_cases hc0 : c = 0
    · subst hc0
      simp
    · rw [if_neg hc0, if_neg (by simp), if_pos hc]

/-! ## The bit packer: one word -/

theorem setBit_testBit (w k i : Nat) (hi : i < 32) :
    ((w ||| (1 <<< k)) % 2 ^ 32).testBit i = if i = k then true else w.testBit i := by
  rw [Nat.testBit_mod_two_pow, Nat.testBit_lor, Nat.one_shiftLeft, Nat.testBit_two_pow]
  by_cases h : i = k
  · subst h
    simp [hi]
  · have h' : ¬ k = i := fun e => h e.symm
    simp [hi, h, h']

theorem clearBit_testBit (w k i : Nat) (hi : i < 32) :
    ((w &&& (0xFFFFFFFF ^^^ (1 <<< k))) % 2 ^ 32).testBit i =
      if i = k then false else w.testBit i := by
  have hff : (0xFFFFFFFF : Nat) = 2 ^ 32 - 1 := by norm_num
  rw [Nat.testBit_mod_two_pow, Nat.testBit_and, Nat.testBit_xor, hff, Nat.testBit_two_pow_sub_one,
    Nat.one_shiftLeft, Nat.testBit_two_pow]
  by_cases h : i = k
  · subst h
    simp [hi]
  · have h' : ¬ k = i := fun e => h e.symm
    simp [hi, h, h']

theorem getD_set_self {l : List Nat} {i : Nat} (x : Nat) (h : i < l.length) :
    (l.set i x).getD i 0 = x := by
  simp [List.getD_eq_getElem?_getD, List.getElem?_set, h]

theorem getD_set_other {l : List Nat} {i j : Nat} (x : Nat) (h : j ≠ i) :
    (l.set i x).getD j 0 = l.getD j 0 := by
  have h' : ¬ i = j := fun e => h e.symm
  simp [List.getD_eq_getElem?_getD, List.getElem?_set, h']

/-- Effect of one `setPWMBit` call inside the array, word by word. -/
theorem setPWMBit_words {wave : List Nat} {p v : Nat} (hp : p / 32 < wave.length)
    (hv : v = 0 ∨ v = 1) :
    ∃ wave1, setPWMBit wave p v = .ok wave1 ∧ wave1.length = wave.length ∧
      (∀ k, k < 32 → (wave1.getD (p / 32) 0).testBit k =
        if k = 31 - p % 32 then decide (v = 1) else (wave.getD (p / 32) 0).testBit k) ∧
      (∀ j, j ≠ p / 32 → wave1.getD j 0 = wave.getD j 0) ∧
      wave1.getD (p / 32) 0 < 2 ^ 32 := by
  have hidx : p - p / 32 * 32 = p % 32 := by omega
  have hget : wave[p / 32]? = some (wave.getD (p / 32) 0) := by
    simp [List.getD_eq_getElem?_getD, List.getElem?_eq_getElem hp]
  rcases hv with hv | hv
  · subst hv
    refine ⟨wave.set (p / 32) ((wave.getD (p / 32) 0 &&&
      (0xFFFFFFFF ^^^ (1 <<< (31 - (p - p / 32 * 32))))) % 2 ^ 32),
      by simp only [setPWMBit, hget], by simp, ?_, ?_, ?_⟩
    · intro k hk
      rw [getD_set_self _ hp, hidx, clearBit_testBit _ _ _ hk]
      simp
    · intro j hj
      exact getD_set_other _ hj
    · rw [getD_set_self _ hp]
      exact Nat.mod_lt _ (by norm_num)
  · subst hv
    refine ⟨wave.set (p / 32) ((wave.getD (p / 32) 0 |||
      (1 <<< (31 - (p - p / 32 * 32)))) % 2 ^ 32),
      by simp only [setPWMBit, hget], by simp, ?_, ?_, ?_⟩
    · intro k hk
      rw [getD_set_self _ hp, hidx, setBit_testBit _ _ _ hk]
      simp
    · intro j hj
      exact getD_set_other _ hj
    · rw [getD_set_self _ hp]
      exact Nat.mod_lt _ (by norm_num)

/-- Effect of one `setPWMBit` call inside the array, in output bit positions. -/
theorem setPWMBit_bits {wave : List Nat} {p v : Nat} (hp : p / 32 < wave.length)
    (hv : v = 0 ∨ v = 1) :
    ∃ wave1, setPWMBit wave p v = .ok wave1 ∧ wave1.length = wave.length ∧
      (∀ q, wireBitAt wave1 q = if q = p then decide (v = 1) else wireBitAt wave q) ∧
      (WordsOk wave → WordsOk wave1) := by
  obtain ⟨wave1, h1, h2, h3, h4, h5⟩ := setPWMBit_words hp hv
  refine ⟨wave1, h1, h2, ?_, ?_⟩
  · intro q
    unfold wireBitAt
    by_cases hw : q / 32 = p / 32
    · rw [hw, h3 _ (by omega)]
      by_cases hqp : q = p
      · subst hqp
        simp
      · have hne : ¬ (31 - q % 32 = 31 - p % 32) := by omega
        rw [if_neg hne, if_neg hqp]
    · have hqp : q ≠ p := fun e => hw (by rw [e])
      rw [h4 _ hw, if_neg hqp]
  · intro hw j
    by_cases hj : j = p / 32
    · rw [hj]
      exact h5
    · rw [h4 j hj]
      exact hw j

/-- A `setPWMBit` call outside the array is an out-of-bounds access. -/
theorem setPWMBit_overflow {wave : List Nat} {p v : Nat} (hp : wave.length ≤ p / 32)
    (hv : v = 0 ∨ v = 1) : setPWMBit wave p v = .error (.waveformIndex (p / 32)) := by
  have hget : wave[p / 32]? = none := List.getElem?_eq_none hp
  rcases hv with hv | hv <;> subst hv <;> simp only [setPWMBit, hget]

/-! ## The encoder loops -/

theorem colorBit_test (cb j : Nat) : (cb &&& (1 <<< j) ≠ 0) ↔ cb.testBit j = true := by
  rw [Nat.one_shiftLeft, Nat.and_two_pow]
  have hpos : 0 < 2 ^ j := Nat.two_pow_pos j
  cases h : cb.testBit j
  · simp
  · simp only [Bool.toNat_true, one_mul, ne_eq, iff_true]
    omega

theorem setThree_bits {wave : List Nat} {wb b0 b1 b2 : Nat} (hcap : wb + 3 ≤ 32 * wave.length)
    (hlen : 32 * wave.length < 2 ^ 32) (h0 : b0 = 0 ∨ b0 = 1) (h1 : b1 = 0 ∨ b1 = 1)
    (h2 : b2 = 0 ∨ b2 = 1) :
    ∃ w3, setThree wave wb b0 b1 b2 = .ok (w3, wb + 3) ∧ w3.length = wave.length ∧
      (∀ q, wireBitAt w3 q =
        if q = wb then decide (b0 = 1) else if q = wb + 1 then decide (b1 = 1)
        else if q = wb + 2 then decide (b2 = 1) else wireBitAt wave q) ∧
      (WordsOk wave → WordsOk w3) := by
  have m1 : (wb + 1) % 2 ^ 32 = wb + 1 := Nat.mod_eq_of_lt (by omega)
  have m2 : (wb + 1 + 1) % 2 ^ 32 = wb + 2 := Nat.mod_eq_of_lt (by omega)
  have m3 : (wb + 2 + 1) % 2 ^ 32 = wb + 3 := Nat.mod_eq_of_lt (by omega)
  obtain ⟨w1, e1, l1, s1, k1⟩ := setPWMBit_bits (by omega : wb / 32 < wave.length) h0
  obtain ⟨w2, e2, l2, s2, k2⟩ := setPWMBit_bits (by omega : (wb + 1) / 32 < w1.length) h1
  obtain ⟨w3, e3, l3, s3, k3⟩ := setPWMBit_bits (by omega : (wb + 2) / 32 < w2.length) h2
  refine ⟨w3, ?_, by omega, ?_, fun hw => k3 (k2 (k1 hw))⟩
  · simp only [setThree, e1, m1, e2, m2, e3, m3]
  · intro q
    rw [s3, s2, s1]
    split_ifs <;> first | rfl | omega

/-- The three output bits that encode one colour bit. -/
theorem encodeColor_bits (cb : Nat) : ∀ (n : Nat) (wave : List Nat) (wb : Nat),
    wb + 3 * n ≤ 32 * wave.length → 32 * wave.length < 2 ^ 32 →
    ∃ wave1, encodeColor cb n wave wb = .ok (wave1, wb + 3 * n) ∧ wave1.length = wave.length ∧
      (∀ t, t < n → wireBitAt wave1 (wb + 3 * t) = true ∧
        wireBitAt wave1 (wb + 3 * t + 1) = cb.testBit (n - 1 - t) ∧
        wireBitAt wave1 (wb + 3 * t + 2) = false) ∧
      (∀ q, q < wb ∨ wb + 3 * n ≤ q → wireBitAt wave1 q = wireBitAt wave q) ∧
      (WordsOk wave → WordsOk wave1) := by
  intro n
  induction n with
  | zero =>
    intro wave wb _ _
    exact ⟨wave, by simp [encodeColor], rfl, by intro t ht; omega, by intro q _; rfl, id⟩
  | succ j ih =>
    intro wave wb hcap hlen
    have hstep : ∃ w3, (match (if cb &&& (1 <<< j) ≠ 0 then 1 else 0 : Nat) with
        | 1 => setThree wave wb 1 1 0
        | _ => setThree wave wb 1 0 0) = .ok (w3, wb + 3) ∧ w3.length = wave.length ∧
        (∀ q, wireBitAt w3 q = if q = wb then true else if q = wb + 1 then cb.testBit j
          else if q = wb + 2 then false else wireBitAt wave q) ∧
        (WordsOk wave → WordsOk w3) := by
      by_cases hb : cb &&& (1 <<< j) ≠ 0
      · obtain ⟨w3, e, l, sp, kp⟩ := @setThree_bits wave wb 1 1 0 (by omega) hlen
          (Or.inr rfl) (Or.inr rfl) (Or.inl rfl)
        refine ⟨w3, by rw [if_pos hb]; exact e, l, ?_, kp⟩
        intro q
        rw [sp, (colorBit_test cb j).mp hb]
        simp
      · obtain ⟨w3, e, l, sp, kp⟩ := @setThree_bits wave wb 1 0 0 (by omega) hlen
          (Or.inr rfl) (Or.inl rfl) (Or.inl rfl)
        have hf : cb.testBit j = false := by
          cases h : cb.testBit j
          · rfl
          · exact absurd ((colorBit_test cb j).mpr h) hb
        refine ⟨w3, by rw [if_neg hb]; exact e, l, ?_, kp⟩
        intro q
        rw [sp, hf]
        simp
    obtain ⟨w3, e3, l3, s3, k3⟩ := hstep
    obtain ⟨wave1, e1, l1, b1, f1, k1⟩ := ih w3 (wb + 3) (by omega) (by omega)
    refine ⟨wave1, ?_, by omega, ?_, ?_, fun hw => k1 (k3 hw)⟩
    · simp only [encodeColor]
      rw [e3]
      simp only []
      rw [e1]
      congr 2
      omega
    · intro t ht
      cases t with
      | zero =>
        simp only [Nat.mul_zero, Nat.add_zero, Nat.sub_zero, Nat.add_sub_cancel]
        rw [f1 wb (by omega), f1 (wb + 1) (by omega), f1 (wb + 2) (by omega), s3, s3, s3]
        simp
      | succ t =>
        obtain ⟨a, b, c⟩ := b1 t (by omega)
        have e0 : wb + 3 * (t + 1) = wb + 3 + 3 * t := by omega
        have et : j + 1 - 1 - (t + 1) = j - 1 - t := by omega
        rw [e0, et]
        exact ⟨a, b, c⟩
    · intro q hq
      rw [f1 q (by omega), s3]
      have h1 : q ≠ wb := by omega
      have h2 : q ≠ wb + 1 := by omega
      have h3 : q ≠ wb + 2 := by omega
      simp [h1, h2, h3]

theorem getElem?_set_color {leds : List Color_t} {i j : Nat} {px : Color_t} (h : j ≠ i) :
    (leds.set i px)[j]? = leds[j]? := by
  have h' : ¬ i = j := fun e => h e.symm
  simp [List.getElem?_set, h']

/-- The pixel loop of `show()` within the capacity of both arrays: what it stores and what it
emits. Pixel `i + m` is scaled channel by channel, and its 24 colour bits, most significant
first, occupy the output positions `wb + 72 * m` to `wb + 72 * m + 71`. -/
theorem encodePixels_spec {b : CFloat} {q : ℚ} (hq : b.toRat = some q) (h0 : 0 ≤ q)
    (h1 : q ≤ 1) : ∀ (n i : Nat) (leds : List Color_t) (wave : List Nat) (wb : Nat),
    i + n ≤ leds.length → wb + 72 * n ≤ 32 * wave.length → 32 * wave.length < 2 ^ 32 →
    ChannelsOk leds →
    ∃ leds1 wave1, encodePixels b n i leds wave wb = .ok (leds1, wave1, wb + 72 * n) ∧
      leds1.length = leds.length ∧ wave1.length = wave.length ∧
      (∀ m, m < n → ∃ c px, leds[i + m]? = some c ∧ leds1[i + m]? = some px ∧
        scaleChannel c.r b = .ok px.r ∧ scaleChannel c.g b = .ok px.g ∧
        scaleChannel c.b b = .ok px.b ∧ px.r ≤ c.r ∧ px.g ≤ c.g ∧ px.b ≤ c.b ∧
        ∀ k, k < 24 → wireBitAt wave1 (wb + 72 * m + 3 * k) = true ∧
          wireBitAt wave1 (wb + 72 * m + 3 * k + 1) = (colorBitsOf px).testBit (23 - k) ∧
          wireBitAt wave1 (wb + 72 * m + 3 * k + 2) = false) ∧
      (∀ j, j < i ∨ i + n ≤ j → leds1[j]? = leds[j]?) ∧
      (∀ p, p < wb ∨ wb + 72 * n ≤ p → wireBitAt wave1 p = wireBitAt wave p) ∧
      ChannelsOk leds1 ∧ (WordsOk wave → WordsOk wave1) := by
  intro n
  induction n with
  | zero =>
    intro i leds wave wb _ _ _ hch
    exact ⟨leds, wave, by simp [encodePixels], rfl, rfl, by intro m hm; omega,
      by intro j _; rfl, by intro p _; rfl, hch, id⟩
  | succ n ih =>
    intro i leds wave wb hi hcap hlen hch
    have hil : i < leds.length := by omega
    have hget : leds[i]? = some leds[i] := List.getElem?_eq_getElem hil
    obtain ⟨hcr, hcg, hcb⟩ := hch i leds[i] hget
    obtain ⟨r, er, hr⟩ := scaleChannel_le hq h0 h1 hcr
    obtain ⟨g, eg, hg⟩ := scaleChannel_le hq h0 h1 hcg
    obtain ⟨bl, eb, hb⟩ := scaleChannel_le hq h0 h1 hcb
    obtain ⟨wave1, e1, l1, b1, f1, k1⟩ :=
      encodeColor_bits (colorBitsOf { r := r, g := g, b := bl }) 24 wave wb (by omega) hlen
    have hch1 : ChannelsOk (leds.set i { r := r, g := g, b := bl }) := by
      intro j c hj
      by_cases hji : j = i
      · subst hji
        simp only [List.getElem?_set, hil, if_true, Option.some.injEq] at hj
        subst hj
        exact ⟨lt_of_le_of_lt hr hcr, lt_of_le_of_lt hg hcg, lt_of_le_of_lt hb hcb⟩
      · rw [getElem?_set_color hji] at hj
        exact hch j c hj
    obtain ⟨leds2, wave2, e2, ll2, lw2, p2, fl2, fw2, c2, k2⟩ :=
      ih (i + 1) (leds.set i { r := r, g := g, b := bl }) wave1 (wb + 72)
        (by simp only [List.length_set]; omega) (by omega) (by omega) hch1
    refine ⟨leds2, wave2, ?_, by simpa using ll2, by omega, ?_, ?_, ?_, c2,
      fun hw => k2 (k1 hw)⟩
    · simp only [encodePixels, hget, er, eg, eb]
      have e72 : wb + 3 * 24 = wb + 72 := by omega
      rw [e72] at e1
      rw [e1]
      simp only []
      rw [e2]
      congr 3
      omega
    · intro m hm
      cases m with
      | zero =>
        refine ⟨leds[i], { r := r, g := g, b := bl }, hget, ?_, er, eg, eb, hr, hg, hb, ?_⟩
        · rw [Nat.add_zero, fl2 i (by omega)]
          simp [List.getElem?_set, hil]
        · intro k hk
          obtain ⟨a1, a2, a3⟩ := b1 k hk
          simp only [Nat.mul_zero, Nat.add_zero]
          rw [fw2 _ (by omega), fw2 _ (by omega), fw2 _ (by omega)]
          exact ⟨a1, a2, a3⟩
      | succ m =>
        obtain ⟨c, px, g1, g2, g3, g4, g5, g6, g7, g8, g9⟩ := p2 m (by omega)
        have ei : i + (m + 1) = i + 1 + m := by omega
        have ew : wb + 72 * (m + 1) = wb + 72 + 72 * m := by omega
        rw [ei, ew]
        rw [getElem?_set_color (by omega)] at g1
        exact ⟨c, px, g1, g2, g3, g4, g5, g6, g7, g8, g9⟩
    · intro j hj
      rw [fl2 j (by omega), getElem?_set_color (by omega)]
    · intro p hp
      rw [fw2 p (by omega), f1 p (by omega)]

/-- The copy loop stays inside both arrays when the count does, and returns a sample area of
the same length. -/
theorem copyWords_ok (wave : List Nat) : ∀ (n i : Nat) (sample : List Nat),
    i + n ≤ wave.length → i + n ≤ sample.length →
    ∃ sample1, copyWords wave n i sample = .ok sample1 ∧ sample1.length = sample.length := by
  intro n
  induction n with
  | zero =>
    intro i sample _ _
    exact ⟨sample, by simp [copyWords], rfl⟩
  | succ n ih =>
    intro i sample hw hs
    have hget : wave[i]? = some wave[i] := List.getElem?_eq_getElem (by omega)
    obtain ⟨s1, e1, l1⟩ := ih (i + 1) (sample.set i wave[i]) (by omega)
      (by simp only [List.length_set]; omega)
    refine ⟨s1, ?_, by simpa using l1⟩
    simp only [copyWords, hget]
    rw [if_pos (by omega), e1]

/-- `show()` within capacity: it returns, keeps the invariant, and the pixel loop has the effect
described by `encodePixels_spec` from pixel `0` and output position `0`. -/
theorem showLeds_spec {cfg : Config} {s : State} {q : ℚ} (hv : cfg.Valid) (hwf : s.WF cfg)
    (hq : s.brightness.toRat = some q) (h0 : 0 ≤ q) (h1 : q ≤ 1)
    (hN : s.numLEDs ≤ cfg.NUM_PIXELS) (hcap : 72 * s.numLEDs ≤ 32 * cfg.NUM_DATA_WORDS) :
    ∃ s1, showLeds s = .ok s1 ∧ s1.WF cfg ∧ s1.numLEDs = s.numLEDs ∧
      s1.brightness = s.brightness ∧ s1.cbLength = s.cbLength ∧
      (∀ i, i < s.numLEDs → ∃ c px, s.LEDBuffer[i]? = some c ∧ s1.LEDBuffer[i]? = some px ∧
        scaleChannel c.r s.brightness = .ok px.r ∧ scaleChannel c.g s.brightness = .ok px.g ∧
        scaleChannel c.b s.brightness = .ok px.b ∧ px.r ≤ c.r ∧ px.g ≤ c.g ∧ px.b ≤ c.b ∧
        ∀ k, k < 24 → wireBitAt s1.PWMWaveform (72 * i + 3 * k) = true ∧
          wireBitAt s1.PWMWaveform (72 * i + 3 * k + 1) = (colorBitsOf px).testBit (23 - k) ∧
          wireBitAt s1.PWMWaveform (72 * i + 3 * k + 2) = false) ∧
      (∀ j, s.numLEDs ≤ j → s1.LEDBuffer[j]? = s.LEDBuffer[j]?) ∧
      (∀ p, 72 * s.numLEDs ≤ p → wireBitAt s1.PWMWaveform p = wireBitAt s.PWMWaveform p) := by
  have hbits := hv.bits
  obtain ⟨leds1, wave1, e1, ll, lw, hp, fl, fw, hc, hk⟩ :=
    encodePixels_spec hq h0 h1 s.numLEDs 0 s.LEDBuffer s.PWMWaveform 0
      (by rw [hwf.leds_length]; omega) (by rw [hwf.wave_length]; omega)
      (by rw [hwf.wave_length]; omega) hwf.channels
  have hcb := hwf.cb_length
  obtain ⟨sample1, e2, ls⟩ := copyWords_ok wave1 (s.cbLength / 4) 0 s.sample
    (by rw [lw, hwf.wave_length]; omega) (by rw [hwf.sample_length]; omega)
  refine ⟨{ s with LEDBuffer := leds1, PWMWaveform := wave1, sample := sample1 }, ?_, ?_, rfl,
    rfl, rfl, ?_, ?_, ?_⟩
  · simp only [showLeds, e1, e2]
  · exact ⟨by rw [← hwf.leds_length]; exact ll, by rw [← hwf.wave_length]; exact lw,
      by rw [← hwf.sample_length]; exact ls, hc, hk hwf.words, hcb⟩
  · intro i hi
    obtain ⟨c, px, g1, g2, g3, g4, g5, g6, g7, g8, g9⟩ := hp i hi
    simp only [Nat.zero_add] at g1 g2 g9
    exact ⟨c, px, g1, g2, g3, g4, g5, g6, g7, g8, g9⟩
  · intro j hj
    exact fl j (Or.inr (by omega))
  · intro p hp'
    exact fw p (Or.inr (by omega))

/-! ## Invariants of concrete states -/

theorem channelsOk_of_forall {leds : List Color_t}
    (h : ∀ c ∈ leds, c.r < 256 ∧ c.g < 256 ∧ c.b < 256) : ChannelsOk leds := by
  intro j c hj
  exact h c (List.getElem?_mem hj)

theorem wordsOk_of_forall {wave : List Nat} (h : ∀ w ∈ wave, w < 2 ^ 32) : WordsOk wave := by
  intro j
  rw [List.getD_eq_getElem?_getD]
  cases hj : wave[j]? with
  | none => simp
  | some w => exact h w (List.getElem?_mem hj)

theorem demoConfig_valid : demoConfig.Valid :=
  ⟨by decide, by decide, by decide⟩

theorem demoBlack_wf : demoBlack.WF demoConfig :=
  ⟨rfl, rfl, rfl, channelsOk_of_forall (by decide), wordsOk_of_forall (by decide), by decide⟩

theorem demoWhite_wf : demoWhite.WF demoConfig :=
  ⟨rfl, rfl, rfl, channelsOk_of_forall (by decide), wordsOk_of_forall (by decide), by decide⟩

theorem brightnessOne_toRat : brightnessOne.toRat = some 1 := by
  simp [brightnessOne, CFloat.toRat]

/-! ## Wire value and whole words -/

/-- For 8-bit channels the value assembled by `show()` is the wire value of the spec. -/
theorem colorBitsOf_eq_wireValue {c : Color_t} (hr : c.r < 256) (hb : c.b < 256) :
    colorBitsOf c = wireValue c := by
  unfold colorBitsOf wireValue
  rw [Nat.shiftLeft_eq, Nat.shiftLeft_eq]
  have e1 : c.r * 2 ^ 8 ||| c.g * 2 ^ 16 = 2 ^ 8 * (c.g * 2 ^ 8 + c.r) := by
    rw [Nat.lor_comm]
    have h : c.r * 2 ^ 8 < 2 ^ 16 := by omega
    have := Nat.mul_add_lt_is_or h c.g
    rw [Nat.mul_comm (2 ^ 16) c.g] at this
    rw [← this]
    ring
  rw [e1, ← Nat.mul_add_lt_is_or (by omega : c.b < 2 ^ 8)]
  ring

/-- A 32-bit word is determined by its 32 output bit positions. -/
theorem word_eq_of_bits {wave : List Nat} {j x : Nat} (hw : wave.getD j 0 < 2 ^ 32)
    (hx : x < 2 ^ 32) (h : ∀ m, m < 32 → wireBitAt wave (32 * j + m) = x.testBit (31 - m)) :
    wave.getD j 0 = x := by
  apply Nat.eq_of_testBit_eq
  intro i
  by_cases hi : i < 32
  · have := h (31 - i) (by omega)
    unfold wireBitAt at this
    have e1 : (32 * j + (31 - i)) / 32 = j := by omega
    have e2 : 31 - (32 * j + (31 - i)) % 32 = i := by omega
    have e3 : 31 - (31 - i) = i := by omega
    rw [e1, e2, e3] at this
    exact this
  · have hp : 2 ^ 32 ≤ 2 ^ i := Nat.pow_le_pow_right (by norm_num) (by omega)
    rw [Nat.testBit_lt_two_pow (lt_of_lt_of_le hw hp),
      Nat.testBit_lt_two_pow (lt_of_lt_of_le hx hp)]

/-- The top byte of a 32-bit word is determined by its first 8 output bit positions. -/
theorem topByte_eq_of_bits {wave : List Nat} {j x : Nat} (hw : wave.getD j 0 < 2 ^ 32)
    (hx : x < 2 ^ 8) (h : ∀ m, m < 8 → wireBitAt wave (32 * j + m) = x.testBit (7 - m)) :
    wave.getD j 0 / 2 ^ 24 = x := by
  apply Nat.eq_of_testBit_eq
  intro i
  rw [← Nat.shiftRight_eq_div_pow, Nat.testBit_shiftRight]
  by_cases hi : i < 8
  · have := h (7 - i) (by omega)
    unfold wireBitAt at this
    have e1 : (32 * j + (7 - i)) / 32 = j := by omega
    have e2 : 31 - (32 * j + (7 - i)) % 32 = 24 + i := by omega
    have e3 : 7 - (7 - i) = i := by omega
    rw [e1, e2, e3] at this
    exact this
  · have hp : 2 ^ 32 ≤ 2 ^ (24 + i) := Nat.pow_le_pow_right (by norm_num) (by omega)
    have hp8 : 2 ^ 8 ≤ 2 ^ i := Nat.pow_le_pow_right (by norm_num) (by omega)
    rw [Nat.testBit_lt_two_pow (lt_of_lt_of_le hw hp),
      Nat.testBit_lt_two_pow (lt_of_lt_of_le hx hp8)]

/-- The three words of one encoded pixel, from a description `f` of its 72 output bits. -/
theorem pixel_words {wave : List Nat} {f : Nat → Bool} {x0 x1 x2 : Nat} (hw : WordsOk wave)
    (hf : ∀ m, m < 72 → wireBitAt wave m = f m)
    (h0 : x0 < 2 ^ 32 ∧ ∀ m, m < 32 → f m = x0.testBit (31 - m))
    (h1 : x1 < 2 ^ 32 ∧ ∀ m, m < 32 → f (32 + m) = x1.testBit (31 - m))
    (h2 : x2 < 2 ^ 8 ∧ ∀ m, m < 8 → f (64 + m) = x2.testBit (7 - m)) :
    wave.getD 0 0 = x0 ∧ wave.getD 1 0 = x1 ∧ wave.getD 2 0 / 2 ^ 24 = x2 := by
  refine ⟨word_eq_of_bits (hw 0) h0.1 ?_, word_eq_of_bits (hw 1) h1.1 ?_,
    topByte_eq_of_bits (hw 2) h2.1 ?_⟩
  · intro m hm
    have e : 32 * 0 + m = m := by omega
    rw [e, ← h0.2 m hm, ← hf m (by omega)]
  · intro m hm
    have e : 32 * 1 + m = 32 + m := by omega
    rw [e, ← h1.2 m hm, ← hf (32 + m) (by omega)]
  · intro m hm
    have e : 32 * 2 + m = 64 + m := by omega
    rw [e, ← h2.2 m hm, ← hf (64 + m) (by omega)]

/-- The 72 output bits of one pixel, from the three bits of each colour bit. -/
theorem pixel_bits {wave : List Nat} {v : Nat}
    (h : ∀ k, k < 24 → wireBitAt wave (72 * 0 + 3 * k) = true ∧
      wireBitAt wave (72 * 0 + 3 * k + 1) = v.testBit (23 - k) ∧
      wireBitAt wave (72 * 0 + 3 * k + 2) = false) :
    ∀ m, m < 72 → wireBitAt wave m =
      (decide (m % 3 = 0) || (decide (m % 3 = 1) && v.testBit (23 - m / 3))) := by
  intro m hm
  obtain ⟨a1, a2, a3⟩ := h (m / 3) (by omega)
  have hcases : m % 3 = 0 ∨ m % 3 = 1 ∨ m % 3 = 2 := by omega
  rcases hcases with hc | hc | hc
  · have e : 72 * 0 + 3 * (m / 3) = m := by omega
    rw [e] at a1
    rw [a1, hc]
    simp
  · have e : 72 * 0 + 3 * (m / 3) + 1 = m := by omega
    rw [e] at a2
    rw [a2, hc]
    simp
  · have e : 72 * 0 + 3 * (m / 3) + 2 = m := by omega
    rw [e] at a3
    rw [a3, hc]
    simp

theorem toUChar_lt {x : CFloat} {t : Nat} (h : CFloat.toUChar x = .ok t) : t < 256 := by
  cases x with
  | nan => simp [CFloat.toUChar] at h
  | inf neg => simp [CFloat.toUChar] at h
  | fin neg num den =>
    simp only [CFloat.toUChar] at h
    split_ifs at h with h1 h2 h3
    · injection h with h
      omega
    · injection h with h
      omega

theorem getElem?_eq_of_getD {l1 l2 : List Nat} {j : Nat} (hl : l1.length = l2.length)
    (h : l1.getD j 0 = l2.getD j 0) : l1[j]? = l2[j]? := by
  by_cases hj : j < l1.length
  · have hj2 : j < l2.length := by omega
    simp only [List.getD_eq_getElem?_getD, List.getElem?_eq_getElem hj,
      List.getElem?_eq_getElem hj2, Option.getD_some] at h
    rw [List.getElem?_eq_getElem hj, List.getElem?_eq_getElem hj2, h]
  · rw [List.getElem?_eq_none (by omega), List.getElem?_eq_none (by omega)]

/-- Rounding never falls below a representable value that the exact value reaches. -/
theorem round_ge {neg neg1 : Bool} {num den den1 L m : Nat}
    (hL : 2 ^ (max (bitLen num - 24) (den - 149)) ∣ L) (hLn : L ≤ num)
    (h : CFloat.round neg num den = CFloat.fin neg1 m den1) : L ≤ m := by
  unfold CFloat.round at h
  generalize max (bitLen num - 24) (den - 149) = drop at hL h
  have hpos : 0 < 2 ^ drop := Nat.two_pow_pos drop
  obtain ⟨l, rfl⟩ := hL
  have hl : l ≤ num / 2 ^ drop := by
    rw [Nat.le_div_iff_mul_le hpos, Nat.mul_comm]
    exact hLn
  have hq : 2 ^ drop * l ≤ num / 2 ^ drop * 2 ^ drop := by
    rw [Nat.mul_comm]
    exact Nat.mul_le_mul_right _ hl
  simp only [] at h
  split_ifs at h with h1 h2 h2
  · injection h with _ hm _
    rw [← hm]
    have : num / 2 ^ drop * 2 ^ drop ≤ (num / 2 ^ drop + 1) * 2 ^ drop :=
      Nat.mul_le_mul_right _ (Nat.le_succ _)
    omega
  · injection h with _ hm _
    rw [← hm]
    exact hq

/-- The scaled channel is the integral part of the exact product, or one more when the
rounding of the product reaches the next integer. -/
theorem scale_fin_near {num den c t : Nat} (hnum : num ≤ 2 ^ den) (hc : c < 256)
    (h : scaleChannel c (CFloat.fin false num den) = .ok t) :
    c * num / 2 ^ den ≤ t ∧ t ≤ c * num / 2 ^ den + 1 := by
  have hpd : 0 < 2 ^ den := Nat.two_pow_pos den
  have hdd : 2 ^ (max (bitLen (c * num) - 24) (den - 149)) ∣ 2 ^ den :=
    pow_dvd_pow 2 (drop_le_den hnum hc)
  have hF : c * num / 2 ^ den ≤ c := by
    calc c * num / 2 ^ den ≤ c * 2 ^ den / 2 ^ den :=
          Nat.div_le_div_right (Nat.mul_le_mul_left c hnum)
      _ = c := Nat.mul_div_cancel c hpd
  have hup : c * num ≤ (c * num / 2 ^ den + 1) * 2 ^ den := by
    have := Nat.div_add_mod (c * num) (2 ^ den)
    have := Nat.mod_lt (c * num) hpd
    rw [Nat.add_mul, Nat.mul_comm (c * num / 2 ^ den)]
    omega
  have hov : (c * num / 2 ^ den + 1) * 2 ^ den < 2 ^ 128 * 2 ^ den :=
    Nat.mul_lt_mul_of_pos_right (by omega) hpd
  obtain ⟨m, hm, hmle, _⟩ := round_le false (Dvd.dvd.mul_left hdd _) hup hov
  have hlow : c * num / 2 ^ den * 2 ^ den ≤ m :=
    round_ge (Dvd.dvd.mul_left hdd _) (Nat.div_mul_le_self _ _) hm
  have ht1 : c * num / 2 ^ den ≤ m / 2 ^ den := by
    rw [Nat.le_div_iff_mul_le hpd]
    exact hlow
  have ht2 : m / 2 ^ den ≤ c * num / 2 ^ den + 1 := by
    calc m / 2 ^ den ≤ (c * num / 2 ^ den + 1) * 2 ^ den / 2 ^ den := Nat.div_le_div_right hmle
      _ = c * num / 2 ^ den + 1 := Nat.mul_div_cancel _ hpd
  simp only [scaleChannel, CFloat.mul, CFloat.ofSmallInt, Bool.false_xor, Nat.zero_add, hm,
    CFloat.toUChar] at h
  split_ifs at h with h1 h2
  · injection h with h
    omega
  · injection h with h
    omega

/-- In terms of the rational value `q` of the brightness: the scaled channel is `⌊c * q⌋` or
`⌊c * q⌋ + 1`. -/
theorem scaleChannel_near {c t : Nat} {b : CFloat} {q : ℚ} (hq : b.toRat = some q)
    (h0 : 0 ≤ q) (h1 : q ≤ 1) (hc : c < 256) (h : scaleChannel c b = .ok t) :
    ⌊(c : ℚ) * q⌋₊ ≤ t ∧ t ≤ ⌊(c : ℚ) * q⌋₊ + 1 := by
  cases b with
  | nan => simp [CFloat.toRat] at hq
  | inf neg => simp [CFloat.toRat] at hq
  | fin neg num den =>
    obtain ⟨h2, h3⟩ := inUnit_fin hq h0 h1
    have hval : (c : ℚ) * q = ((c * num : ℕ) : ℚ) / ((2 ^ den : ℕ) : ℚ) := by
      simp only [CFloat.toRat, Option.some.injEq] at hq
      rw [← hq]
      rcases h3 with h3 | h3
      · subst h3
        push_cast
        simp only [Bool.false_eq_true, if_false, one_mul]
        ring
      · subst h3
        simp
    rw [hval, Nat.floor_div_eq_div]
    rcases h3 with h3 | h3
    · subst h3
      exact scale_fin_near h2 hc h
    · subst h3
      obtain ⟨t1, e1, ht1⟩ := @scale_fin_le neg 0 den c h2 (Or.inr rfl) hc
      have e2 : scaleChannel c (CFloat.fin neg 0 den) = .ok 0 := by
        simp [scaleChannel, CFloat.mul, CFloat.ofSmallInt, CFloat.round, CFloat.toUChar, bitLen,
          bitLenAux]
      rw [e2] at h
      injection h with h
      subst h
      simp

theorem bitLen_gt {n k : Nat} (h : 2 ^ k ≤ n) : k < bitLen n := by
  have h1 := (bitLenAux_spec n n (le_refl n)).1
  have h2 : 2 ^ k < 2 ^ bitLen n := lt_of_le_of_lt h h1
  exact (Nat.pow_lt_pow_iff_right (by norm_num)).mp h2

/-- Rounding to a multiple of `P` reaches the multiple `M = P * k` above `N` exactly when `N` is
within half of `P` of it, given that `k` is even whenever `P` is not `1`. -/
theorem round_reaches {P k q0 r M N m : Nat} (hM : M = P * k) (hN : N = P * q0 + r)
    (hr : r < P) (hlt : N < M) (hk : P ≠ 1 → k % 2 = 0)
    (hm : m = if (decide (P < 2 * r) || (decide (2 * r = P) && decide (q0 % 2 = 1))) = true
      then q0 + 1 else q0) :
    M ≤ m * P ↔ 2 * (M - N) ≤ P := by
  have hP : 0 < P := by omega
  have hq0 : q0 < k := by
    by_contra hc
    have hge : k ≤ q0 := by omega
    have := Nat.mul_le_mul_left P hge
    omega
  have hsucc : P * (q0 + 1) = P * q0 + P := by ring
  constructor
  · intro h
    by_cases hup : (decide (P < 2 * r) || (decide (2 * r = P) && decide (q0 % 2 = 1))) = true
    · rw [if_pos hup] at hm
      have hkm : k ≤ m := by
        rw [hM, Nat.mul_comm P k] at h
        exact Nat.le_of_mul_le_mul_right h hP
      have hk1 : k = q0 + 1 := by omega
      simp only [Bool.or_eq_true, Bool.and_eq_true, decide_eq_true_eq] at hup
      rw [hk1, hsucc] at hM
      omega
    · rw [if_neg hup] at hm
      exfalso
      rw [hm, Nat.mul_comm q0 P] at h
      omega
  · intro h
    have hP2 : P ≠ 1 := by omega
    have hk2 := hk hP2
    have hk1 : k ≤ q0 + 1 := by
      by_contra hc
      have hge : q0 + 2 ≤ k := by omega
      have := Nat.mul_le_mul_left P hge
      have e : P * (q0 + 2) = P * q0 + 2 * P := by ring
      omega
    have hke : k = q0 + 1 := by omega
    have hup : (decide (P < 2 * r) || (decide (2 * r = P) && decide (q0 % 2 = 1))) = true := by
      simp only [Bool.or_eq_true, Bool.and_eq_true, decide_eq_true_eq]
      rw [hke, hsucc] at hM
      omega
    rw [if_pos hup] at hm
    rw [hm, hM, hke, Nat.mul_comm]

/-- The scaled channel, exactly: with `F` the integral part of the exact product `c * num / 2 ^
den`, the result is `F + 1` when the exact product is within `2 ^ (bitLen F - 25)` of `F + 1`, and
`F` otherwise. -/
theorem scale_fin_exact {num den c t : Nat} (hnum : num ≤ 2 ^ den) (hc : c < 256)
    (h : scaleChannel c (CFloat.fin false num den) = .ok t) :
    t = if 2 ^ 25 * ((c * num / 2 ^ den + 1) * 2 ^ den - c * num) ≤
        2 ^ (den + bitLen (c * num / 2 ^ den)) then c * num / 2 ^ den + 1 else c * num / 2 ^ den := by
  obtain ⟨hnear1, hnear2⟩ := scale_fin_near hnum hc h
  have hpd : 0 < 2 ^ den := Nat.two_pow_pos den
  have hF : c * num / 2 ^ den ≤ c := by
    calc c * num / 2 ^ den ≤ c * 2 ^ den / 2 ^ den :=
          Nat.div_le_div_right (Nat.mul_le_mul_left c hnum)
      _ = c := Nat.mul_div_cancel c hpd
  have hdm := Nat.div_add_mod (c * num) (2 ^ den)
  have hml := Nat.mod_lt (c * num) hpd
  generalize hNdef : c * num = N at *
  generalize hFdef : N / 2 ^ den = F at *
  have hMN : N < (F + 1) * 2 ^ den := by
    rw [Nat.add_mul, Nat.mul_comm F]
    omega
  have hFN : 2 ^ den * F ≤ N := by omega
  have hov : (F + 1) * 2 ^ den < 2 ^ 128 * 2 ^ den :=
    Nat.mul_lt_mul_of_pos_right (by omega) hpd
  have hbl8 : bitLen N ≤ den + 8 := by
    apply bitLen_le
    calc N < (F + 1) * 2 ^ den := hMN
      _ ≤ 256 * 2 ^ den := Nat.mul_le_mul_right _ (by omega)
      _ = 2 ^ (den + 8) := by rw [pow_add]; ring
  have hFL : F < 2 ^ bitLen F := (bitLenAux_spec F F (le_refl F)).1
  have hblL : bitLen N ≤ den + bitLen F := by
    apply bitLen_le
    calc N < (F + 1) * 2 ^ den := hMN
      _ ≤ 2 ^ bitLen F * 2 ^ den := Nat.mul_le_mul_right _ hFL
      _ = 2 ^ (den + bitLen F) := by rw [pow_add]; ring
  have hdle : max (bitLen N - 24) (den - 149) ≤ den := by omega
  have hdd : 2 ^ (max (bitLen N - 24) (den - 149)) ∣ 2 ^ den := pow_dvd_pow 2 hdle
  obtain ⟨mm, hmm, hmle, _⟩ := round_le false (Dvd.dvd.mul_left hdd (F + 1)) (le_of_lt hMN) hov
  have ht : t = mm / 2 ^ den := by
    simp only [scaleChannel, CFloat.mul, CFloat.ofSmallInt, Bool.false_xor, Nat.zero_add, hNdef,
      hmm, CFloat.toUChar] at h
    split_ifs at h with h1 h2
    · injection h with h
      omega
    · injection h with h
      omega
  have hXpos : 1 ≤ (F + 1) * 2 ^ den - N := by omega
  generalize hd : max (bitLen N - 24) (den - 149) = d at *
  have hiff : (F + 1) * 2 ^ den ≤ mm ↔ 2 * ((F + 1) * 2 ^ den - N) ≤ 2 ^ d := by
    unfold CFloat.round at hmm
    simp only [hd] at hmm
    have hmmv : (if (decide (2 ^ d < 2 * (N % 2 ^ d)) ||
        (decide (2 * (N % 2 ^ d) = 2 ^ d) && decide (N / 2 ^ d % 2 = 1))) = true
        then N / 2 ^ d + 1 else N / 2 ^ d) * 2 ^ d = mm := by
      split_ifs at hmm ⊢
      all_goals injection hmm with _ hmmv _
    rw [← hmmv]
    have hk : (2 : Nat) ^ d ≠ 1 → (2 ^ (den - d) * (F + 1)) % 2 = 0 := by
      intro hne
      have hd0 : d ≠ 0 := by
        intro h0
        apply hne
        rw [h0]
        rfl
      have e : den - d = (den - d - 1) + 1 := by omega
      rw [e, pow_succ, Nat.mul_comm (2 ^ (den - d - 1)) 2, Nat.mul_assoc]
      exact Nat.mul_mod_right 2 _
    have hMk : (F + 1) * 2 ^ den = 2 ^ d * (2 ^ (den - d) * (F + 1)) := by
      rw [← Nat.mul_assoc, ← pow_add, Nat.add_sub_cancel' hdle, Nat.mul_comm]
    exact round_reaches hMk (Nat.div_add_mod N (2 ^ d)).symm (Nat.mod_lt N (Nat.two_pow_pos d))
      hMN hk rfl
  have hcond : 2 ^ 25 * ((F + 1) * 2 ^ den - N) ≤ 2 ^ (den + bitLen F) ↔
      2 * ((F + 1) * 2 ^ den - N) ≤ 2 ^ d := by
    constructor
    · intro hC
      have h25 : 25 ≤ den + bitLen F := by
        have h2 : 2 ^ 25 ≤ 2 ^ (den + bitLen F) :=
          le_trans (Nat.le_mul_of_pos_right _ hXpos) hC
        exact (Nat.pow_le_pow_iff_right (by norm_num)).mp h2
      have hlow : 2 ^ (den + bitLen F - 1) ≤ N := by
        by_cases hF0 : F = 0
        · subst hF0
          have hL0 : bitLen 0 = 0 := by simp [bitLen, bitLenAux]
          rw [hL0] at hC h25 ⊢
          simp only [Nat.zero_add, Nat.one_mul, Nat.add_zero] at hC hMN ⊢
          have e : 2 ^ den = 2 * 2 ^ (den - 1) := by
            rw [← pow_succ']
            congr 1
            omega
          have hpp : 0 < 2 ^ (den - 1) := Nat.two_pow_pos _
          omega
        · have h1 := (bitLenAux_spec F F (le_refl F)).2 hF0
          have hLpos : 0 < bitLen F := by
            by_contra hc
            have hz : bitLen F = 0 := by omega
            rw [hz] at hFL
            omega
          have e : den + bitLen F - 1 = den + (bitLen F - 1) := by omega
          rw [e, pow_add]
          calc 2 ^ den * 2 ^ (bitLen F - 1) ≤ 2 ^ den * F := Nat.mul_le_mul_left _ h1
            _ ≤ N := hFN
      have hgt := bitLen_gt hlow
      have hdl : den + bitLen F ≤ 24 + d := by omega
      have hp : 2 ^ (den + bitLen F) ≤ 2 ^ 24 * 2 ^ d := by
        rw [← pow_add]
        exact Nat.pow_le_pow_right (by norm_num) hdl
      omega
    · intro hX
      have hd1 : 1 ≤ d := by
        by_contra hc
        have hz : d = 0 := by omega
        rw [hz] at hX
        omega
      have hdl : 24 + d ≤ den + bitLen F := by omega
      have hp : 2 ^ 24 * 2 ^ d ≤ 2 ^ (den + bitLen F) := by
        rw [← pow_add]
        exact Nat.pow_le_pow_right (by norm_num) hdl
      omega
  by_cases hC : 2 ^ 25 * ((F + 1) * 2 ^ den - N) ≤ 2 ^ (den + bitLen F)
  · rw [if_pos hC]
    have h1 : F + 1 ≤ mm / 2 ^ den := by
      rw [Nat.le_div_iff_mul_le hpd]
      exact hiff.mpr (hcond.mp hC)
    omega
  · rw [if_neg hC]
    have h1 : ¬ (F + 1 ≤ mm / 2 ^ den) := by
      rw [Nat.le_div_iff_mul_le hpd]
      intro hle
      exact hC (hcond.mpr (hiff.mp hle))
    omega

/-- In terms of the rational value `q` of the brightness: the scaled channel is the truncation
of the exact product after its rounding to binary32. -/
theorem scaleChannel_exact {c t : Nat} {b : CFloat} {q : ℚ} (hq : b.toRat = some q)
    (h0 : 0 ≤ q) (h1 : q ≤ 1) (hc : c < 256) (h : scaleChannel c b = .ok t) :
    t = roundedTrunc c q := by
  cases b with
  | nan => simp [CFloat.toRat] at hq
  | inf neg => simp [CFloat.toRat] at hq
  | fin neg num den =>
    obtain ⟨h2, h3⟩ := inUnit_fin hq h0 h1
    have hval : (c : ℚ) * q = ((c * num : ℕ) : ℚ) / ((2 ^ den : ℕ) : ℚ) := by
      simp only [CFloat.toRat, Option.some.injEq] at hq
      rw [← hq]
      rcases h3 with h3 | h3
      · subst h3
        push_cast
        simp only [Bool.false_eq_true, if_false, one_mul]
        ring
      · subst h3
        simp
    unfold roundedTrunc
    rw [hval, Nat.floor_div_eq_div]
    rcases h3 with h3 | h3
    · subst h3
      rw [scale_fin_exact h2 hc h]
      have hpd : 0 < 2 ^ den := Nat.two_pow_pos den
      have hMN : c * num ≤ (c * num / 2 ^ den + 1) * 2 ^ den := by
        have := Nat.div_add_mod (c * num) (2 ^ den)
        have := Nat.mod_lt (c * num) hpd
        rw [Nat.add_mul, Nat.mul_comm (c * num / 2 ^ den)]
        omega
      generalize c * num = N at hMN ⊢
      generalize N / 2 ^ den = F at hMN ⊢
      apply if_congr _ rfl rfl
      have hD : (0 : ℚ) < ((2 ^ den : ℕ) : ℚ) := by positivity
      have e : ((F : ℚ) + 1 - (N : ℚ) / ((2 ^ den : ℕ) : ℚ)) * 2 ^ 25 =
          ((((F + 1) * 2 ^ den - N : ℕ) : ℚ) * 2 ^ 25) / ((2 ^ den : ℕ) : ℚ) := by
        rw [Nat.cast_sub hMN]
        push_cast
        field_simp
      rw [e, div_le_iff₀ hD]
      have e2 : (2 : ℚ) ^ bitLen F * ((2 ^ den : ℕ) : ℚ) = ((2 ^ (den + bitLen F) : ℕ) : ℚ) := by
        push_cast
        rw [pow_add]
        ring
      have e3 : (((F + 1) * 2 ^ den - N : ℕ) : ℚ) * 2 ^ 25 =
          ((2 ^ 25 * ((F + 1) * 2 ^ den - N) : ℕ) : ℚ) := by
        push_cast
        ring
      rw [e2, e3, Nat.cast_le]
    · subst h3
      have e2 : scaleChannel c (CFloat.fin neg 0 den) = .ok 0 := by
        simp [scaleChannel, CFloat.mul, CFloat.ofSmallInt, CFloat.round, CFloat.toUChar, bitLen,
          bitLenAux]
      rw [e2] at h
      injection h with h
      subst h
      simp only [Nat.mul_zero, Nat.zero_div, bitLen, bitLenAux, Nat.cast_zero, zero_add, zero_div,
        sub_zero, one_mul, pow_zero]
      rw [if_neg (by norm_num)]

/-! ## The dimmed pixel -/

theorem demoDim_wf : demoDim.WF demoConfig :=
  ⟨rfl, rfl, rfl, channelsOk_of_forall (by decide), wordsOk_of_forall (by decide), by decide⟩

theorem demoDim_toRat : demoDim.brightness.toRat = some (11744051 / 2 ^ 24) := by
  simp [demoDim, brightnessDim, CFloat.toRat]

/-- At brightness `0.7f` the channel `10` becomes `7`: the exact product is within `2 ^ (-22)`
of `7`. -/
theorem roundedTrunc_dim : roundedTrunc 10 (11744051 / 2 ^ 24) = 7 := by
  have hf : ⌊((10 : ℕ) : ℚ) * (11744051 / 2 ^ 24)⌋₊ = 6 := by
    rw [Nat.floor_eq_iff (by norm_num)]
    norm_num
  unfold roundedTrunc
  rw [hf]
  have hb : bitLen 6 = 3 := by decide
  rw [hb]
  norm_num

/-! ## The claims -/

/-- C1: within the capacity of the pixel and waveform arrays and for a brightness in `[0, 1]`,
`show()` returns, and for every pixel `i < numLEDs` and every `k < 24` the output bits at the
positions `72 * i + 3 * k`, `+ 1` and `+ 2` are `(1, d, 0)`, where `d` is bit `23 - k` of the wire
value (green, red, blue) of the pixel after brightness scaling, whatever the waveform held before.
For one black pixel at brightness `1` the first two words are `0x92492492` and `0x49249249` and
the top byte of the third is `0x24`; for one white pixel they are `0xDB6DB6DB`, `0x6DB6DB6D` and
`0xB6`. -/
theorem show_wire_pattern (cfg : Config) (s : State) (q : ℚ) (hv : cfg.Valid) (hwf : s.WF cfg)
    (hq : s.brightness.toRat = some q) (h0 : 0 ≤ q) (h1 : q ≤ 1)
    (hN : s.numLEDs ≤ cfg.NUM_PIXELS) (hcap : 72 * s.numLEDs ≤ 32 * cfg.NUM_DATA_WORDS) :
    ∃ s1, showLeds s = .ok s1 ∧
      (∀ i, i < s.numLEDs → ∃ c px, s.LEDBuffer[i]? = some c ∧
        CFloat.toUChar (CFloat.mul (CFloat.ofSmallInt c.r) s.brightness) = .ok px.r ∧
        CFloat.toUChar (CFloat.mul (CFloat.ofSmallInt c.g) s.brightness) = .ok px.g ∧
        CFloat.toUChar (CFloat.mul (CFloat.ofSmallInt c.b) s.brightness) = .ok px.b ∧
        ∀ k, k < 24 →
          wireBitAt s1.PWMWaveform (72 * i + 3 * k) = true ∧
          wireBitAt s1.PWMWaveform (72 * i + 3 * k + 1) = (wireValue px).testBit (23 - k) ∧
          wireBitAt s1.PWMWaveform (72 * i + 3 * k + 2) = false) ∧
      (s.numLEDs = 1 → q = 1 → s.LEDBuffer[0]? = some (Color 0 0 0) →
        s1.PWMWaveform.getD 0 0 = 0x92492492 ∧ s1.PWMWaveform.getD 1 0 = 0x49249249 ∧
        s1.PWMWaveform.getD 2 0 / 2 ^ 24 = 0x24) ∧
      (s.numLEDs = 1 → q = 1 → s.LEDBuffer[0]? = some (Color 255 255 255) →
        s1.PWMWaveform.getD 0 0 = 0xDB6DB6DB ∧ s1.PWMWaveform.getD 1 0 = 0x6DB6DB6D ∧
        s1.PWMWaveform.getD 2 0 / 2 ^ 24 = 0xB6) := by
  obtain ⟨s1, e, wf1, _, _, _, hp, _, _⟩ := showLeds_spec hv hwf hq h0 h1 hN hcap
  have hgen : ∀ i, i < s.numLEDs → ∃ c px, s.LEDBuffer[i]? = some c ∧
      scaleChannel c.r s.brightness = .ok px.r ∧ scaleChannel c.g s.brightness = .ok px.g ∧
      scaleChannel c.b s.brightness = .ok px.b ∧
      ∀ k, k < 24 →
        wireBitAt s1.PWMWaveform (72 * i + 3 * k) = true ∧
        wireBitAt s1.PWMWaveform (72 * i + 3 * k + 1) = (wireValue px).testBit (23 - k) ∧
        wireBitAt s1.PWMWaveform (72 * i + 3 * k + 2) = false := by
    intro i hi
    obtain ⟨c, px, g1, g2, g3, g4, g5, g6, g7, g8, g9⟩ := hp i hi
    refine ⟨c, px, g1, g3, g4, g5, ?_⟩
    rw [← colorBitsOf_eq_wireValue (toUChar_lt g3) (toUChar_lt g5)]
    exact g9
  refine ⟨s1, e, hgen, ?_, ?_⟩
  · intro hn hq1 hpx
    obtain ⟨c, px, g1, g3, g4, g5, g9⟩ := hgen 0 (by omega)
    rw [hpx] at g1
    injection g1 with g1
    subst g1
    subst hq1
    rw [scaleChannel_one hq (by decide)] at g3 g4 g5
    injection g3 with g3
    injection g4 with g4
    injection g5 with g5
    have hval : wireValue px = 0 := by
      unfold wireValue
      rw [← g3, ← g4, ← g5]
      rfl
    rw [hval] at g9
    exact pixel_words wf1.words (pixel_bits g9) ⟨by decide, by decide⟩ ⟨by decide, by decide⟩
      ⟨by decide, by decide⟩
  · intro hn hq1 hpx
    obtain ⟨c, px, g1, g3, g4, g5, g9⟩ := hgen 0 (by omega)
    rw [hpx] at g1
    injection g1 with g1
    subst g1
    subst hq1
    rw [scaleChannel_one hq (by decide)] at g3 g4 g5
    injection g3 with g3
    injection g4 with g4
    injection g5 with g5
    have hval : wireValue px = 16777215 := by
      unfold wireValue
      rw [← g3, ← g4, ← g5]
      rfl
    rw [hval] at g9
    exact pixel_words wf1.words (pixel_bits g9) ⟨by decide, by decide⟩ ⟨by decide, by decide⟩
      ⟨by decide, by decide⟩

/-- Witness of C1: one black pixel at brightness `1.0` over a stale waveform. -/
theorem show_wire_pattern_witness :
    ∃ s1, showLeds demoBlack = .ok s1 ∧ s1.PWMWaveform.getD 0 0 = 0x92492492 ∧
      s1.PWMWaveform.getD 1 0 = 0x49249249 ∧ s1.PWMWaveform.getD 2 0 / 2 ^ 24 = 0x24 := by
  obtain ⟨s1, e, _, hb, _⟩ := show_wire_pattern demoConfig demoBlack 1 demoConfig_valid
    demoBlack_wf brightnessOne_toRat (by norm_num) (le_refl _) (by decide) (by decide)
  exact ⟨s1, e, hb rfl rfl rfl⟩

/-- C2: the 24-bit value that `show()` hands to the bit expansion for a pixel with scaled
channels `(r, g, b)` is `(g << 16) | (r << 8) | b`: green in bits 16 to 23, red in bits 8 to 15,
blue in bits 0 to 7. It equals the red-first value `(r << 16) | (g << 8) | b` only when red and
green coincide; for `Color(10, 20, 30)` at brightness `1.0` it is `0x140A1E`, not `0x0A141E`. -/
theorem show_assembles_grb (brightness : CFloat) (i : Nat) (leds : List Color_t)
    (wave : List Nat) (wireBit : Nat) (c : Color_t) (r g b : Nat) (hc : leds[i]? = some c)
    (hr : scaleChannel c.r brightness = .ok r) (hg : scaleChannel c.g brightness = .ok g)
    (hb : scaleChannel c.b brightness = .ok b) :
    encodePixels brightness 1 i leds wave wireBit =
      (match encodeColor ((g <<< 16) ||| (r <<< 8) ||| b) 24 wave wireBit with
        | .error f => .error f
        | .ok (wave1, wireBit1) => .ok (leds.set i { r := r, g := g, b := b }, wave1, wireBit1)) ∧
      ((g <<< 16) ||| (r <<< 8) ||| b) / 2 ^ 16 = g ∧
      ((g <<< 16) ||| (r <<< 8) ||| b) / 2 ^ 8 % 2 ^ 8 = r ∧
      ((g <<< 16) ||| (r <<< 8) ||| b) % 2 ^ 8 = b ∧
      (((g <<< 16) ||| (r <<< 8) ||| b) = ((r <<< 16) ||| (g <<< 8) ||| b) ↔ r = g) ∧
      (scaleChannel 10 brightnessOne = .ok 10 ∧ scaleChannel 20 brightnessOne = .ok 20 ∧
        scaleChannel 30 brightnessOne = .ok 30 ∧
        colorBitsOf { r := 10, g := 20, b := 30 } = 0x140A1E ∧
        ((10 <<< 16) ||| (20 <<< 8) ||| 30) = 0x0A141E) := by
  have hr8 := toUChar_lt hr
  have hg8 := toUChar_lt hg
  have hb8 := toUChar_lt hb
  have hgrb : ((g <<< 16) ||| (r <<< 8) ||| b) = g * 2 ^ 16 + r * 2 ^ 8 + b := by
    have h1 := @colorBitsOf_eq_wireValue { r := r, g := g, b := b } hr8 hb8
    simp only [colorBitsOf, wireValue] at h1
    rw [← h1, Nat.lor_comm (g <<< 16) (r <<< 8)]
  have hrgb : ((r <<< 16) ||| (g <<< 8) ||| b) = r * 2 ^ 16 + g * 2 ^ 8 + b := by
    have h1 := @colorBitsOf_eq_wireValue { r := g, g := r, b := b } hg8 hb8
    simp only [colorBitsOf, wireValue] at h1
    rw [← h1, Nat.lor_comm (r <<< 16) (g <<< 8)]
  refine ⟨?_, ?_, ?_, ?_, ?_, by decide, by decide, by decide, by decide, by decide⟩
  · have hcb : colorBitsOf { r := r, g := g, b := b } = ((g <<< 16) ||| (r <<< 8) ||| b) := by
      simp only [colorBitsOf]
      rw [Nat.lor_comm (r <<< 8) (g <<< 16)]
    simp only [encodePixels, hc, hr, hg, hb, hcb]
  · rw [hgrb]
    omega
  · rw [hgrb]
    omega
  · rw [hgrb]
    omega
  · rw [hgrb, hrgb]
    omega

/-- Witness of C2: the pixel `Color(10, 20, 30)` at brightness `1.0`. -/
theorem show_assembles_grb_witness :
    encodePixels brightnessOne 1 0 [Color 10 20 30] [0, 0, 0] 0 =
      (match encodeColor 0x140A1E 24 [0, 0, 0] 0 with
        | .error f => .error f
        | .ok (wave1, wireBit1) => .ok ([Color 10 20 30], wave1, wireBit1)) :=
  (show_assembles_grb brightnessOne 0 [Color 10 20 30] [0, 0, 0] 0 (Color 10 20 30) 10 20 30
    rfl (by decide) (by decide) (by decide)).1

/-- C3: for a bit position `p` whose word `p / 32` lies in the waveform buffer and a bit value
`v` of `0` or `1`, `setPWMBit(p, v)` makes bit `31 - p mod 32` of word `p / 32` equal to `v`,
leaves the other 31 bits of that word as they were, and leaves every other word unchanged. -/
theorem setPWMBit_sets_one_bit (cfg : Config) (wave : List Nat) (p v : Nat)
    (hlen : wave.length = cfg.NUM_DATA_WORDS) (hp : p / 32 < cfg.NUM_DATA_WORDS)
    (hv : v = 0 ∨ v = 1) :
    ∃ wave1, setPWMBit wave p v = .ok wave1 ∧ wave1.length = cfg.NUM_DATA_WORDS ∧
      (wave1.getD (p / 32) 0).testBit (31 - p % 32) = decide (v = 1) ∧
      (∀ k, k < 32 → k ≠ 31 - p % 32 →
        (wave1.getD (p / 32) 0).testBit k = (wave.getD (p / 32) 0).testBit k) ∧
      (∀ j, j ≠ p / 32 → wave1[j]? = wave[j]?) := by
  obtain ⟨wave1, h1, h2, h3, h4, _⟩ := setPWMBit_words (by omega : p / 32 < wave.length) hv
  refine ⟨wave1, h1, by omega, ?_, ?_, ?_⟩
  · rw [h3 _ (by omega)]
    simp
  · intro k hk hne
    rw [h3 k hk, if_neg hne]
  · intro j hj
    exact getElem?_eq_of_getD h2 (h4 j hj)

/-- Witness of C3: setting output bit 33 of a cleared three-word waveform. -/
theorem setPWMBit_sets_one_bit_witness :
    ∃ wave1, setPWMBit [0, 0, 0] 33 1 = .ok wave1 ∧ wave1.length = 3 ∧
      (wave1.getD 1 0).testBit 30 = true :=
  (setPWMBit_sets_one_bit demoConfig [0, 0, 0] 33 1 rfl (by decide) (Or.inr rfl)).imp
    fun _ h => ⟨h.1, h.2.1, h.2.2.1⟩

/-- C4, the claim as stated fails: at brightness `0.7f`, whose value is `11744051 / 2 ^ 24`,
`show()` turns the stored pixel `(10, 20, 30)` into `(7, 14, 21)`, while the truncations toward
zero of the products of the channels and the brightness are `6`, `13` and `20`: each product is
rounded to a `float` first, which here is the next integer, and only then converted to
`unsigned char`. And with more LEDs configured than the waveform holds (two black pixels over
three words, brightness `1`), `show()` does not return with scaled pixels: its encoder writes
past the last word of the waveform. -/
theorem show_rounds_before_truncating :
    demoDim.numLEDs = 1 ∧ demoDim.LEDBuffer = [Color 10 20 30] ∧
      demoDim.brightness.toRat = some (11744051 / 2 ^ 24) ∧
      (∃ s1, showLeds demoDim = .ok s1 ∧ s1.LEDBuffer = [Color 7 14 21]) ∧
      ⌊((10 : ℕ) : ℚ) * (11744051 / 2 ^ 24)⌋₊ = 6 ∧
      ⌊((20 : ℕ) : ℚ) * (11744051 / 2 ^ 24)⌋₊ = 13 ∧
      ⌊((30 : ℕ) : ℚ) * (11744051 / 2 ^ 24)⌋₊ = 20 ∧
      showLeds overState = .error (.waveformIndex 3) := by
  refine ⟨rfl, rfl, ?_, ⟨_, rfl, by decide⟩, ?_, ?_, ?_, by decide⟩
  · simp [demoDim, brightnessDim, CFloat.toRat]
  · rw [Nat.floor_eq_iff (by norm_num)]
    norm_num
  · rw [Nat.floor_eq_iff (by norm_num)]
    norm_num
  · rw [Nat.floor_eq_iff (by norm_num)]
    norm_num

/-- C4, amended: within the capacity of the pixel and waveform buffers and for a brightness `b`
in `[0, 1]`, `show()` returns and overwrites every stored channel `c` of every pixel below
`numLEDs` with the truncation toward zero of the binary32 product `c * b`, that is, of the exact
product rounded to the nearest `float`: with `F = ⌊c * b⌋` the new value is `F + 1` when
`F + 1 - c * b ≤ 2 ^ (bitLen F - 25)`, and `F` otherwise (`roundedTrunc`). The new value is an
8-bit value, not larger than `c`. Pixels from `numLEDs` on are unchanged. A second `show()` at the
same brightness applies the same function to the values the first one stored, and at brightness
`1` the stored pixels are unchanged. -/
theorem show_scales_in_place (cfg : Config) (s : State) (q : ℚ) (hv : cfg.Valid)
    (hwf : s.WF cfg) (hq : s.brightness.toRat = some q) (h0 : 0 ≤ q) (h1 : q ≤ 1)
    (hN : s.numLEDs ≤ cfg.NUM_PIXELS) (hcap : 72 * s.numLEDs ≤ 32 * cfg.NUM_DATA_WORDS) :
    ∃ s1, showLeds s = .ok s1 ∧
      (∀ i, i < s.numLEDs → ∃ c px, s.LEDBuffer[i]? = some c ∧ s1.LEDBuffer[i]? = some px ∧
        px.r = roundedTrunc c.r q ∧ px.g = roundedTrunc c.g q ∧ px.b = roundedTrunc c.b q ∧
        px.r ≤ c.r ∧ px.g ≤ c.g ∧ px.b ≤ c.b ∧ px.r < 256 ∧ px.g < 256 ∧ px.b < 256 ∧
        (⌊(c.r : ℚ) * q⌋₊ ≤ px.r ∧ px.r ≤ ⌊(c.r : ℚ) * q⌋₊ + 1) ∧
        (⌊(c.g : ℚ) * q⌋₊ ≤ px.g ∧ px.g ≤ ⌊(c.g : ℚ) * q⌋₊ + 1) ∧
        (⌊(c.b : ℚ) * q⌋₊ ≤ px.b ∧ px.b ≤ ⌊(c.b : ℚ) * q⌋₊ + 1)) ∧
      (∀ j, s.numLEDs ≤ j → s1.LEDBuffer[j]? = s.LEDBuffer[j]?) ∧
      (∃ s2, showLeds s1 = .ok s2 ∧
        (∀ i, i < s.numLEDs → ∃ c px2, s.LEDBuffer[i]? = some c ∧ s2.LEDBuffer[i]? = some px2 ∧
          px2.r = roundedTrunc (roundedTrunc c.r q) q ∧
          px2.g = roundedTrunc (roundedTrunc c.g q) q ∧
          px2.b = roundedTrunc (roundedTrunc c.b q) q) ∧
        (∀ j, s.numLEDs ≤ j → s2.LEDBuffer[j]? = s.LEDBuffer[j]?)) ∧
      (q = 1 → s1.LEDBuffer = s.LEDBuffer) := by
  obtain ⟨s1, e, wf1, hn1, hb1, _, hp, hf, _⟩ := showLeds_spec hv hwf hq h0 h1 hN hcap
  obtain ⟨s2, e2, _, _, _, _, hp2, hf2, _⟩ :=
    showLeds_spec hv wf1 (by rw [hb1]; exact hq) h0 h1 (by rw [hn1]; exact hN)
      (by rw [hn1]; exact hcap)
  refine ⟨s1, e, ?_, hf, ⟨s2, e2, ?_, ?_⟩, ?_⟩
  · intro i hi
    obtain ⟨c, px, g1, g2, g3, g4, g5, g6, g7, g8, _⟩ := hp i hi
    obtain ⟨cr, cg, cb⟩ := hwf.channels i c g1
    exact ⟨c, px, g1, g2, scaleChannel_exact hq h0 h1 cr g3, scaleChannel_exact hq h0 h1 cg g4,
      scaleChannel_exact hq h0 h1 cb g5, g6, g7, g8, toUChar_lt g3, toUChar_lt g4, toUChar_lt g5,
      scaleChannel_near hq h0 h1 cr g3, scaleChannel_near hq h0 h1 cg g4,
      scaleChannel_near hq h0 h1 cb g5⟩
  · intro i hi
    obtain ⟨c, px, g1, g2, g3, g4, g5, _⟩ := hp i hi
    obtain ⟨c1, px2, k1, k2, k3, k4, k5, _⟩ := hp2 i (by rw [hn1]; exact hi)
    rw [g2] at k1
    injection k1 with k1
    subst k1
    rw [hb1] at k3 k4 k5
    obtain ⟨cr, cg, cb⟩ := hwf.channels i c g1
    have er := scaleChannel_exact hq h0 h1 cr g3
    have eg := scaleChannel_exact hq h0 h1 cg g4
    have eb := scaleChannel_exact hq h0 h1 cb g5
    have er2 := scaleChannel_exact hq h0 h1 (toUChar_lt g3) k3
    have eg2 := scaleChannel_exact hq h0 h1 (toUChar_lt g4) k4
    have eb2 := scaleChannel_exact hq h0 h1 (toUChar_lt g5) k5
    rw [er] at er2
    rw [eg] at eg2
    rw [eb] at eb2
    exact ⟨c, px2, g1, k2, er2, eg2, eb2⟩
  · intro j hj
    rw [hf2 j (by rw [hn1]; exact hj), hf j hj]
  · intro hq1
    subst hq1
    apply List.ext_getElem?
    intro i
    by_cases hi : i < s.numLEDs
    · obtain ⟨c, px, g1, g2, g3, g4, g5, _⟩ := hp i hi
      obtain ⟨cr, cg, cb⟩ := hwf.channels i c g1
      rw [scaleChannel_one hq cr] at g3
      rw [scaleChannel_one hq cg] at g4
      rw [scaleChannel_one hq cb] at g5
      injection g3 with g3
      injection g4 with g4
      injection g5 with g5
      rw [g1, g2]
      cases c
      cases px
      simp only at g3 g4 g5
      rw [g3, g4, g5]
    · exact hf i (by omega)

/-- Witness of C4: one pixel `(10, 20, 30)` at brightness `0.7f`; its red channel is stored as
`7`. -/
theorem show_scales_in_place_witness :
    ∃ s1, showLeds demoDim = .ok s1 ∧ ∃ px, s1.LEDBuffer[0]? = some px ∧ px.r = 7 := by
  obtain ⟨s1, e, h, _⟩ := show_scales_in_place demoConfig demoDim (11744051 / 2 ^ 24)
    demoConfig_valid demoDim_wf demoDim_toRat (by norm_num) (by norm_num) (by decide) (by decide)
  obtain ⟨c, px, g1, g2, g3, _⟩ := h 0 (by decide)
  have hc : c = Color 10 20 30 := by
    have h10 : demoDim.LEDBuffer[0]? = some (Color 10 20 30) := rfl
    rw [h10] at g1
    injection g1 with g1
    exact g1.symm
  subst hc
  refine ⟨s1, e, px, g2, ?_⟩
  rw [g3]
  exact roundedTrunc_dim

/-! ### The brightness setter -/

theorem toRat_fin (neg : Bool) (num den : Nat) :
    (CFloat.fin neg num den).toRat = some (((CFloat.signed neg num : ℤ) : ℚ) / 2 ^ den) := by
  cases neg <;> simp [CFloat.toRat, CFloat.signed]

theorem setBrightness_fin (neg : Bool) (num den : Nat) (s : State) :
    setBrightness (CFloat.fin neg num den) s =
      if CFloat.signed neg num < 0 then (false, s)
      else if (2 : ℤ) ^ den < CFloat.signed neg num then (false, s)
      else (true, { s with brightness := CFloat.fin neg num den }) := by
  simp [setBrightness, CFloat.lt, CFloat.ofSmallInt, CFloat.signed]

/-- C5: `setBrightness(b)` returns false and keeps the stored brightness when `b < 0` or
`b > 1` (the infinities included; `-0.1f` and `1.1f` are examples), and returns true and stores
`b` when `0 ≤ b ≤ 1` (for example `0.5f`); the pixel buffer and the waveform buffer are the same
afterwards in every case. -/
theorem setBrightness_validates (b : CFloat) (s : State) :
    (∀ q, b.toRat = some q → (q < 0 ∨ 1 < q) → setBrightness b s = (false, s)) ∧
    (∀ neg, b = CFloat.inf neg → setBrightness b s = (false, s)) ∧
    (∀ q, b.toRat = some q → 0 ≤ q → q ≤ 1 →
      setBrightness b s = (true, { s with brightness := b })) ∧
    (setBrightness b s).2.LEDBuffer = s.LEDBuffer ∧
    (setBrightness b s).2.PWMWaveform = s.PWMWaveform ∧
    setBrightness (CFloat.fin true 13421773 27) s = (false, s) ∧
    setBrightness (CFloat.fin false 9227469 23) s = (false, s) ∧
    setBrightness (CFloat.fin false 1 1) s =
      (true, { s with brightness := CFloat.fin false 1 1 }) := by
  refine ⟨?_, ?_, ?_, ?_, ?_, ?_, ?_, ?_⟩
  rotate_left 5
  · rw [setBrightness_fin, if_pos (by norm_num [CFloat.signed])]
  · rw [setBrightness_fin, if_neg (by norm_num [CFloat.signed]),
      if_pos (by norm_num [CFloat.signed])]
  · rw [setBrightness_fin, if_neg (by norm_num [CFloat.signed]),
      if_neg (by norm_num [CFloat.signed])]
  · intro q hq hout
    cases b with
    | nan => simp [CFloat.toRat] at hq
    | inf neg => simp [CFloat.toRat] at hq
    | fin neg num den =>
      rw [toRat_fin] at hq
      injection hq with hq
      have hp : (0 : ℚ) < 2 ^ den := by positivity
      rw [setBrightness_fin]
      rcases hout with h | h
      · rw [← hq, div_lt_iff₀ hp, zero_mul] at h
        rw [if_pos (by exact_mod_cast h)]
      · rw [← hq, lt_div_iff₀ hp, one_mul] at h
        have h2 : (2 : ℤ) ^ den < CFloat.signed neg num := by exact_mod_cast h
        rw [if_pos h2]
        simp
  · intro neg hb
    subst hb
    cases neg <;> simp [setBrightness, CFloat.lt, CFloat.ofSmallInt]
  · intro q hq hq0 hq1
    cases b with
    | nan => simp [CFloat.toRat] at hq
    | inf neg => simp [CFloat.toRat] at hq
    | fin neg num den =>
      rw [toRat_fin] at hq
      injection hq with hq
      have hp : (0 : ℚ) < 2 ^ den := by positivity
      rw [setBrightness_fin]
      rw [← hq, le_div_iff₀ hp, zero_mul] at hq0
      rw [← hq, div_le_iff₀ hp, one_mul] at hq1
      have h2 : (0 : ℤ) ≤ CFloat.signed neg num := by exact_mod_cast hq0
      have h3 : CFloat.signed neg num ≤ (2 : ℤ) ^ den := by exact_mod_cast hq1
      rw [if_neg (by omega), if_neg (by omega)]
  · unfold setBrightness
    split_ifs <;> rfl
  · unfold setBrightness
    split_ifs <;> rfl

/-- Witness of C5: `setBrightness(0.5)` on the one-pixel state succeeds and stores `0.5f`. -/
theorem setBrightness_validates_witness :
    setBrightness (CFloat.fin false 1 1) demoBlack =
      (true, { demoBlack with brightness := CFloat.fin false 1 1 }) :=
  (setBrightness_validates (CFloat.fin false 1 1) demoBlack).2.2.1 (1 / 2)
    (by norm_num [CFloat.toRat]) (by norm_num) (by norm_num)

/-! ### The control block length -/

theorem lengthExpr_eq (numLEDs : Nat) : lengthExpr numLEDs = ((9 * numLEDs + 4 : ℕ) : ℚ) := by
  unfold lengthExpr
  push_cast
  ring

theorem unclampedLength_eq {numLEDs : Nat} (h : 9 * numLEDs + 4 < 2 ^ 32) :
    unclampedLength numLEDs = .ok (9 * numLEDs + 4) := by
  unfold unclampedLength
  rw [lengthExpr_eq, Nat.floor_natCast, if_pos (by exact_mod_cast h)]

theorem initLength_eq (cfg : Config) {numLEDs : Nat} (h : 9 * numLEDs + 4 < 2 ^ 32) :
    initLength cfg numLEDs = .ok (min (9 * numLEDs + 4) (cfg.NUM_DATA_WORDS * 4)) := by
  unfold initLength
  rw [unclampedLength_eq h]
  simp only []
  by_cases hc : 9 * numLEDs + 4 > cfg.NUM_DATA_WORDS * 4
  · rw [if_pos hc, Nat.min_eq_right (by omega)]
  · rw [if_neg hc, Nat.min_eq_left (by omega)]

/-- C6, as the claim states it, fails: for one LED and room for four words nothing is clamped,
and `initHardware()` sets a length of 13 bytes, where `ceil(1 * 72 / 32) + 1` words are 16. -/
theorem initLength_not_ceil :
    unclampedLength 1 = .ok 13 ∧ initLength roomyConfig 1 = .ok 13 ∧ specLength 1 = 16 := by
  refine ⟨unclampedLength_eq (by norm_num), ?_, by decide⟩
  rw [initLength_eq roomyConfig (by norm_num)]
  rfl

/-- C6, amended: for every LED count `N` whose length is not clamped, the control block length
is `(N * 2.25 + 1) * 4 = 9 * N + 4` bytes, that is `N * 2.25 + 1` words with no rounding up to a
whole word. It holds `9 * N / 4 + 1` whole words, is never more than the
`4 * (ceil(9 * N / 4) + 1)` of the spec, and equals it exactly when `N` is a multiple of 4. -/
theorem initLength_unclamped (cfg : Config) (numLEDs : Nat) (h32 : 9 * numLEDs + 4 < 2 ^ 32)
    (hfit : 9 * numLEDs + 4 ≤ cfg.NUM_DATA_WORDS * 4) :
    initLength cfg numLEDs = .ok (9 * numLEDs + 4) ∧
      (9 * numLEDs + 4) / 4 = 9 * numLEDs / 4 + 1 ∧
      9 * numLEDs + 4 ≤ specLength numLEDs ∧
      (9 * numLEDs + 4 = specLength numLEDs ↔ numLEDs % 4 = 0) := by
  refine ⟨?_, by omega, by unfold specLength; omega, by unfold specLength; omega⟩
  rw [initLength_eq cfg h32, Nat.min_eq_left hfit]

/-- Witness of C6 amended: one LED with room for four words gives 13 bytes. -/
theorem initLength_unclamped_witness : initLength roomyConfig 1 = .ok (9 * 1 + 4) :=
  (initLength_unclamped roomyConfig 1 (by norm_num) (by decide)).1

/-- C7, as the claim states it, fails: with a waveform of three words one LED's 72 bits fit the
96 bits of the buffer, and still the length is clamped from 13 bytes to 12. -/
theorem initLength_clamps_when_bits_fit :
    unclampedLength 1 = .ok 13 ∧ initLength demoConfig 1 = .ok 12 ∧
      72 * 1 ≤ 32 * demoConfig.NUM_DATA_WORDS := by
  refine ⟨unclampedLength_eq (by norm_num), ?_, by decide⟩
  rw [initLength_eq demoConfig (by norm_num)]
  rfl

/-- C7, amended: for every LED count `N` whose unclamped length `U(N) = 9 * N + 4` fits 32 bits,
the control block length is `min(U(N), 4 * NUM_DATA_WORDS)`; it never exceeds the capacity of the
waveform buffer in bytes, and it differs from `U(N)` exactly when `U(N)` exceeds the capacity,
that is when the `72 * N` waveform bits together with the 32 bits of the extra word do not fit
the `32 * NUM_DATA_WORDS` bits of the buffer. -/
theorem initLength_clamped (cfg : Config) (numLEDs : Nat) (h32 : 9 * numLEDs + 4 < 2 ^ 32) :
    ∃ u len, unclampedLength numLEDs = .ok u ∧ initLength cfg numLEDs = .ok len ∧
      u = 9 * numLEDs + 4 ∧ len = min u (4 * cfg.NUM_DATA_WORDS) ∧
      len ≤ 4 * cfg.NUM_DATA_WORDS ∧
      (len ≠ u ↔ 32 * cfg.NUM_DATA_WORDS < 72 * numLEDs + 32) := by
  refine ⟨9 * numLEDs + 4, min (9 * numLEDs + 4) (cfg.NUM_DATA_WORDS * 4),
    unclampedLength_eq h32, initLength_eq cfg h32, rfl,
    by rw [Nat.mul_comm 4 cfg.NUM_DATA_WORDS], ?_, ?_⟩
  · omega
  · omega

/-- Witness of C7 amended: one LED over three words is clamped to 12 bytes. -/
theorem initLength_clamped_witness :
    ∃ u len, unclampedLength 1 = .ok u ∧ initLength demoConfig 1 = .ok len ∧ u = 13 ∧
      len ≤ 12 :=
  (initLength_clamped demoConfig 1 (by norm_num)).imp fun _ h =>
    h.imp fun _ h => ⟨h.1, h.2.1, h.2.2.1, h.2.2.2.2.1⟩

/-! ### Capacity -/

theorem setThree_overflow {wave : List Nat} {wb b0 b1 b2 : Nat} (hle : wb ≤ 32 * wave.length)
    (hgt : 32 * wave.length < wb + 3) (hlen : 32 * wave.length < 2 ^ 32)
    (h0 : b0 = 0 ∨ b0 = 1) (h1 : b1 = 0 ∨ b1 = 1) (h2 : b2 = 0 ∨ b2 = 1) :
    setThree wave wb b0 b1 b2 = .error (.waveformIndex wave.length) := by
  have m1 : (wb + 1) % 2 ^ 32 = wb + 1 := Nat.mod_eq_of_lt (by omega)
  have m2 : (wb + 1 + 1) % 2 ^ 32 = wb + 2 := Nat.mod_eq_of_lt (by omega)
  by_cases c0 : wave.length ≤ wb / 32
  · have e := setPWMBit_overflow c0 h0
    have hw : wb / 32 = wave.length := by omega
    simp only [setThree, e, hw]
  · obtain ⟨w1, e1, l1, _, _⟩ := setPWMBit_bits (by omega : wb / 32 < wave.length) h0
    by_cases c1 : w1.length ≤ (wb + 1) / 32
    · have e := setPWMBit_overflow c1 h1
      have hw : (wb + 1) / 32 = wave.length := by omega
      simp only [setThree, e1, m1, e, hw]
    · obtain ⟨w2, e2, l2, _, _⟩ := setPWMBit_bits (by omega : (wb + 1) / 32 < w1.length) h1
      have e := setPWMBit_overflow (by omega : w2.length ≤ (wb + 2) / 32) h2
      have hw : (wb + 2) / 32 = wave.length := by omega
      simp only [setThree, e1, m1, e2, m2, e, hw]

theorem encodeColor_overflow (cb : Nat) : ∀ (n : Nat) (wave : List Nat) (wb : Nat),
    wb ≤ 32 * wave.length → 32 * wave.length < wb + 3 * n → 32 * wave.length < 2 ^ 32 →
    encodeColor cb n wave wb = .error (.waveformIndex wave.length) := by
  intro n
  induction n with
  | zero =>
    intro wave wb h1 h2 _
    omega
  | succ j ih =>
    intro wave wb hle hgt hlen
    by_cases hfit : wb + 3 ≤ 32 * wave.length
    · have hstep : ∃ w3, (match (if cb &&& (1 <<< j) ≠ 0 then 1 else 0 : Nat) with
          | 1 => setThree wave wb 1 1 0
          | _ => setThree wave wb 1 0 0) = .ok (w3, wb + 3) ∧ w3.length = wave.length := by
        by_cases hb : cb &&& (1 <<< j) ≠ 0
        · obtain ⟨w3, e, l, _⟩ := @setThree_bits wave wb 1 1 0 hfit hlen
            (Or.inr rfl) (Or.inr rfl) (Or.inl rfl)
          exact ⟨w3, by rw [if_pos hb]; exact e, l⟩
        · obtain ⟨w3, e, l, _⟩ := @setThree_bits wave wb 1 0 0 hfit hlen
            (Or.inr rfl) (Or.inl rfl) (Or.inl rfl)
          exact ⟨w3, by rw [if_neg hb]; exact e, l⟩
      obtain ⟨w3, e3, l3⟩ := hstep
      have := ih w3 (wb + 3) (by omega) (by omega) (by omega)
      simp only [encodeColor]
      rw [e3]
      simp only []
      rw [this, l3]
    · have hstep : (match (if cb &&& (1 <<< j) ≠ 0 then 1 else 0 : Nat) with
          | 1 => setThree wave wb 1 1 0
          | _ => setThree wave wb 1 0 0) = .error (.waveformIndex wave.length) := by
        by_cases hb : cb &&& (1 <<< j) ≠ 0
        · rw [if_pos hb]
          exact setThree_overflow hle (by omega) hlen (Or.inr rfl) (Or.inr rfl) (Or.inl rfl)
        · rw [if_neg hb]
          exact setThree_overflow hle (by omega) hlen (Or.inr rfl) (Or.inl rfl) (Or.inl rfl)
      simp only [encodeColor]
      rw [hstep]

theorem encodePixels_overflow {b : CFloat} {q : ℚ} (hq : b.toRat = some q) (h0 : 0 ≤ q)
    (h1 : q ≤ 1) : ∀ (n i : Nat) (leds : List Color_t) (wave : List Nat) (wb : Nat),
    i + n ≤ leds.length → wb ≤ 32 * wave.length → 32 * wave.length < wb + 72 * n →
    32 * wave.length < 2 ^ 32 → ChannelsOk leds →
    encodePixels b n i leds wave wb = .error (.waveformIndex wave.length) := by
  intro n
  induction n with
  | zero =>
    intro i leds wave wb _ h2 h3 _ _
    omega
  | succ n ih =>
    intro i leds wave wb hi hle hgt hlen hch
    have hil : i < leds.length := by omega
    have hget : leds[i]? = some leds[i] := List.getElem?_eq_getElem hil
    obtain ⟨hcr, hcg, hcb⟩ := hch i leds[i] hget
    obtain ⟨r, er, hr⟩ := scaleChannel_le hq h0 h1 hcr
    obtain ⟨g, eg, hg⟩ := scaleChannel_le hq h0 h1 hcg
    obtain ⟨bl, eb, hb⟩ := scaleChannel_le hq h0 h1 hcb
    by_cases hfit : wb + 72 ≤ 32 * wave.length
    · obtain ⟨wave1, e1, l1, _⟩ :=
        encodeColor_bits (colorBitsOf { r := r, g := g, b := bl }) 24 wave wb (by omega) hlen
      have hch1 : ChannelsOk (leds.set i { r := r, g := g, b := bl }) := by
        intro j c hj
        by_cases hji : j = i
        · subst hji
          simp only [List.getElem?_set, hil, if_true, Option.some.injEq] at hj
          subst hj
          exact ⟨lt_of_le_of_lt hr hcr, lt_of_le_of_lt hg hcg, lt_of_le_of_lt hb hcb⟩
        · rw [getElem?_set_color hji] at hj
          exact hch j c hj
      have := ih (i + 1) (leds.set i { r := r, g := g, b := bl }) wave1 (wb + 72)
        (by simp only [List.length_set]; omega) (by omega) (by omega) (by omega) hch1
      simp only [encodePixels, hget, er, eg, eb]
      have e72 : wb + 3 * 24 = wb + 72 := by omega
      rw [e72] at e1
      rw [e1]
      simp only []
      rw [this, l1]
    · have := encodeColor_overflow (colorBitsOf { r := r, g := g, b := bl }) 24 wave wb hle
        (by omega) hlen
      simp only [encodePixels, hget, er, eg, eb]
      rw [this]

/-- Beyond the capacity of the waveform, with everything else in order, `show()` does not
return: its encoder makes a `setPWMBit` call for word `NUM_DATA_WORDS`, one past the array. -/
theorem showLeds_overflow {cfg : Config} {s : State} {q : ℚ} (hv : cfg.Valid) (hwf : s.WF cfg)
    (hq : s.brightness.toRat = some q) (h0 : 0 ≤ q) (h1 : q ≤ 1)
    (hN : s.numLEDs ≤ cfg.NUM_PIXELS) (hcap : 32 * cfg.NUM_DATA_WORDS < 72 * s.numLEDs) :
    showLeds s = .error (.waveformIndex cfg.NUM_DATA_WORDS) := by
  have hbits := hv.bits
  have := encodePixels_overflow hq h0 h1 s.numLEDs 0 s.LEDBuffer s.PWMWaveform 0
    (by rw [hwf.leds_length]; omega) (by omega) (by rw [hwf.wave_length]; omega)
    (by rw [hwf.wave_length]; omega) hwf.channels
  simp only [showLeds, this, hwf.wave_length]

/-- C8, the code at the failing input: with two LEDs over a waveform of three words the copy is
bounded by the clamped length of 12 bytes, but the encoder of `show()` runs on into word 3,
one past the last word of `PWMWaveform` (`showLeds_overflow` is the same for every LED count
beyond the capacity). -/
theorem show_overflows_waveform :
    initLength overConfig 2 = .ok 12 ∧ overState.cbLength / 4 ≤ overConfig.NUM_DATA_WORDS ∧
      showLeds overState = .error (.waveformIndex overConfig.NUM_DATA_WORDS) := by
  refine ⟨?_, by decide, by decide⟩
  rw [initLength_eq overConfig (by norm_num)]
  rfl

/-! ### Regeneration of the waveform -/

/-- C9, as the claim states it, fails: one black pixel at brightness `1.0` encoded over two
different earlier waveforms leaves two different waveforms, because the 24 bits of the third
word behind the pixel's 72 bits are never written. -/
theorem show_keeps_stale_bits :
    demoBlack.LEDBuffer = demoBlackCleared.LEDBuffer ∧
      demoBlack.brightness = demoBlackCleared.brightness ∧
      demoBlack.numLEDs = demoBlackCleared.numLEDs ∧
      ∃ s1 s2, showLeds demoBlack = .ok s1 ∧ showLeds demoBlackCleared = .ok s2 ∧
        s1.PWMWaveform = [0x92492492, 0x49249249, 0x24FFFFFF] ∧
        s2.PWMWaveform = [0x92492492, 0x49249249, 0x24000000] ∧
        s1.PWMWaveform ≠ s2.PWMWaveform := by
  refine ⟨rfl, rfl, rfl, _, _, rfl, rfl, ?_, ?_, ?_⟩ <;> decide

/-- C9, amended: within capacity and for a brightness in `[0, 1]`, `show()` regenerates the
first `72 * numLEDs` output bits of the waveform: after `show()` they are the same for any two
earlier contents of `PWMWaveform`, as are the stored pixels. Every output bit from position
`72 * numLEDs` on is left as it was before the call. -/
theorem show_regenerates_encoded_bits (cfg : Config) (s : State) (wave2 : List Nat) (q : ℚ)
    (hv : cfg.Valid) (hwf : s.WF cfg) (hq : s.brightness.toRat = some q) (h0 : 0 ≤ q)
    (h1 : q ≤ 1) (hN : s.numLEDs ≤ cfg.NUM_PIXELS)
    (hcap : 72 * s.numLEDs ≤ 32 * cfg.NUM_DATA_WORDS)
    (hl2 : wave2.length = cfg.NUM_DATA_WORDS) (hw2 : WordsOk wave2) :
    ∃ s1 s2, showLeds s = .ok s1 ∧ showLeds { s with PWMWaveform := wave2 } = .ok s2 ∧
      (∀ p, p < 72 * s.numLEDs →
        wireBitAt s1.PWMWaveform p = wireBitAt s2.PWMWaveform p) ∧
      (∀ p, 72 * s.numLEDs ≤ p →
        wireBitAt s1.PWMWaveform p = wireBitAt s.PWMWaveform p ∧
        wireBitAt s2.PWMWaveform p = wireBitAt wave2 p) ∧
      s1.LEDBuffer = s2.LEDBuffer := by
  have hwf2 : State.WF cfg { s with PWMWaveform := wave2 } :=
    ⟨hwf.leds_length, hl2, hwf.sample_length, hwf.channels, hw2, hwf.cb_length⟩
  obtain ⟨s1, e1, _, _, _, _, hp1, hf1, hr1⟩ := showLeds_spec hv hwf hq h0 h1 hN hcap
  obtain ⟨s2, e2, _, _, _, _, hp2, hf2, hr2⟩ :=
    @showLeds_spec cfg { s with PWMWaveform := wave2 } q hv hwf2 hq h0 h1 hN hcap
  have hsame : ∀ i, i < s.numLEDs → ∃ px, s1.LEDBuffer[i]? = some px ∧
      s2.LEDBuffer[i]? = some px ∧
      ∀ k, k < 24 →
        wireBitAt s1.PWMWaveform (72 * i + 3 * k) = wireBitAt s2.PWMWaveform (72 * i + 3 * k) ∧
        wireBitAt s1.PWMWaveform (72 * i + 3 * k + 1) =
          wireBitAt s2.PWMWaveform (72 * i + 3 * k + 1) ∧
        wireBitAt s1.PWMWaveform (72 * i + 3 * k + 2) =
          wireBitAt s2.PWMWaveform (72 * i + 3 * k + 2) := by
    intro i hi
    obtain ⟨c, px, g1, g2, g3, g4, g5, _, _, _, g9⟩ := hp1 i hi
    obtain ⟨c2, px2, k1, k2, k3, k4, k5, _, _, _, k9⟩ := hp2 i hi
    have hc : c2 = c := by
      have : some c2 = some c := by rw [← k1, ← g1]
      injection this
    subst hc
    have hpx : px2 = px := by
      have e3 : Except.ok px2.r = (Except.ok px.r : Except Fault Nat) := by rw [← k3, ← g3]
      have e4 : Except.ok px2.g = (Except.ok px.g : Except Fault Nat) := by rw [← k4, ← g4]
      have e5 : Except.ok px2.b = (Except.ok px.b : Except Fault Nat) := by rw [← k5, ← g5]
      injection e3 with e3
      injection e4 with e4
      injection e5 with e5
      cases px
      cases px2
      simp only at e3 e4 e5
      rw [e3, e4, e5]
    subst hpx
    refine ⟨px2, g2, k2, ?_⟩
    intro k hk
    obtain ⟨a1, a2, a3⟩ := g9 k hk
    obtain ⟨b1, b2, b3⟩ := k9 k hk
    exact ⟨by rw [a1, b1], by rw [a2, b2], by rw [a3, b3]⟩
  refine ⟨s1, s2, e1, e2, ?_, ?_, ?_⟩
  · intro p hp
    obtain ⟨_, _, _, hk⟩ := hsame (p / 72) (by omega)
    obtain ⟨a1, a2, a3⟩ := hk (p % 72 / 3) (by omega)
    have hcases : p % 3 = 0 ∨ p % 3 = 1 ∨ p % 3 = 2 := by omega
    rcases hcases with hc | hc | hc
    · have e : 72 * (p / 72) + 3 * (p % 72 / 3) = p := by omega
      rw [e] at a1
      exact a1
    · have e : 72 * (p / 72) + 3 * (p % 72 / 3) + 1 = p := by omega
      rw [e] at a2
      exact a2
    · have e : 72 * (p / 72) + 3 * (p % 72 / 3) + 2 = p := by omega
      rw [e] at a3
      exact a3
  · intro p hp
    exact ⟨hr1 p hp, hr2 p hp⟩
  · apply List.ext_getElem?
    intro i
    by_cases hi : i < s.numLEDs
    · obtain ⟨px, a, b, _⟩ := hsame i hi
      rw [a, b]
    · rw [hf1 i (Nat.le_of_not_lt hi), hf2 i (Nat.le_of_not_lt hi)]

/-- Witness of C9 amended: the black pixel over the stale and over the cleared waveform. -/
theorem show_regenerates_encoded_bits_witness :
    ∃ s1 s2, showLeds demoBlack = .ok s1 ∧ showLeds demoBlackCleared = .ok s2 ∧
      (∀ p, p < 72 → wireBitAt s1.PWMWaveform p = wireBitAt s2.PWMWaveform p) ∧
      s1.LEDBuffer = s2.LEDBuffer := by
  obtain ⟨s1, s2, e1, e2, h1, _, h3⟩ := show_regenerates_encoded_bits demoConfig demoBlack
    [0, 0, 0] 1 demoConfig_valid demoBlack_wf brightnessOne_toRat (by norm_num) (le_refl _)
    (by decide) (by decide) rfl (wordsOk_of_forall (by decide))
  exact ⟨s1, s2, e1, e2, h1, h3⟩

/-! ### The page map -/

theorem pageBase_eq (cfg : Config) (p : Nat) :
    pageBase cfg p = p - p % 2 ^ cfg.PAGE_SHIFT := by
  unfold pageBase
  rw [Nat.shiftRight_eq_div_pow, Nat.shiftLeft_eq]
  have := Nat.div_add_mod p (2 ^ cfg.PAGE_SHIFT)
  rw [Nat.mul_comm] at this
  omega

/-- The search of `mem_phys_to_virt` returns the address in the first page whose frame is
`pg_addr`, when there is one among the entries still to be searched. -/
theorem findPage_found (cfg : Config) (virtbase : Nat) (page_map : List page_map_t)
    (pg_addr pg_offset : Nat) : ∀ (n i : Nat), i + n ≤ page_map.length →
    (∃ j e, i ≤ j ∧ j < i + n ∧ page_map[j]? = some e ∧ e.physaddr = pg_addr) →
    ∃ j0 e0, i ≤ j0 ∧ j0 < i + n ∧ page_map[j0]? = some e0 ∧ e0.physaddr = pg_addr ∧
      (∀ j e, i ≤ j → j < j0 → page_map[j]? = some e → e.physaddr ≠ pg_addr) ∧
      findPage cfg virtbase page_map pg_addr pg_offset n i =
        .ok ((virtbase + j0 * cfg.PAGE_SIZE + pg_offset) % 2 ^ 32) := by
  intro n
  induction n with
  | zero =>
    intro i _ hex
    obtain ⟨j, _, h1, h2, _⟩ := hex
    omega
  | succ n ih =>
    intro i hlen hex
    have hget : page_map[i]? = some page_map[i] := List.getElem?_eq_getElem (by omega)
    by_cases hhit : page_map[i].physaddr = pg_addr
    · refine ⟨i, page_map[i], le_refl _, by omega, hget, hhit, ?_, ?_⟩
      · intro j e h1 h2
        omega
      · simp only [findPage, hget, hhit, if_true]
    · obtain ⟨j, e, h1, h2, h3, h4⟩ := hex
      have hji : j ≠ i := by
        intro hji
        subst hji
        rw [hget] at h3
        injection h3 with h3
        rw [← h3] at h4
        exact hhit h4
      obtain ⟨j0, e0, k1, k2, k3, k4, k5, k6⟩ :=
        ih (i + 1) (by omega) ⟨j, e, by omega, by omega, h3, h4⟩
      refine ⟨j0, e0, by omega, by omega, k3, k4, ?_, ?_⟩
      · intro j1 e1 a1 a2 a3
        by_cases hj1 : j1 = i
        · subst hj1
          rw [hget] at a3
          injection a3 with a3
          rw [← a3]
          exact hhit
        · exact k5 j1 e1 (by omega) a2 a3
      · simp only [findPage, hget, hhit, if_false]
        exact k6

/-- C10: for a page map with its `NUM_PAGES` entries and a physical address `p` whose page base
is the `physaddr` of some entry, `mem_phys_to_virt(p)` returns an address, and
`mem_virt_to_phys` maps that address back to `p`. -/
theorem phys_virt_phys_roundtrip (cfg : Config) (virtbase : Nat) (page_map : List page_map_t)
    (p : Nat) (hv : cfg.Valid) (hlen : page_map.length = cfg.NUM_PAGES) (hp : p < 2 ^ 32)
    (hmem : ∃ e ∈ page_map, e.physaddr = pageBase cfg p) :
    ∃ v, mem_phys_to_virt cfg virtbase page_map p = .ok v ∧
      mem_virt_to_phys cfg virtbase page_map v = .ok p := by
  obtain ⟨e, he, hbase⟩ := hmem
  obtain ⟨j, hj⟩ := List.getElem?_of_mem he
  have hjlt : j < page_map.length := by
    by_contra hc
    rw [List.getElem?_eq_none (by omega)] at hj
    cases hj
  have hps := hv.page_size
  have hoff : p &&& (cfg.PAGE_SIZE - 1) = p % 2 ^ cfg.PAGE_SHIFT := by
    rw [hps, Nat.and_pow_two_sub_one_eq_mod]
  have hpos : 0 < 2 ^ cfg.PAGE_SHIFT := Nat.two_pow_pos _
  have hofflt : p % 2 ^ cfg.PAGE_SHIFT < 2 ^ cfg.PAGE_SHIFT := Nat.mod_lt _ hpos
  have hoffle : p % 2 ^ cfg.PAGE_SHIFT ≤ p := Nat.mod_le _ _
  rw [pageBase_eq] at hbase
  obtain ⟨j0, e0, _, k2, k3, k4, _, k6⟩ :=
    findPage_found cfg virtbase page_map (p - p % 2 ^ cfg.PAGE_SHIFT) (p % 2 ^ cfg.PAGE_SHIFT)
      cfg.NUM_PAGES 0 (by omega) ⟨j, e, Nat.zero_le _, by omega, hj, hbase⟩
  refine ⟨(virtbase + j0 * cfg.PAGE_SIZE + p % 2 ^ cfg.PAGE_SHIFT) % 2 ^ 32, ?_, ?_⟩
  · unfold mem_phys_to_virt
    simp only [hoff]
    exact k6
  · have hreg := hv.region
    have hX : j0 * cfg.PAGE_SIZE + p % 2 ^ cfg.PAGE_SHIFT < 2 ^ 32 := by
      have h1 : (j0 + 1) * cfg.PAGE_SIZE ≤ cfg.NUM_PAGES * cfg.PAGE_SIZE :=
        Nat.mul_le_mul_right _ (by omega)
      rw [Nat.add_mul, Nat.one_mul] at h1
      rw [hps] at h1 hreg ⊢
      omega
    have hoffset : ((virtbase + j0 * cfg.PAGE_SIZE + p % 2 ^ cfg.PAGE_SHIFT) % 2 ^ 32 % 2 ^ 32 +
        2 ^ 32 - virtbase % 2 ^ 32) % 2 ^ 32 = j0 * cfg.PAGE_SIZE + p % 2 ^ cfg.PAGE_SHIFT := by
      rw [Nat.add_assoc]
      generalize j0 * cfg.PAGE_SIZE + p % 2 ^ cfg.PAGE_SHIFT = X at hX ⊢
      omega
    have hidx : (j0 * cfg.PAGE_SIZE + p % 2 ^ cfg.PAGE_SHIFT) >>> cfg.PAGE_SHIFT = j0 := by
      rw [Nat.shiftRight_eq_div_pow, hps, Nat.mul_comm, Nat.mul_add_div hpos,
        Nat.div_eq_of_lt hofflt, Nat.add_zero]
    have hmod : (j0 * cfg.PAGE_SIZE + p % 2 ^ cfg.PAGE_SHIFT) % cfg.PAGE_SIZE =
        p % 2 ^ cfg.PAGE_SHIFT := by
      rw [hps, Nat.mul_comm, Nat.mul_add_mod, Nat.mod_eq_of_lt hofflt]
    unfold mem_virt_to_phys
    simp only [hoffset, hidx, hmod, k3, k4]
    congr 1
    rw [Nat.sub_add_cancel hoffle, Nat.mod_eq_of_lt hp]

/-- Witness of C10: an address in the second page of a two-page map. -/
theorem phys_virt_phys_roundtrip_witness :
    ∃ v, mem_phys_to_virt pagesConfig 0x10000 demoPages 0x40003123 = .ok v ∧
      mem_virt_to_phys pagesConfig 0x10000 demoPages v = .ok 0x40003123 :=
  phys_virt_phys_roundtrip pagesConfig 0x10000 demoPages 0x40003123
    ⟨by decide, by decide, by decide⟩ rfl (by decide)
    ⟨{ virtaddr := 0x11000, physaddr := 0x40003000 }, by decide, by decide⟩

/-- The search of `mem_phys_to_virt` runs off the end, into `fatal()`, when no entry still to
be searched has the frame `pg_addr`. -/
theorem findPage_none (cfg : Config) (virtbase : Nat) (page_map : List page_map_t)
    (pg_addr pg_offset : Nat) : ∀ (n i : Nat), i + n ≤ page_map.length →
    (∀ j e, i ≤ j → j < i + n → page_map[j]? = some e → e.physaddr ≠ pg_addr) →
    findPage cfg virtbase page_map pg_addr pg_offset n i = .error .fatal := by
  intro n
  induction n with
  | zero =>
    intro i _ _
    rfl
  | succ n ih =>
    intro i hlen hno
    have hget : page_map[i]? = some page_map[i] := List.getElem?_eq_getElem (by omega)
    have hmiss : ¬ page_map[i].physaddr = pg_addr := hno i _ (le_refl _) (by omega) hget
    simp only [findPage, hget, hmiss, if_false]
    exact ih (i + 1) (by omega) (fun j e h1 h2 h3 => hno j e (by omega) (by omega) h3)

/-- The offset computed by `mem_virt_to_phys` for 32-bit addresses at or above `virtbase`. -/
theorem offset_above {virtbase v : Nat} (hlo : virtbase ≤ v) (hv : v < 2 ^ 32) :
    (v % 2 ^ 32 + 2 ^ 32 - virtbase % 2 ^ 32) % 2 ^ 32 = v - virtbase := by
  omega

/-- The offset computed by `mem_virt_to_phys` for addresses below `virtbase`: it wraps. -/
theorem offset_below {virtbase v : Nat} (hlo : v < virtbase) (hb : virtbase < 2 ^ 32) :
    (v % 2 ^ 32 + 2 ^ 32 - virtbase % 2 ^ 32) % 2 ^ 32 = v + 2 ^ 32 - virtbase := by
  omega

/-- Inside the locked region `mem_virt_to_phys` reads the entry of the page of `v` and adds the
offset of `v` in its page. -/
theorem mem_virt_to_phys_inside {cfg : Config} {virtbase v : Nat} {page_map : List page_map_t}
    (hv : cfg.Valid) (hlen : page_map.length = cfg.NUM_PAGES) (hlo : virtbase ≤ v)
    (hhi : v < virtbase + cfg.NUM_PAGES * cfg.PAGE_SIZE)
    (h32 : virtbase + cfg.NUM_PAGES * cfg.PAGE_SIZE ≤ 2 ^ 32) :
    ∃ e, page_map[(v - virtbase) / cfg.PAGE_SIZE]? = some e ∧
      (v - virtbase) / cfg.PAGE_SIZE < cfg.NUM_PAGES ∧
      mem_virt_to_phys cfg virtbase page_map v =
        .ok ((e.physaddr + (v - virtbase) % cfg.PAGE_SIZE) % 2 ^ 32) := by
  have hps := hv.page_size
  have hpos : 0 < cfg.PAGE_SIZE := by rw [hps]; exact Nat.two_pow_pos _
  have hidx : (v - virtbase) / cfg.PAGE_SIZE < cfg.NUM_PAGES := by
    rw [Nat.div_lt_iff_lt_mul hpos]
    omega
  have hget : page_map[(v - virtbase) / cfg.PAGE_SIZE]? =
      some page_map[(v - virtbase) / cfg.PAGE_SIZE] := List.getElem?_eq_getElem (by omega)
  refine ⟨_, hget, hidx, ?_⟩
  unfold mem_virt_to_phys
  simp only [offset_above hlo (by omega : v < 2 ^ 32), Nat.shiftRight_eq_div_pow, ← hps, hget]

/-- Outside the locked region `mem_virt_to_phys` indexes `page_map` beyond its entries. -/
theorem mem_virt_to_phys_outside {cfg : Config} {virtbase v : Nat} {page_map : List page_map_t}
    (hv : cfg.Valid) (hlen : page_map.length = cfg.NUM_PAGES) (hv32 : v < 2 ^ 32)
    (h32 : virtbase + cfg.NUM_PAGES * cfg.PAGE_SIZE ≤ 2 ^ 32)
    (hout : v < virtbase ∨ virtbase + cfg.NUM_PAGES * cfg.PAGE_SIZE ≤ v) :
    ∃ i, cfg.NUM_PAGES ≤ i ∧
      mem_virt_to_phys cfg virtbase page_map v = .error (.pageMapIndex i) := by
  have hps := hv.page_size
  have hpos : 0 < cfg.PAGE_SIZE := by rw [hps]; exact Nat.two_pow_pos _
  have hbig : ∀ o, cfg.NUM_PAGES * cfg.PAGE_SIZE ≤ o → cfg.NUM_PAGES ≤ o / cfg.PAGE_SIZE := by
    intro o ho
    rw [Nat.le_div_iff_mul_le hpos]
    exact ho
  have hoff : cfg.NUM_PAGES * cfg.PAGE_SIZE ≤
      (v % 2 ^ 32 + 2 ^ 32 - virtbase % 2 ^ 32) % 2 ^ 32 := by
    rcases hout with h | h
    · by_cases hb : virtbase < 2 ^ 32
      · rw [offset_below h hb]
        omega
      · have hz : cfg.NUM_PAGES * cfg.PAGE_SIZE = 0 := by omega
        rw [hz]
        exact Nat.zero_le _
    · rw [offset_above (by omega) hv32]
      omega
  have hidx := hbig _ hoff
  refine ⟨_, hidx, ?_⟩
  unfold mem_virt_to_phys
  simp only [Nat.shiftRight_eq_div_pow, ← hps] at hidx ⊢
  rw [List.getElem?_eq_none (by omega)]

/-- C11: for a page map of `NUM_PAGES` entries whose `physaddr` values are page-aligned 32-bit
addresses and pairwise distinct, and a virtual address `v` inside the locked region
`[virtbase, virtbase + NUM_PAGES * PAGE_SIZE)`, `mem_virt_to_phys(v)` returns an address and
`mem_phys_to_virt` maps that address back to `v`. -/
theorem virt_phys_virt_roundtrip (cfg : Config) (virtbase : Nat) (page_map : List page_map_t)
    (v : Nat) (hv : cfg.Valid) (hlen : page_map.length = cfg.NUM_PAGES)
    (haligned : ∀ e ∈ page_map, e.physaddr % cfg.PAGE_SIZE = 0 ∧ e.physaddr < 2 ^ 32)
    (hdistinct : ∀ (i j : Nat) (e1 e2 : page_map_t), page_map[i]? = some e1 →
      page_map[j]? = some e2 → e1.physaddr = e2.physaddr → i = j)
    (hlo : virtbase ≤ v) (hhi : v < virtbase + cfg.NUM_PAGES * cfg.PAGE_SIZE)
    (h32 : virtbase + cfg.NUM_PAGES * cfg.PAGE_SIZE ≤ 2 ^ 32) :
    ∃ p, mem_virt_to_phys cfg virtbase page_map v = .ok p ∧
      mem_phys_to_virt cfg virtbase page_map p = .ok v := by
  have hps := hv.page_size
  have hpos : 0 < cfg.PAGE_SIZE := by rw [hps]; exact Nat.two_pow_pos _
  obtain ⟨e, hget, hidx, hres⟩ := mem_virt_to_phys_inside hv hlen hlo hhi h32
  obtain ⟨hal, he32⟩ := haligned e (List.getElem?_mem hget)
  have hofflt : (v - virtbase) % cfg.PAGE_SIZE < cfg.PAGE_SIZE := Nat.mod_lt _ hpos
  -- the sum does not wrap: a page-aligned 32-bit address leaves room for one page
  have hshift : cfg.PAGE_SHIFT ≤ 32 := by
    have h1 : 1 * cfg.PAGE_SIZE ≤ cfg.NUM_PAGES * cfg.PAGE_SIZE :=
      Nat.mul_le_mul_right _ (Nat.lt_of_le_of_lt (Nat.zero_le _) hidx)
    have h2 : 2 ^ cfg.PAGE_SHIFT ≤ 2 ^ 32 := by
      rw [← hps]
      omega
    exact (Nat.pow_le_pow_iff_right (by norm_num)).mp h2
  have hroom : e.physaddr + cfg.PAGE_SIZE ≤ 2 ^ 32 := by
    obtain ⟨t, ht⟩ : cfg.PAGE_SIZE ∣ 2 ^ 32 := by
      rw [hps]
      exact pow_dvd_pow 2 hshift
    obtain ⟨k, hk⟩ := Nat.dvd_of_mod_eq_zero hal
    rw [hk, ht] at he32
    have hkt : k < t := Nat.lt_of_mul_lt_mul_left he32
    have := Nat.mul_le_mul_left cfg.PAGE_SIZE (Nat.succ_le_of_lt hkt)
    rw [Nat.mul_succ] at this
    rw [hk, ht]
    exact this
  have hsum : (e.physaddr + (v - virtbase) % cfg.PAGE_SIZE) % 2 ^ 32 =
      e.physaddr + (v - virtbase) % cfg.PAGE_SIZE := Nat.mod_eq_of_lt (by omega)
  rw [hsum] at hres
  refine ⟨_, hres, ?_⟩
  have hmod : (e.physaddr + (v - virtbase) % cfg.PAGE_SIZE) % cfg.PAGE_SIZE =
      (v - virtbase) % cfg.PAGE_SIZE := by
    rw [Nat.add_mod, hal, Nat.zero_add, Nat.mod_mod, Nat.mod_mod]
  have hmask : ∀ x, x &&& (cfg.PAGE_SIZE - 1) = x % cfg.PAGE_SIZE := by
    intro x
    rw [hps]
    exact Nat.and_pow_two_sub_one_eq_mod _ _
  have hoff : (e.physaddr + (v - virtbase) % cfg.PAGE_SIZE) &&& (cfg.PAGE_SIZE - 1) =
      (v - virtbase) % cfg.PAGE_SIZE := (hmask _).trans hmod
  obtain ⟨j0, e0, _, k2, k3, k4, _, k6⟩ :=
    findPage_found cfg virtbase page_map e.physaddr ((v - virtbase) % cfg.PAGE_SIZE)
      cfg.NUM_PAGES 0 (by omega)
      ⟨(v - virtbase) / cfg.PAGE_SIZE, e, Nat.zero_le _, by omega, hget, rfl⟩
  have hj0 : j0 = (v - virtbase) / cfg.PAGE_SIZE := hdistinct _ _ _ _ k3 hget k4
  unfold mem_phys_to_virt
  simp only [hoff, Nat.add_sub_cancel]
  rw [k6, hj0]
  congr 1
  have hdm := Nat.div_add_mod (v - virtbase) cfg.PAGE_SIZE
  rw [Nat.mul_comm] at hdm
  rw [Nat.add_assoc, hdm]
  rw [Nat.mod_eq_of_lt (by omega)]
  omega

/-- Witness of C11: an address in the second page of the two-page map. -/
theorem virt_phys_virt_roundtrip_witness :
    ∃ p, mem_virt_to_phys pagesConfig 0x10000 demoPages 0x11123 = .ok p ∧
      mem_phys_to_virt pagesConfig 0x10000 demoPages p = .ok 0x11123 :=
  virt_phys_virt_roundtrip pagesConfig 0x10000 demoPages 0x11123
    ⟨by decide, by decide, by decide⟩ rfl (by decide)
    (by
      intro i j e1 e2 h1 h2 h
      match i, j with
      | 0, 0 => rfl
      | 1, 1 => rfl
      | 0, 1 =>
        simp [demoPages] at h1 h2
        subst h1 h2
        simp at h
      | 1, 0 =>
        simp [demoPages] at h1 h2
        subst h1 h2
        simp at h
      | 0, j + 2 => simp [demoPages] at h2
      | 1, j + 2 => simp [demoPages] at h2
      | i + 2, _ => simp [demoPages] at h1)
    (by decide) (by decide) (by decide)

theorem pg_addr_eq_pageBase {cfg : Config} (hv : cfg.Valid) (p : Nat) :
    p - p % cfg.PAGE_SIZE = pageBase cfg p ∧
      p &&& (cfg.PAGE_SIZE - 1) = p % cfg.PAGE_SIZE := by
  have hps := hv.page_size
  have hmask : p &&& (cfg.PAGE_SIZE - 1) = p % 2 ^ cfg.PAGE_SHIFT := by
    rw [hps]
    exact Nat.and_pow_two_sub_one_eq_mod _ _
  rw [pageBase_eq, hmask, hps]
  exact ⟨rfl, rfl⟩

/-- C12, as the claim states it, fails: for the address just behind a locked region of two
pages `mem_virt_to_phys` does not take a failure path; it reads `page_map[2]`, outside the two
entries of the page map. -/
theorem virt_lookup_outside_unchecked :
    demoPages.length = pagesConfig.NUM_PAGES ∧
      0x10000 + pagesConfig.NUM_PAGES * pagesConfig.PAGE_SIZE ≤ 0x12000 ∧
      mem_virt_to_phys pagesConfig 0x10000 demoPages 0x12000 = .error (.pageMapIndex 2) ∧
      mem_virt_to_phys pagesConfig 0x10000 demoPages 0x12000 ≠ .error .fatal := by
  decide

/-- C12, amended: `mem_phys_to_virt(p)` returns an address if and only if some page-map entry's
`physaddr` equals the page base of `p`; the first such entry is then used, and otherwise the
call takes the `fatal()` path. `mem_virt_to_phys(v)` has no failure path: inside
`[virtbase, virtbase + NUM_PAGES * PAGE_SIZE)` it returns an address, and for a 32-bit `v`
outside it indexes `page_map` at or beyond `NUM_PAGES`, outside the array, without a check. -/
theorem lookup_outcomes (cfg : Config) (virtbase : Nat) (page_map : List page_map_t)
    (hv : cfg.Valid) (hlen : page_map.length = cfg.NUM_PAGES)
    (h32 : virtbase + cfg.NUM_PAGES * cfg.PAGE_SIZE ≤ 2 ^ 32) :
    (∀ p, (∃ v, mem_phys_to_virt cfg virtbase page_map p = .ok v) ↔
      ∃ e ∈ page_map, e.physaddr = pageBase cfg p) ∧
    (∀ p, (∃ e ∈ page_map, e.physaddr = pageBase cfg p) →
      ∃ j e, page_map[j]? = some e ∧ e.physaddr = pageBase cfg p ∧
        (∀ i e1, i < j → page_map[i]? = some e1 → e1.physaddr ≠ pageBase cfg p) ∧
        mem_phys_to_virt cfg virtbase page_map p =
          .ok ((virtbase + j * cfg.PAGE_SIZE + p % cfg.PAGE_SIZE) % 2 ^ 32)) ∧
    (∀ p, (¬ ∃ e ∈ page_map, e.physaddr = pageBase cfg p) →
      mem_phys_to_virt cfg virtbase page_map p = .error .fatal) ∧
    (∀ v, virtbase ≤ v → v < virtbase + cfg.NUM_PAGES * cfg.PAGE_SIZE →
      ∃ p, mem_virt_to_phys cfg virtbase page_map v = .ok p) ∧
    (∀ v, v < 2 ^ 32 → (v < virtbase ∨ virtbase + cfg.NUM_PAGES * cfg.PAGE_SIZE ≤ v) →
      ∃ i, cfg.NUM_PAGES ≤ i ∧
        mem_virt_to_phys cfg virtbase page_map v = .error (.pageMapIndex i)) := by
  have hfound : ∀ p, (∃ e ∈ page_map, e.physaddr = pageBase cfg p) →
      ∃ j e, page_map[j]? = some e ∧ e.physaddr = pageBase cfg p ∧
        (∀ i e1, i < j → page_map[i]? = some e1 → e1.physaddr ≠ pageBase cfg p) ∧
        mem_phys_to_virt cfg virtbase page_map p =
          .ok ((virtbase + j * cfg.PAGE_SIZE + p % cfg.PAGE_SIZE) % 2 ^ 32) := by
    intro p hex
    obtain ⟨e, he, hbase⟩ := hex
    obtain ⟨j, hj⟩ := List.getElem?_of_mem he
    have hjlt : j < page_map.length := by
      by_contra hc
      rw [List.getElem?_eq_none (by omega)] at hj
      cases hj
    obtain ⟨j0, e0, _, _, k3, k4, k5, k6⟩ :=
      findPage_found cfg virtbase page_map (pageBase cfg p) (p % cfg.PAGE_SIZE)
        cfg.NUM_PAGES 0 (by omega) ⟨j, e, Nat.zero_le _, by omega, hj, hbase⟩
    refine ⟨j0, e0, k3, k4, fun i e1 hi h1 => k5 i e1 (Nat.zero_le _) hi h1, ?_⟩
    unfold mem_phys_to_virt
    simp only [(pg_addr_eq_pageBase hv p).2, (pg_addr_eq_pageBase hv p).1]
    exact k6
  have hnone : ∀ p, (¬ ∃ e ∈ page_map, e.physaddr = pageBase cfg p) →
      mem_phys_to_virt cfg virtbase page_map p = .error .fatal := by
    intro p hno
    unfold mem_phys_to_virt
    simp only [(pg_addr_eq_pageBase hv p).2, (pg_addr_eq_pageBase hv p).1]
    apply findPage_none cfg virtbase page_map _ _ cfg.NUM_PAGES 0 (by omega)
    intro j e _ _ hj hbase
    exact hno ⟨e, List.getElem?_mem hj, hbase⟩
  refine ⟨?_, hfound, hnone, ?_, ?_⟩
  · intro p
    constructor
    · intro hok
      by_contra hno
      obtain ⟨v, hvok⟩ := hok
      rw [hnone p hno] at hvok
      cases hvok
    · intro hex
      obtain ⟨j, e, _, _, _, hres⟩ := hfound p hex
      exact ⟨_, hres⟩
  · intro v hlo hhi
    obtain ⟨e, _, _, hres⟩ := mem_virt_to_phys_inside hv hlen hlo hhi h32
    exact ⟨_, hres⟩
  · intro v hv32 hout
    exact mem_virt_to_phys_outside hv hlen hv32 h32 hout

/-- Witness of C12 amended: the two-page map, with an address whose frame is mapped. -/
theorem lookup_outcomes_witness :
    ∃ v, mem_phys_to_virt pagesConfig 0x10000 demoPages 0x40003123 = .ok v :=
  ((lookup_outcomes pagesConfig 0x10000 demoPages ⟨by decide, by decide, by decide⟩ rfl
    (by decide)).1 0x40003123).mpr
    ⟨{ virtaddr := 0x11000, physaddr := 0x40003000 }, by decide, by decide⟩

/-! ### The page-table query -/

/-- The test of `initHardware()` is non-zero exactly when bit 55 of the entry is set. -/
theorem presentTest_ne_zero (pfn : Nat) : presentTest pfn ≠ 0 ↔ pfn.testBit 55 = true := by
  unfold presentTest
  rw [if_pos (by decide), Nat.and_one_is_mod, Nat.testBit_to_div_mod,
    Nat.shiftRight_eq_div_pow]
  simp only [decide_eq_true_eq]
  omega

/-- The page loop takes the `fatal()` path exactly for the entries with bit 55 set, whatever
their present bit. -/
theorem recordPage_fatal_iff (cfg : Config) (pfn : Nat) :
    recordPage cfg pfn = .error .fatal ↔ pfn.testBit 55 = true := by
  unfold recordPage
  constructor
  · intro h
    by_contra hc
    rw [if_neg (fun ht => hc ((presentTest_ne_zero pfn).mp ht))] at h
    cases h
  · intro h
    rw [if_pos ((presentTest_ne_zero pfn).mpr h)]

/-- C13, the code at the failing input: the entry `0` reports the page as not present, and the
page loop of `initHardware()` does not take the `fatal()` path for it but records the physical
address `0x40000000`; an entry that reports the page present and has bit 55 set takes the
`fatal()` path. -/
theorem pagemap_test_misses_present_bit :
    entryPresent 0 = false ∧ recordPage demoConfig 0 = .ok 0x40000000 ∧
      entryPresent (2 ^ 63 + 2 ^ 55 + 5) = true ∧
      recordPage demoConfig (2 ^ 63 + 2 ^ 55 + 5) = .error .fatal := by
  decide

/-! ### The pixel API -/

/-- At or beyond the end of `LEDBuffer` the three pixel functions access the array outside its
bounds; none of them returns a failure indicator. -/
theorem pixel_access_unchecked (s : State) (pixel r g b : Nat) (c : Color_t)
    (h : s.LEDBuffer.length ≤ pixel) :
    setPixelColor pixel r g b s = .error (.ledBufferIndex pixel) ∧
      setPixelColorT pixel c s = .error (.ledBufferIndex pixel) ∧
      getPixelColor pixel s = .error (.ledBufferIndex pixel) := by
  have h1 : ¬ pixel < 0 := Nat.not_lt_zero _
  have h2 : ¬ pixel < s.LEDBuffer.length := by omega
  refine ⟨?_, ?_, ?_⟩
  · simp only [setPixelColor, h1, h2, if_false]
  · simp only [setPixelColorT, h1, h2, if_false]
  · simp only [getPixelColor, h1, if_false, List.getElem?_eq_none h]

/-- C14, the code at the failing input: with a pixel buffer of one pixel, `setPixelColor(1, ...)`
and `setPixelColorT(1, ...)` do not return false with the state unchanged; they store to
`LEDBuffer[1]`, outside the array, and `getPixelColor(1)` reads outside it. -/
theorem pixel_index_not_validated :
    demoBlack.LEDBuffer.length = demoConfig.NUM_PIXELS ∧
      setPixelColor 1 1 2 3 demoBlack = .error (.ledBufferIndex 1) ∧
      setPixelColor 1 1 2 3 demoBlack ≠ .ok (false, demoBlack) ∧
      setPixelColorT 1 (Color 1 2 3) demoBlack = .error (.ledBufferIndex 1) ∧
      getPixelColor 1 demoBlack = .error (.ledBufferIndex 1) := by
  decide

theorem setPixelColor_inside {s : State} {pixel : Nat} (r g b : Nat)
    (h : pixel < s.LEDBuffer.length) :
    setPixelColor pixel r g b s =
      .ok (true, { s with LEDBuffer := s.LEDBuffer.set pixel (RGB2Color r g b) }) := by
  simp only [setPixelColor, Nat.not_lt_zero, h, if_false, if_true]

theorem setPixelColorT_inside {s : State} {pixel : Nat} (c : Color_t)
    (h : pixel < s.LEDBuffer.length) :
    setPixelColorT pixel c s = .ok (true, { s with LEDBuffer := s.LEDBuffer.set pixel c }) := by
  simp only [setPixelColorT, Nat.not_lt_zero, h, if_false, if_true]

theorem getPixelColor_set {s : State} {pixel : Nat} (c : Color_t)
    (h : pixel < s.LEDBuffer.length) :
    getPixelColor pixel { s with LEDBuffer := s.LEDBuffer.set pixel c } = .ok c ∧
      ∀ j, j ≠ pixel →
        getPixelColor j { s with LEDBuffer := s.LEDBuffer.set pixel c } = getPixelColor j s := by
  constructor
  · simp [getPixelColor, List.getElem?_set, h]
  · intro j hj
    simp only [getPixelColor, getElem?_set_color hj]

/-- C20: for a pixel index `i < NUM_PIXELS`, `setPixelColor(i, r, g, b)` returns true, after it
`getPixelColor(i)` returns the colour `(r, g, b)` and `getPixelColor(j)` is as before for every
other `j`; the same holds for `setPixelColorT(i, c)` with the colour `c`. -/
theorem setPixelColor_then_get (cfg : Config) (s : State) (i r g b : Nat) (c : Color_t)
    (hlen : s.LEDBuffer.length = cfg.NUM_PIXELS) (hi : i < cfg.NUM_PIXELS) :
    (∃ s1, setPixelColor i r g b s = .ok (true, s1) ∧
      getPixelColor i s1 = .ok (Color r g b) ∧
      ∀ j, j ≠ i → getPixelColor j s1 = getPixelColor j s) ∧
    (∃ s1, setPixelColorT i c s = .ok (true, s1) ∧
      getPixelColor i s1 = .ok c ∧
      ∀ j, j ≠ i → getPixelColor j s1 = getPixelColor j s) := by
  have h : i < s.LEDBuffer.length := by omega
  exact ⟨⟨_, setPixelColor_inside r g b h, (getPixelColor_set _ h).1, (getPixelColor_set _ h).2⟩,
    ⟨_, setPixelColorT_inside c h, (getPixelColor_set _ h).1, (getPixelColor_set _ h).2⟩⟩

/-- Witness of C20: setting the one pixel of the one-pixel state. -/
theorem setPixelColor_then_get_witness :
    ∃ s1, setPixelColor 0 10 20 30 demoBlack = .ok (true, s1) ∧
      getPixelColor 0 s1 = .ok (Color 10 20 30) :=
  (setPixelColor_then_get demoConfig demoBlack 0 10 20 30 (Color 1 2 3) rfl (by decide)).1.imp
    fun _ h => ⟨h.1, h.2.1⟩

/-! ### Shutdown -/

/-- The zeroing loop of `terminate()` within the pixel buffer: the pixels `i` to `i + n - 1`
become black and nothing else changes. -/
theorem zeroPixels_spec : ∀ (n i : Nat) (s : State), i + n ≤ s.LEDBuffer.length →
    ∃ leds, zeroPixels n i s = .ok { s with LEDBuffer := leds } ∧
      leds.length = s.LEDBuffer.length ∧
      (∀ j, i ≤ j → j < i + n → leds[j]? = some (Color 0 0 0)) ∧
      (∀ j, j < i ∨ i + n ≤ j → leds[j]? = s.LEDBuffer[j]?) := by
  intro n
  induction n with
  | zero =>
    intro i s _
    exact ⟨s.LEDBuffer, rfl, rfl, by intro j h1 h2; omega, by intro j _; rfl⟩
  | succ n ih =>
    intro i s hi
    have hil : i < s.LEDBuffer.length := by omega
    obtain ⟨leds, e, l, hz, hf⟩ :=
      ih (i + 1) { s with LEDBuffer := s.LEDBuffer.set i (RGB2Color 0 0 0) }
        (by simp only [List.length_set]; omega)
    refine ⟨leds, ?_, by simpa using l, ?_, ?_⟩
    · simp only [zeroPixels, setPixelColor_inside 0 0 0 hil]
      exact e
    · intro j h1 h2
      by_cases hj : j = i
      · subst hj
        rw [hf j (by omega)]
        simp [List.getElem?_set, hil, Color]
      · exact hz j (by omega) (by omega)
    · intro j hj
      rw [hf j (by omega)]
      exact getElem?_set_color (by omega)

/-- C15: within capacity and for a brightness in `[0, 1]`, the zeroing loop of `terminate()` and
the `show()` that follows return, and the frame they leave for `startTransfer()` is dark: every
pixel below `numLEDs` is `(0, 0, 0)` and each of the first `24 * numLEDs` data bits is encoded as
`(1, 0, 0)`. -/
theorem terminate_frame_dark (cfg : Config) (s : State) (q : ℚ) (hv : cfg.Valid)
    (hwf : s.WF cfg) (hq : s.brightness.toRat = some q) (h0 : 0 ≤ q) (h1 : q ≤ 1)
    (hN : s.numLEDs ≤ cfg.NUM_PIXELS) (hcap : 72 * s.numLEDs ≤ 32 * cfg.NUM_DATA_WORDS) :
    ∃ s1 s2, zeroPixels (numPixels s) 0 s = .ok s1 ∧ showLeds s1 = .ok s2 ∧
      (∀ i, i < s.numLEDs → s2.LEDBuffer[i]? = some (Color 0 0 0)) ∧
      (∀ m, m < 24 * s.numLEDs →
        wireBitAt s2.PWMWaveform (3 * m) = true ∧
        wireBitAt s2.PWMWaveform (3 * m + 1) = false ∧
        wireBitAt s2.PWMWaveform (3 * m + 2) = false) ∧
      (∀ (hw : HwConfig) (p : Process), p.st = s →
        terminate cfg hw p =
          match startTransfer cfg hw { p with st := s2 } with
          | .error f => .error f
          | .ok p2 => freePageMap (shutdownPWM hw (shutdownDMA hw p2))) := by
  obtain ⟨leds, e1, l1, hz, hf⟩ := zeroPixels_spec s.numLEDs 0 s
    (by rw [hwf.leds_length]; omega)
  have hwf1 : State.WF cfg { s with LEDBuffer := leds } := by
    refine ⟨by rw [← hwf.leds_length]; exact l1, hwf.wave_length, hwf.sample_length, ?_,
      hwf.words, hwf.cb_length⟩
    intro j c hj
    by_cases hjn : j < s.numLEDs
    · rw [hz j (Nat.zero_le _) (by omega)] at hj
      injection hj with hj
      subst hj
      decide
    · rw [hf j (Or.inr (by omega))] at hj
      exact hwf.channels j c hj
  obtain ⟨s2, e2, _, _, _, _, hp, _, _⟩ :=
    @showLeds_spec cfg { s with LEDBuffer := leds } q hv hwf1 hq h0 h1 hN hcap
  have hblack : ∀ i, i < s.numLEDs → s2.LEDBuffer[i]? = some (Color 0 0 0) ∧
      ∀ k, k < 24 → wireBitAt s2.PWMWaveform (72 * i + 3 * k) = true ∧
        wireBitAt s2.PWMWaveform (72 * i + 3 * k + 1) = false ∧
        wireBitAt s2.PWMWaveform (72 * i + 3 * k + 2) = false := by
    intro i hi
    obtain ⟨c, px, g1, g2, _, _, _, g6, g7, g8, g9⟩ := hp i hi
    have hc : c = Color 0 0 0 := by
      have h := hz i (Nat.zero_le _) (by omega)
      have g1' : leds[i]? = some c := g1
      rw [h] at g1'
      injection g1' with g1'
      exact g1'.symm
    subst hc
    have hpx : px = Color 0 0 0 := by
      have hr : px.r = 0 := Nat.le_zero.mp g6
      have hg : px.g = 0 := Nat.le_zero.mp g7
      have hb : px.b = 0 := Nat.le_zero.mp g8
      cases px
      simp only at hr hg hb
      rw [hr, hg, hb]
      rfl
    subst hpx
    refine ⟨g2, ?_⟩
    intro k hk
    obtain ⟨a1, a2, a3⟩ := g9 k hk
    have hzero : colorBitsOf (Color 0 0 0) = 0 := by decide
    rw [hzero, Nat.zero_testBit] at a2
    exact ⟨a1, a2, a3⟩
  refine ⟨_, s2, e1, e2, fun i hi => (hblack i hi).1, ?_, ?_⟩
  · intro m hm
    obtain ⟨a1, a2, a3⟩ := (hblack (m / 24) (by omega)).2 (m % 24) (Nat.mod_lt _ (by norm_num))
    have e : 72 * (m / 24) + 3 * (m % 24) = 3 * m := by omega
    rw [e] at a1 a2 a3
    exact ⟨a1, a2, a3⟩
  · intro hw p hp
    subst hp
    simp only [terminate, numPixels, e1, showAll, e2]

/-- Witness of C15: the one white pixel goes dark. -/
theorem terminate_frame_dark_witness :
    ∃ s1 s2, zeroPixels (numPixels demoWhite) 0 demoWhite = .ok s1 ∧ showLeds s1 = .ok s2 ∧
      s2.LEDBuffer[0]? = some (Color 0 0 0) := by
  obtain ⟨s1, s2, e1, e2, h, _⟩ := terminate_frame_dark demoConfig demoWhite 1
    demoConfig_valid demoWhite_wf brightnessOne_toRat (by norm_num) (le_refl _) (by decide)
    (by decide)
  exact ⟨s1, s2, e1, e2, h 0 (by decide)⟩

/-- What the copy loop leaves in the sample area: the words it passed are those of the
waveform, the words before them are untouched. -/
theorem copyWords_copied (wave : List Nat) : ∀ (n i : Nat) (sample r : List Nat),
    copyWords wave n i sample = .ok r →
    (∀ j, i ≤ j → j < i + n → r.getD j 0 = wave.getD j 0) ∧
      (∀ j, j < i → r.getD j 0 = sample.getD j 0) := by
  intro n
  induction n with
  | zero =>
    intro i sample r h
    simp only [copyWords] at h
    injection h with h
    subst h
    exact ⟨by intro j h1 h2; omega, by intro j _; rfl⟩
  | succ n ih =>
    intro i sample r h
    simp only [copyWords] at h
    cases hw : wave[i]? with
    | none =>
      rw [hw] at h
      cases h
    | some w =>
      rw [hw] at h
      simp only [] at h
      by_cases hi : i < sample.length
      · rw [if_pos hi] at h
        obtain ⟨h1, h2⟩ := ih (i + 1) (sample.set i w) r h
        constructor
        · intro j hj1 hj2
          by_cases hji : j = i
          · subst hji
            rw [h2 j (by omega), getD_set_self _ hi, List.getD_eq_getElem?_getD, hw]
            rfl
          · exact h1 j (by omega) (by omega)
        · intro j hj
          rw [h2 j (by omega), getD_set_other _ (by omega)]
      · rw [if_neg hi] at h
        cases h

/-- After `show()` the first `cbp->length / 4` words of the sample area are those of the
waveform. -/
theorem showLeds_sample {s s1 : State} (h : showLeds s = .ok s1) :
    ∀ j, j < s.cbLength / 4 → s1.sample.getD j 0 = s1.PWMWaveform.getD j 0 := by
  unfold showLeds at h
  cases he : encodePixels s.brightness s.numLEDs 0 s.LEDBuffer s.PWMWaveform 0 with
  | error f =>
    rw [he] at h
    cases h
  | ok res =>
    obtain ⟨leds, wave, wb⟩ := res
    rw [he] at h
    simp only [] at h
    cases hc : copyWords wave (s.cbLength / 4) 0 s.sample with
    | error f =>
      rw [hc] at h
      cases h
    | ok sample =>
      rw [hc] at h
      simp only [] at h
      injection h with h
      subst h
      intro j hj
      exact (copyWords_copied wave _ 0 s.sample sample hc).1 j (Nat.zero_le _) (by omega)

/-- C19: for every LED count `N` whose control block length is not clamped, the number of whole
words that `show()` copies, `cbp->length / 4`, is at least `ceil(72 * N / 32)`: every one of the
`72 * N` encoded bits lies in a copied word, and after `show()` the sample area holds each of
them as the waveform does. -/
theorem copy_covers_encoded_bits (cfg : Config) (numLEDs : Nat)
    (h32 : 9 * numLEDs + 4 < 2 ^ 32) (hfit : 9 * numLEDs + 4 ≤ cfg.NUM_DATA_WORDS * 4) :
    ∃ len, initLength cfg numLEDs = .ok len ∧ (72 * numLEDs + 31) / 32 ≤ len / 4 ∧
      (∀ p, p < 72 * numLEDs → p / 32 < len / 4) ∧
      (∀ (s : State) (q : ℚ), cfg.Valid → s.WF cfg → s.numLEDs = numLEDs → s.cbLength = len →
        s.brightness.toRat = some q → 0 ≤ q → q ≤ 1 → numLEDs ≤ cfg.NUM_PIXELS →
        ∃ s1, showLeds s = .ok s1 ∧
          ∀ p, p < 72 * numLEDs → wireBitAt s1.sample p = wireBitAt s1.PWMWaveform p) := by
  refine ⟨9 * numLEDs + 4, ?_, by omega, by intro p hp; omega, ?_⟩
  · rw [initLength_eq cfg h32, Nat.min_eq_left hfit]
  · intro s q hv hwf hn hcb hq h0 h1 hN
    obtain ⟨s1, e, _⟩ := showLeds_spec hv hwf hq h0 h1 (by rw [hn]; exact hN)
      (by rw [hn]; omega)
    refine ⟨s1, e, ?_⟩
    intro p hp
    unfold wireBitAt
    rw [showLeds_sample e (p / 32) (by rw [hcb]; omega)]

/-- Witness of C19: one LED with room for four words. -/
theorem copy_covers_encoded_bits_witness :
    ∃ len, initLength roomyConfig 1 = .ok len ∧ (72 * 1 + 31) / 32 ≤ len / 4 :=
  (copy_covers_encoded_bits roomyConfig 1 (by norm_num) (by decide)).imp
    fun _ h => ⟨h.1, h.2.1⟩

/-! ### Register writes -/

theorem SETBIT_testBit (word bit : Nat) (h : bit < 32) : (SETBIT word bit).testBit bit = true := by
  unfold SETBIT
  rw [setBit_testBit _ _ _ h, if_pos rfl]

theorem writeReg_writes (p : Process) (r : Reg) (v : Nat) :
    (writeReg p r v).writes = p.writes ++ [(r, v)] ∧ (writeReg p r v).st = p.st ∧
      (writeReg p r v).page_map_own = p.page_map_own ∧
      (writeReg p r v).dma_reg = p.dma_reg ∧ (writeReg p r v).pwm_reg = p.pwm_reg := by
  cases r <;> exact ⟨rfl, rfl, rfl, rfl, rfl⟩

/-- C17: with the register blocks mapped and the control block inside the mapped region,
`startTransfer()` performs exactly three register writes, in this order: the physical address of
the control block to `DMA_CONBLK_AD`, a value with the ACTIVE bit set to `DMA_CS`, and only then
a value with PWEN1 set to `PWM_CTL`. -/
theorem startTransfer_order (cfg : Config) (hw : HwConfig) (p : Process) (phys : Nat)
    (hhw : hw.Valid) (hown : p.page_map_own = .owned) (hdma : p.dma_reg = true)
    (hpwm : p.pwm_reg = true)
    (hphys : mem_virt_to_phys cfg p.virtbase p.page_map (p.virtbase + hw.cb_offset) = .ok phys) :
    ∃ p1 v w, startTransfer cfg hw p = .ok p1 ∧
      p1.writes = p.writes ++ [(Reg.DMA_CONBLK_AD, phys), (Reg.DMA_CS, v), (Reg.PWM_CTL, w)] ∧
      v.testBit hw.DMA_CS_ACTIVE = true ∧ w.testBit hw.PWM_CTL_PWEN1 = true ∧
      p1.DMA_CONBLK_AD = phys ∧ p1.DMA_CS = v ∧ p1.PWM_CTL = w ∧ p1.st = p.st := by
  refine ⟨writeReg (writeReg (writeReg p .DMA_CONBLK_AD phys) .DMA_CS
      ((hw.DMA_CS_CONFIGWORD ||| (1 <<< hw.DMA_CS_ACTIVE)) % 2 ^ 32)) .PWM_CTL
      (SETBIT p.PWM_CTL hw.PWM_CTL_PWEN1),
    (hw.DMA_CS_CONFIGWORD ||| (1 <<< hw.DMA_CS_ACTIVE)) % 2 ^ 32,
    SETBIT p.PWM_CTL hw.PWM_CTL_PWEN1, ?_, ?_, ?_, SETBIT_testBit _ _ hhw.pwen1, ?_, ?_, ?_, ?_⟩
  · simp only [startTransfer, hown, hphys, hdma, hpwm]
    rfl
  · simp [writeReg]
  · exact SETBIT_testBit _ _ hhw.active
  · rfl
  · rfl
  · rfl
  · rfl

/-- Witness of C17: the running demo process. -/
theorem startTransfer_order_witness :
    ∃ p1 v w, startTransfer demoConfig demoHw demoProcess = .ok p1 ∧
      p1.writes = [(Reg.DMA_CONBLK_AD, 0x40005000), (Reg.DMA_CS, v), (Reg.PWM_CTL, w)] :=
  (startTransfer_order demoConfig demoHw demoProcess 0x40005000
    ⟨by decide, by decide, by decide, by decide, by decide⟩ rfl rfl rfl (by decide)).imp
    fun _ h => h.imp fun _ h => h.imp fun _ h => ⟨h.1, h.2.1⟩

/-! ### Repeated shutdown -/

theorem startTransfer_ownership {cfg : Config} {hw : HwConfig} {p p1 : Process}
    (h : startTransfer cfg hw p = .ok p1) :
    p.page_map_own = .owned ∧ p1.page_map_own = .owned := by
  unfold startTransfer at h
  cases ho : p.page_map_own with
  | unallocated =>
    rw [ho] at h
    cases h
  | released =>
    rw [ho] at h
    cases h
  | owned =>
    rw [ho] at h
    simp only [] at h
    cases hm : mem_virt_to_phys cfg p.virtbase p.page_map (p.virtbase + hw.cb_offset) with
    | error f =>
      rw [hm] at h
      cases h
    | ok phys =>
      rw [hm] at h
      simp only [] at h
      split_ifs at h
      injection h with h
      subst h
      exact ⟨rfl, by simp only [writeReg_writes, ho]⟩

theorem shutdown_ownership (hw : HwConfig) (p : Process) :
    (shutdownPWM hw (shutdownDMA hw p)).page_map_own = p.page_map_own := by
  unfold shutdownPWM shutdownDMA
  split_ifs <;> simp only [writeReg_writes]

/-- A run of `terminate()` that reaches its `exit(1)` started with `page_map` allocated and
leaves it freed, the pointer still set. -/
theorem terminate_ownership {cfg : Config} {hw : HwConfig} {p p1 : Process}
    (h : terminate cfg hw p = .ok p1) :
    p.page_map_own = .owned ∧ p1.page_map_own = .released := by
  unfold terminate at h
  cases hz : zeroPixels (numPixels p.st) 0 p.st with
  | error f =>
    rw [hz] at h
    cases h
  | ok st1 =>
    rw [hz] at h
    simp only [] at h
    cases hs : showAll cfg hw { p with st := st1 } with
    | error f =>
      rw [hs] at h
      cases h
    | ok p2 =>
      rw [hs] at h
      simp only [] at h
      unfold showAll at hs
      cases hl : showLeds st1 with
      | error f =>
        simp only [hl] at hs
        cases hs
      | ok st2 =>
        simp only [hl] at hs
        obtain ⟨o1, o2⟩ := startTransfer_ownership hs
        have o3 : (shutdownPWM hw (shutdownDMA hw p2)).page_map_own = .owned := by
          rw [shutdown_ownership, o2]
        unfold freePageMap at h
        rw [o3] at h
        simp only [] at h
        injection h with h
        subst h
        exact ⟨o1, rfl⟩

/-- On the state that a completed `terminate()` leaves, a second `terminate()` never reaches
its end. -/
theorem terminate_not_repeatable {cfg : Config} {hw : HwConfig} {p p1 : Process}
    (h : terminate cfg hw p = .ok p1) : ∀ p2, terminate cfg hw p1 ≠ .ok p2 := by
  intro p2 h2
  have h1 := (terminate_ownership h).2
  have h3 := (terminate_ownership h2).1
  rw [h1] at h3
  cases h3

/-- C16, the claim as stated fails: the first run of the `terminate()` sequence on the running
process frees `page_map` and keeps the pointer. A second run on the state it leaves does fail: it
reads the freed page map in `startTransfer()`, and its own `free(page_map)` would release the
array a second time. Were the page map still allocated, the second run would leave the buffers
and the three register values as the first run left them. -/
theorem terminate_twice_fails :
    ∃ p1, terminate demoConfig demoHw demoProcess = .ok p1 ∧
      p1.page_map_own = .released ∧
      terminate demoConfig demoHw p1 = .error .useAfterFree ∧
      freePageMap p1 = .error .doubleFree ∧
      ∃ p2, terminate demoConfig demoHw { p1 with page_map_own := .owned } = .ok p2 ∧
        p2.st = p1.st ∧ p2.DMA_CS = p1.DMA_CS ∧ p2.PWM_CTL = p1.PWM_CTL ∧
        p2.DMA_CONBLK_AD = p1.DMA_CONBLK_AD := by
  exact ⟨_, rfl, rfl, rfl, rfl, _, rfl, rfl, rfl, rfl, rfl⟩

/-! ### The shutdown sequence runs once -/

/-- The copy loop leaves the words behind the copied range untouched. -/
theorem copyWords_after (wave : List Nat) : ∀ (n i : Nat) (sample r : List Nat),
    copyWords wave n i sample = .ok r → ∀ j, i + n ≤ j → r.getD j 0 = sample.getD j 0 := by
  intro n
  induction n with
  | zero =>
    intro i sample r h j _
    simp only [copyWords] at h
    injection h with h
    subst h
    rfl
  | succ n ih =>
    intro i sample r h j hj
    simp only [copyWords] at h
    cases hw : wave[i]? with
    | none =>
      rw [hw] at h
      cases h
    | some w =>
      rw [hw] at h
      simp only [] at h
      by_cases hi : i < sample.length
      · rw [if_pos hi] at h
        rw [ih (i + 1) (sample.set i w) r h j (by omega), getD_set_other _ (by omega)]
      · rw [if_neg hi] at h
        cases h

/-- After `show()` the sample area behind the first `cbp->length / 4` words is as before. -/
theorem showLeds_sample_rest {s s1 : State} (h : showLeds s = .ok s1) :
    ∀ j, s.cbLength / 4 ≤ j → s1.sample.getD j 0 = s.sample.getD j 0 := by
  unfold showLeds at h
  cases he : encodePixels s.brightness s.numLEDs 0 s.LEDBuffer s.PWMWaveform 0 with
  | error f =>
    rw [he] at h
    cases h
  | ok res =>
    obtain ⟨leds, wave, wb⟩ := res
    rw [he] at h
    simp only [] at h
    cases hc : copyWords wave (s.cbLength / 4) 0 s.sample with
    | error f =>
      rw [hc] at h
      cases h
    | ok sample =>
      rw [hc] at h
      simp only [] at h
      injection h with h
      subst h
      intro j hj
      exact copyWords_after wave _ 0 s.sample sample hc j (by omega)

theorem list_eq_of_getD {l1 l2 : List Nat} (hl : l1.length = l2.length)
    (h : ∀ j, l1.getD j 0 = l2.getD j 0) : l1 = l2 :=
  List.ext_getElem? (fun j => getElem?_eq_of_getD hl (h j))

/-- Two waveforms of 32-bit words with the same output bits are the same. -/
theorem wave_eq_of_bits {w1 w2 : List Nat} (hl : w1.length = w2.length) (h1 : WordsOk w1)
    (h2 : WordsOk w2) (h : ∀ p, wireBitAt w1 p = wireBitAt w2 p) : w1 = w2 := by
  apply list_eq_of_getD hl
  intro j
  apply word_eq_of_bits (h1 j) (h2 j)
  intro m hm
  rw [h]
  unfold wireBitAt
  have e1 : (32 * j + m) / 32 = j := by omega
  have e2 : (32 * j + m) % 32 = m := by omega
  rw [e1, e2]

/-- The dark frame: within capacity, the zeroing loop of `terminate()` and the `show()` after it
return a well-formed state whose pixels below `numLEDs` are black and encoded as such, and whose
sample area holds the copied words of the waveform. -/
theorem zero_then_show {cfg : Config} {s : State} {q : ℚ} (hv : cfg.Valid)
    (hwf : s.WF cfg) (hq : s.brightness.toRat = some q) (h0 : 0 ≤ q) (h1 : q ≤ 1)
    (hN : s.numLEDs ≤ cfg.NUM_PIXELS) (hcap : 72 * s.numLEDs ≤ 32 * cfg.NUM_DATA_WORDS) :
    ∃ s1 s2, zeroPixels (numPixels s) 0 s = .ok s1 ∧ showLeds s1 = .ok s2 ∧ s2.WF cfg ∧
      s2.numLEDs = s.numLEDs ∧ s2.brightness = s.brightness ∧ s2.cbLength = s.cbLength ∧
      (∀ i, i < s.numLEDs → s2.LEDBuffer[i]? = some (Color 0 0 0) ∧
        ∀ k, k < 24 → wireBitAt s2.PWMWaveform (72 * i + 3 * k) = true ∧
          wireBitAt s2.PWMWaveform (72 * i + 3 * k + 1) = false ∧
          wireBitAt s2.PWMWaveform (72 * i + 3 * k + 2) = false) ∧
      (∀ j, j < s.cbLength / 4 → s2.sample.getD j 0 = s2.PWMWaveform.getD j 0) := by
  obtain ⟨leds, e1, l1, hz, hf⟩ := zeroPixels_spec s.numLEDs 0 s
    (by rw [hwf.leds_length]; omega)
  have hwf1 : State.WF cfg { s with LEDBuffer := leds } := by
    refine ⟨by rw [← hwf.leds_length]; exact l1, hwf.wave_length, hwf.sample_length, ?_,
      hwf.words, hwf.cb_length⟩
    intro j c hj
    by_cases hjn : j < s.numLEDs
    · rw [hz j (Nat.zero_le _) (by omega)] at hj
      injection hj with hj
      subst hj
      decide
    · rw [hf j (Or.inr (by omega))] at hj
      exact hwf.channels j c hj
  obtain ⟨s2, e2, wf2, hn2, hb2, hc2, hp, _, _⟩ :=
    @showLeds_spec cfg { s with LEDBuffer := leds } q hv hwf1 hq h0 h1 hN hcap
  refine ⟨_, s2, e1, e2, wf2, hn2, hb2, hc2, ?_, ?_⟩
  · intro i hi
    obtain ⟨c, px, g1, g2, _, _, _, g6, g7, g8, g9⟩ := hp i hi
    have hc : c = Color 0 0 0 := by
      have h := hz i (Nat.zero_le _) (by omega)
      have g1' : leds[i]? = some c := g1
      rw [h] at g1'
      injection g1' with g1'
      exact g1'.symm
    subst hc
    have hpx : px = Color 0 0 0 := by
      have hr : px.r = 0 := Nat.le_zero.mp g6
      have hg : px.g = 0 := Nat.le_zero.mp g7
      have hb : px.b = 0 := Nat.le_zero.mp g8
      cases px
      simp only at hr hg hb
      rw [hr, hg, hb]
      rfl
    subst hpx
    refine ⟨g2, ?_⟩
    intro k hk
    obtain ⟨a1, a2, a3⟩ := g9 k hk
    have hzero : colorBitsOf (Color 0 0 0) = 0 := by decide
    rw [hzero, Nat.zero_testBit] at a2
    exact ⟨a1, a2, a3⟩
  · intro j hj
    exact showLeds_sample e2 j hj

/-- The dark frame is a fixed point of the zeroing loop and of `show()`: on a state whose pixels
below `numLEDs` are black and encoded as such, and whose sample area holds the copied words, both
return the same state. -/
theorem dark_fixed {cfg : Config} {s : State} {q : ℚ} (hv : cfg.Valid)
    (hwf : s.WF cfg) (hq : s.brightness.toRat = some q) (h0 : 0 ≤ q) (h1 : q ≤ 1)
    (hN : s.numLEDs ≤ cfg.NUM_PIXELS) (hcap : 72 * s.numLEDs ≤ 32 * cfg.NUM_DATA_WORDS)
    (hdark : ∀ i, i < s.numLEDs → s.LEDBuffer[i]? = some (Color 0 0 0) ∧
      ∀ k, k < 24 → wireBitAt s.PWMWaveform (72 * i + 3 * k) = true ∧
        wireBitAt s.PWMWaveform (72 * i + 3 * k + 1) = false ∧
        wireBitAt s.PWMWaveform (72 * i + 3 * k + 2) = false)
    (hsample : ∀ j, j < s.cbLength / 4 → s.sample.getD j 0 = s.PWMWaveform.getD j 0) :
    zeroPixels (numPixels s) 0 s = .ok s ∧ showLeds s = .ok s := by
  constructor
  · obtain ⟨leds, e, _, hz, hf⟩ := zeroPixels_spec s.numLEDs 0 s
      (by rw [hwf.leds_length]; omega)
    have hl : leds = s.LEDBuffer := by
      apply List.ext_getElem?
      intro j
      by_cases hj : j < s.numLEDs
      · rw [hz j (Nat.zero_le _) (by omega), (hdark j hj).1]
      · exact hf j (Or.inr (by omega))
    subst hl
    exact e
  · obtain ⟨s3, e3, wf3, hn3, hb3, hc3, hp, hfl, hfw⟩ := showLeds_spec hv hwf hq h0 h1 hN hcap
    have hpx : ∀ i, i < s.numLEDs → s3.LEDBuffer[i]? = some (Color 0 0 0) ∧
        ∀ k, k < 24 → wireBitAt s3.PWMWaveform (72 * i + 3 * k) = true ∧
          wireBitAt s3.PWMWaveform (72 * i + 3 * k + 1) = false ∧
          wireBitAt s3.PWMWaveform (72 * i + 3 * k + 2) = false := by
      intro i hi
      obtain ⟨c, px, g1, g2, _, _, _, g6, g7, g8, g9⟩ := hp i hi
      have hc : c = Color 0 0 0 := by
        rw [(hdark i hi).1] at g1
        injection g1 with g1
        exact g1.symm
      subst hc
      have hpx : px = Color 0 0 0 := by
        have hr : px.r = 0 := Nat.le_zero.mp g6
        have hg : px.g = 0 := Nat.le_zero.mp g7
        have hb : px.b = 0 := Nat.le_zero.mp g8
        cases px
        simp only at hr hg hb
        rw [hr, hg, hb]
        rfl
      subst hpx
      refine ⟨g2, ?_⟩
      intro k hk
      obtain ⟨a1, a2, a3⟩ := g9 k hk
      have hzero : colorBitsOf (Color 0 0 0) = 0 := by decide
      rw [hzero, Nat.zero_testBit] at a2
      exact ⟨a1, a2, a3⟩
    have hleds : s3.LEDBuffer = s.LEDBuffer := by
      apply List.ext_getElem?
      intro j
      by_cases hj : j < s.numLEDs
      · rw [(hpx j hj).1, (hdark j hj).1]
      · exact hfl j (by omega)
    have hwave : s3.PWMWaveform = s.PWMWaveform := by
      apply wave_eq_of_bits (by rw [wf3.wave_length, hwf.wave_length]) wf3.words hwf.words
      intro p
      by_cases hpn : p < 72 * s.numLEDs
      · have hi : p / 72 < s.numLEDs := by omega
        have hk : p % 72 / 3 < 24 := by omega
        obtain ⟨a1, a2, a3⟩ := (hpx (p / 72) hi).2 (p % 72 / 3) hk
        obtain ⟨b1, b2, b3⟩ := (hdark (p / 72) hi).2 (p % 72 / 3) hk
        have hcases : p % 3 = 0 ∨ p % 3 = 1 ∨ p % 3 = 2 := by omega
        rcases hcases with hc | hc | hc
        · have e : 72 * (p / 72) + 3 * (p % 72 / 3) = p := by omega
          rw [e] at a1 b1
          rw [a1, b1]
        · have e : 72 * (p / 72) + 3 * (p % 72 / 3) + 1 = p := by omega
          rw [e] at a2 b2
          rw [a2, b2]
        · have e : 72 * (p / 72) + 3 * (p % 72 / 3) + 2 = p := by omega
          rw [e] at a3 b3
          rw [a3, b3]
      · exact hfw p (by omega)
    have hsmp : s3.sample = s.sample := by
      apply list_eq_of_getD (by rw [wf3.sample_length, hwf.sample_length])
      intro j
      by_cases hj : j < s.cbLength / 4
      · rw [showLeds_sample e3 j hj, hwave, hsample j hj]
      · exact showLeds_sample_rest e3 j (by omega)
    have hs : s3 = s := by
      cases s3
      cases s
      simp only [State.mk.injEq]
      exact ⟨hn3, hb3, hleds, hwave, hc3, hsmp⟩
    rw [e3, hs]

/-- A run of `terminate()` from a state with the page map allocated and both register blocks
mapped, given the results of its zeroing loop, of the buffer part of its `show()` and of the
address translation: the state in which the process exits, in full. -/
theorem terminate_run {cfg : Config} {hw : HwConfig} {p : Process} {s1 s2 : State} {phys : Nat}
    (hz : zeroPixels (numPixels p.st) 0 p.st = .ok s1) (hs : showLeds s1 = .ok s2)
    (hown : p.page_map_own = .owned) (hdma : p.dma_reg = true) (hpwm : p.pwm_reg = true)
    (hphys : mem_virt_to_phys cfg p.virtbase p.page_map (p.virtbase + hw.cb_offset) = .ok phys) :
    terminate cfg hw p = .ok { p with
      st := s2
      page_map_own := .released
      DMA_CONBLK_AD := phys
      DMA_CS := SETBIT (CLRBIT ((hw.DMA_CS_CONFIGWORD ||| (1 <<< hw.DMA_CS_ACTIVE)) % 2 ^ 32)
        hw.DMA_CS_ACTIVE) hw.DMA_CS_RESET
      PWM_CTL := (1 <<< hw.PWM_CTL_CLRF1) % 2 ^ 32
      writes := p.writes ++ [(Reg.DMA_CONBLK_AD, phys),
        (Reg.DMA_CS, (hw.DMA_CS_CONFIGWORD ||| (1 <<< hw.DMA_CS_ACTIVE)) % 2 ^ 32),
        (Reg.PWM_CTL, SETBIT p.PWM_CTL hw.PWM_CTL_PWEN1),
        (Reg.DMA_CS, CLRBIT ((hw.DMA_CS_CONFIGWORD ||| (1 <<< hw.DMA_CS_ACTIVE)) % 2 ^ 32)
          hw.DMA_CS_ACTIVE),
        (Reg.DMA_CS, SETBIT (CLRBIT ((hw.DMA_CS_CONFIGWORD ||| (1 <<< hw.DMA_CS_ACTIVE)) % 2 ^ 32)
          hw.DMA_CS_ACTIVE) hw.DMA_CS_RESET),
        (Reg.PWM_CTL, CLRBIT (SETBIT p.PWM_CTL hw.PWM_CTL_PWEN1) hw.PWM_CTL_PWEN1),
        (Reg.PWM_CTL, (1 <<< hw.PWM_CTL_CLRF1) % 2 ^ 32)] } := by
  simp only [terminate, hz, showAll, hs, startTransfer, hown, hphys, hdma, hpwm, shutdownDMA,
    shutdownPWM, writeReg, freePageMap, Bool.true_eq_false, if_false, if_true,
    List.append_assoc, List.cons_append, List.nil_append]

/-- A run of `terminate()` on a state whose page map is freed stops in `startTransfer()`, which
reads the freed page map. -/
theorem terminate_released {cfg : Config} {hw : HwConfig} {p : Process} {s1 s2 : State}
    (hz : zeroPixels (numPixels p.st) 0 p.st = .ok s1) (hs : showLeds s1 = .ok s2)
    (hown : p.page_map_own = .released) : terminate cfg hw p = .error .useAfterFree := by
  simp only [terminate, hz, showAll, hs, startTransfer, hown]

/-- C16, amended: `terminate()` is a run-once sequence, which the source ends in `exit(1)`. From a
running state (page map allocated, both register blocks mapped, the control block inside the
mapped region, LED count within capacity, brightness in `[0, 1]`) the sequence completes and
leaves `page_map` freed with the pointer still set. Run a second time on the state it leaves,
the sequence does not complete: its `show()` stops in `startTransfer()` on the freed page map,
and its `free(page_map)` step would release the array a second time. Everything but the page map
is a fixed point: were the page map still allocated, the second run would complete and leave the
pixel buffer, the waveform buffer, the sample buffer and the values of `DMA_CS`, `DMA_CONBLK_AD`
and `PWM_CTL` as the first run left them, and `page_map` freed. -/
theorem terminate_runs_once (cfg : Config) (hw : HwConfig) (p : Process) (q : ℚ) (phys : Nat)
    (hv : cfg.Valid) (hwf : p.st.WF cfg) (hq : p.st.brightness.toRat = some q) (h0 : 0 ≤ q)
    (h1 : q ≤ 1) (hN : p.st.numLEDs ≤ cfg.NUM_PIXELS)
    (hcap : 72 * p.st.numLEDs ≤ 32 * cfg.NUM_DATA_WORDS)
    (hown : p.page_map_own = .owned) (hdma : p.dma_reg = true) (hpwm : p.pwm_reg = true)
    (hphys : mem_virt_to_phys cfg p.virtbase p.page_map (p.virtbase + hw.cb_offset) = .ok phys) :
    ∃ p1, terminate cfg hw p = .ok p1 ∧ p1.page_map_own = .released ∧
      terminate cfg hw p1 = .error .useAfterFree ∧ (∀ p2, terminate cfg hw p1 ≠ .ok p2) ∧
      freePageMap p1 = .error .doubleFree ∧
      ∃ p2, terminate cfg hw { p1 with page_map_own := .owned } = .ok p2 ∧
        p2.st = p1.st ∧ p2.DMA_CS = p1.DMA_CS ∧ p2.DMA_CONBLK_AD = p1.DMA_CONBLK_AD ∧
        p2.PWM_CTL = p1.PWM_CTL ∧ p2.page_map_own = p1.page_map_own := by
  obtain ⟨s1, s2, hz, hs, wf2, hn2, hb2, hc2, hdark, hsmp⟩ :=
    zero_then_show hv hwf hq h0 h1 hN hcap
  obtain ⟨fz, fs⟩ := dark_fixed hv wf2 (by rw [hb2]; exact hq) h0 h1 (by rw [hn2]; exact hN)
    (by rw [hn2]; exact hcap) (by rw [hn2]; exact hdark) (by rw [hc2]; exact hsmp)
  have run1 := terminate_run hz hs hown hdma hpwm hphys
  refine ⟨_, run1, rfl, ?_, ?_, rfl, ?_⟩
  · exact terminate_released fz fs rfl
  · intro p2 h2
    rw [terminate_released fz fs rfl] at h2
    cases h2
  · exact ⟨_, terminate_run fz fs rfl hdma hpwm hphys, rfl, rfl, rfl, rfl, rfl⟩

/-- Witness of C16: the running demo process. Its first run completes and frees the page map; a
second run on the state it leaves stops on the freed page map. -/
theorem terminate_runs_once_witness :
    ∃ p1, terminate demoConfig demoHw demoProcess = .ok p1 ∧ p1.page_map_own = .released ∧
      terminate demoConfig demoHw p1 = .error .useAfterFree :=
  (terminate_runs_once demoConfig demoHw demoProcess 1 0x40005000 demoConfig_valid demoWhite_wf
    brightnessOne_toRat (by norm_num) (le_refl _) (by decide) (by decide) rfl rfl rfl
    (by decide)).imp fun _ h => ⟨h.1, h.2.1, h.2.2.1⟩

/-! ### Bit reversal -/

theorem bitVal_testBit (c : Prop) [Decidable c] (k : Nat) :
    (if c then 1 else 0 : Nat).testBit k = (decide c && decide (k = 0)) := by
  by_cases h : c
  · rw [if_pos h, show (1 : Nat) = 2 ^ 0 from rfl, Nat.testBit_two_pow]
    simp [h, eq_comm]
  · rw [if_neg h]
    simp [h]

/-- The new low bit of one turn of the loop of `reverseWord`. -/
theorem lowBit_testBit (w i k : Nat) :
    (if w &&& (1 <<< i) ≠ 0 then 1 else 0 : Nat).testBit k = (w.testBit i && decide (k = 0)) := by
  rw [bitVal_testBit]
  congr 1
  cases h : w.testBit i
  · have : ¬ (w &&& (1 <<< i) ≠ 0) := fun hc => by
      rw [(colorBit_test w i).mp hc] at h
      cases h
    simp [this]
  · have := (colorBit_test w i).mpr h
    simp [this]

/-- The loop of `reverseWord` from turn `i` on, when the bits `0` to `i - 1` of the word stand
at the positions `i` down to `1` of `output`: the result holds bit `31 - m` of the word at every
position `m ≤ 31` and nothing above. -/
theorem reverseLoop_spec (w : Nat) : ∀ (n i out : Nat), i + n = 32 → 1 ≤ n →
    (∀ m, out.testBit m = (decide (1 ≤ m ∧ m ≤ i) && w.testBit (i - m))) →
    ∀ m, (reverseLoop w n i out).testBit m = (decide (m ≤ 31) && w.testBit (31 - m)) := by
  intro n
  induction n with
  | zero =>
    intro i out _ h1 _
    omega
  | succ n ih =>
    intro i out hin _ hinv
    by_cases hlast : i = 31
    · subst hlast
      have hn : n = 0 := by omega
      subst hn
      intro m
      simp only [reverseLoop, Nat.lt_irrefl, if_false]
      rw [Nat.testBit_lor, hinv m, lowBit_testBit]
      by_cases hm : m = 0
      · subst hm
        simp
      · have h1 : 1 ≤ m := by omega
        by_cases h2 : m ≤ 31 <;> simp [hm, h1, h2]
    · have hi : i < 31 := by omega
      have hstep : ∀ m, (((out ||| (if w &&& (1 <<< i) ≠ 0 then 1 else 0)) <<< 1) % 2 ^ 32).testBit m
          = (decide (1 ≤ m ∧ m ≤ i + 1) && w.testBit (i + 1 - m)) := by
        intro m
        rw [Nat.testBit_mod_two_pow, Nat.testBit_shiftLeft, Nat.testBit_lor, hinv (m - 1),
          lowBit_testBit]
        by_cases hm0 : m = 0
        · subst hm0
          simp
        · by_cases hm1 : m = 1
          · subst hm1
            simp
          · have e1 : ¬ (m - 1 = 0) := by omega
            have e2 : m ≥ 1 := by omega
            by_cases hmi : m ≤ i + 1
            · have e3 : 1 ≤ m - 1 ∧ m - 1 ≤ i := by omega
              have e4 : 1 ≤ m ∧ m ≤ i + 1 := by omega
              have e5 : m < 32 := by omega
              have e6 : i - (m - 1) = i + 1 - m := by omega
              simp [e1, e2, e3, e4, e5, e6]
            · have e3 : ¬ (1 ≤ m - 1 ∧ m - 1 ≤ i) := by omega
              have e4 : ¬ (1 ≤ m ∧ m ≤ i + 1) := by omega
              rw [decide_eq_false e3, decide_eq_false e4, decide_eq_false e1]
              simp
      have := ih (i + 1) _ (by omega) (by omega) hstep
      simp only [reverseLoop, hi, if_true]
      exact this

/-- C18: bit `k` of `reverseWord(w)` is bit `31 - k` of `w` for every `k` in `0..31`, the result
is a 32-bit word, and for a 32-bit `w` reversing twice gives `w` back. -/
theorem reverseWord_reverses (w : Nat) :
    (∀ k, k < 32 → (reverseWord w).testBit k = w.testBit (31 - k)) ∧
      reverseWord w < 2 ^ 32 ∧ (w < 2 ^ 32 → reverseWord (reverseWord w) = w) := by
  have hspec : ∀ x m, (reverseWord x).testBit m = (decide (m ≤ 31) && x.testBit (31 - m)) := by
    intro x m
    unfold reverseWord
    apply reverseLoop_spec x 32 0 0 rfl (by norm_num)
    intro k
    have : ¬ (1 ≤ k ∧ k ≤ 0) := by omega
    rw [Nat.zero_testBit, decide_eq_false this]
    rfl
  refine ⟨?_, ?_, ?_⟩
  · intro k hk
    rw [hspec]
    have : k ≤ 31 := by omega
    simp [this]
  · apply Nat.lt_pow_two_of_testBit
    intro i hi
    rw [hspec]
    have : ¬ i ≤ 31 := by omega
    simp [this]
  · intro hw
    apply Nat.eq_of_testBit_eq
    intro i
    rw [hspec, hspec]
    by_cases hi : i ≤ 31
    · have h1 : 31 - i ≤ 31 := by omega
      have h2 : 31 - (31 - i) = i := by omega
      simp [hi, h1, h2]
    · have hp : 2 ^ 32 ≤ 2 ^ i := Nat.pow_le_pow_right (by norm_num) (by omega)
      rw [Nat.testBit_lt_two_pow (lt_of_lt_of_le hw hp)]
      simp [hi]

/-- Witness of C18: reversing `0x12345678` twice. -/
theorem reverseWord_reverses_witness : reverseWord (reverseWord 0x12345678) = 0x12345678 :=
  (reverseWord_reverses 0x12345678).2.2 (by norm_num)

end WS2812
